import Mathlib

/-!
Shallow embedding of the rust skew heap library (src/lib.rs) and proofs about it.

The rust code stores tree nodes in a growable arena (a vector of nodes indexed by
usize handles) with a FIFO free list, and implements a recursive skew merge plus a
compaction (defrag) pass.  We embed the code as follows:

* machine integers (usize) become Nat; the subtraction in `take` (count -= 1) is
  modelled by a checked subtraction because usize subtraction panics on underflow
  in debug builds;
* fallible steps (arena indexing, which panics out of bounds, and possible
  nontermination of the recursive merge, which is fuel counted) return Option:
  a none result models a panic or divergence of the rust code;
* the item type is any linear order, matching the PartialOrd bound of the rust
  code on the orders actually used;
* Vec becomes List, VecDeque becomes List with head as front.
-/

namespace Skew

/-- One arena slot, mirroring struct Node of src/lib.rs: an optional item plus
left, right and parent links given as optional arena indices. -/
structure Node (α : Type) where
  item   : Option α
  left   : Option Nat
  right  : Option Nat
  parent : Option Nat
  deriving Repr, DecidableEq

/-- The heap state, mirroring struct SkewHeap of src/lib.rs. -/
structure SkewHeap (α : Type) where
  count : Nat
  root  : Option Nat
  nodes : List (Node α)
  freed : List Nat
  deriving Repr, DecidableEq

/-- Checked Nat subtraction: usize subtraction panics on underflow (debug
builds), so a none result models that panic. -/
def checkSub (a b : Nat) : Option Nat :=
  if b ≤ a then some (a - b) else none

/-- Comparison of two nodes as done by the derived PartialOrd of Option plus the
manual PartialOrd impl for Node: nodes compare by item, and a missing item is
smaller than a present one.  This is the test nodes(a) > nodes(b) at line 112 of
src/lib.rs. -/
def nodeGt [LinearOrder α] (na nb : Node α) : Bool :=
  match na.item, nb.item with
  | none, _ => false
  | some _, none => true
  | some x, some y => decide (y < x)

/-- Construction of a fresh node, mirroring Node::new(Some(item)). -/
def Node.fresh (x : α) : Node α :=
  ⟨some x, none, none, none⟩

/-- Returns a new SkewHeap, mirroring SkewHeap::new. -/
def SkewHeap.new : SkewHeap α :=
  ⟨0, none, [], []⟩

/-- Returns the number of items in the SkewHeap, mirroring SkewHeap::size. -/
def SkewHeap.size (h : SkewHeap α) : Nat :=
  h.count

/-- Returns true if there are no items in the SkewHeap, mirroring
SkewHeap::is_empty. -/
def SkewHeap.is_empty (h : SkewHeap α) : Bool :=
  decide (h.count = 0)

/-- The recursive merge of src/lib.rs lines 107 to 131.  It operates on the node
arena only, so we pass the node list instead of the whole heap.  The rust
recursion is not structurally decreasing, so we count fuel; running out of fuel
models divergence (which on the rust side is unbounded recursion).  Writes to
nodes(a) reread the arena after the recursive call exactly as the rust code
does. -/
def SkewHeap.merge [LinearOrder α] :
    Nat → List (Node α) → Option Nat → Option Nat → Option (List (Node α) × Option Nat)
  | 0, _, _, _ => none
  | _ + 1, nodes, none, none => some (nodes, none)
  | _ + 1, nodes, some a, none => some (nodes, some a)
  | _ + 1, nodes, none, some b => some (nodes, some b)
  | fuel + 1, nodes, some a, some b => do
      let na ← nodes[a]?
      let nb ← nodes[b]?
      if nodeGt na nb then
        SkewHeap.merge fuel nodes (some b) (some a)
      else do
        let (nodes1, newLeft) ← SkewHeap.merge fuel nodes (some b) na.right
        let na1 ← nodes1[a]?
        let nodes2 := nodes1.set a { na1 with right := na1.left, left := newLeft }
        match newLeft with
        | none => some (nodes2, some a)
        | some nl => do
            let nlN ← nodes2[nl]?
            some (nodes2.set nl { nlN with parent := some a }, some a)

/-- Fuel that is always sufficient for merge on a well formed heap: the merge
recursion depth is bounded by twice the number of live nodes, which is bounded
by the arena length. -/
def mergeFuel (h : SkewHeap α) : Nat :=
  2 * h.nodes.length + 3

/-- SkewHeap::alloc_node, lines 133 to 141: pop the oldest freed index and store
the item there (the links of the reused slot are left untouched by the rust
code), or push a fresh node. -/
def SkewHeap.alloc_node (h : SkewHeap α) (x : α) : Option (SkewHeap α × Option Nat) :=
  match h.freed with
  | idx :: rest => do
      let nd ← h.nodes[idx]?
      some ({ h with nodes := h.nodes.set idx { nd with item := some x }, freed := rest },
            some idx)
  | [] =>
      some ({ h with nodes := h.nodes ++ [Node.fresh x] }, some h.nodes.length)

/-- SkewHeap::free_node, lines 143 to 146: clear the item and push the index to
the back of the free queue. -/
def SkewHeap.free_node (h : SkewHeap α) (idx : Nat) : Option (SkewHeap α) := do
  let nd ← h.nodes[idx]?
  some { h with nodes := h.nodes.set idx { nd with item := none }, freed := h.freed ++ [idx] }

/-- Inserts an item into the heap and returns the new size, mirroring
SkewHeap::put, lines 74 to 79. -/
def SkewHeap.put [LinearOrder α] (h : SkewHeap α) (x : α) : Option (SkewHeap α × Nat) := do
  let (h1, node) ← h.alloc_node x
  let (nodes2, newRoot) ← SkewHeap.merge (mergeFuel h1) h1.nodes h1.root node
  some ({ h1 with nodes := nodes2, root := newRoot, count := h1.count + 1 }, h1.count + 1)

/-- Retrieves the top item without removing it, mirroring SkewHeap::peek, lines
100 to 105. -/
def SkewHeap.peek (h : SkewHeap α) : Option (Option α) :=
  match h.root with
  | none => some none
  | some n => (h.nodes[n]?).map (·.item)

/-- The defrag trigger of SkewHeap::needs_defrag, lines 194 to 197: arena length
at least 100 and more than ninety percent of the slots freed, computed with
truncating integer division exactly as in the rust code. -/
def SkewHeap.needs_defrag (h : SkewHeap α) : Bool :=
  decide (100 ≤ h.nodes.length) && decide (90 * h.nodes.length / 100 < h.freed.length)

/-- Sorting of the free queue, modelling freed.make_contiguous().sort(). -/
def sortNat (l : List Nat) : List Nat :=
  l.mergeSort (· ≤ ·)

/-- The field by field copy of SkewHeap::realloc_node lines 161 to 164: each
right hand side is read from the current arena, then the destination slot is
written, exactly in source order. -/
def SkewHeap.reallocCopy (h : SkewHeap α) (src dst : Nat) : Option (SkewHeap α) := do
  let s1 ← h.nodes[src]?
  let t1 ← h.nodes[dst]?
  let h2 : SkewHeap α := { h with nodes := h.nodes.set dst { t1 with left := s1.left } }
  let s2 ← h2.nodes[src]?
  let t2 ← h2.nodes[dst]?
  let h3 : SkewHeap α := { h2 with nodes := h2.nodes.set dst { t2 with right := s2.right } }
  let s3 ← h3.nodes[src]?
  let t3 ← h3.nodes[dst]?
  let h4 : SkewHeap α := { h3 with nodes := h3.nodes.set dst { t3 with parent := s3.parent } }
  let s4 ← h4.nodes[src]?
  let t4 ← h4.nodes[dst]?
  some { h4 with nodes := h4.nodes.set dst { t4 with item := s4.item } }

/-- The parent child link update of SkewHeap::realloc_node lines 167 to 173. -/
def SkewHeap.reallocFixParent (h : SkewHeap α) (src dst : Nat) : Option (SkewHeap α) := do
  let t5 ← h.nodes[dst]?
  match t5.parent with
  | none => some h
  | some p => do
      let pN ← h.nodes[p]?
      if pN.left = some src then
        some { h with nodes := h.nodes.set p { pN with left := some dst } }
      else if pN.right = some src then
        some { h with nodes := h.nodes.set p { pN with right := some dst } }
      else
        some h

/-- The left child parent link update of SkewHeap::realloc_node lines 176
to 178. -/
def SkewHeap.reallocFixLeft (h : SkewHeap α) (dst : Nat) : Option (SkewHeap α) := do
  let t6 ← h.nodes[dst]?
  match t6.left with
  | none => some h
  | some l => do
      let lN ← h.nodes[l]?
      some { h with nodes := h.nodes.set l { lN with parent := some dst } }

/-- The right child parent link update of SkewHeap::realloc_node lines 181
to 183. -/
def SkewHeap.reallocFixRight (h : SkewHeap α) (dst : Nat) : Option (SkewHeap α) := do
  let t7 ← h.nodes[dst]?
  match t7.right with
  | none => some h
  | some r => do
      let rN ← h.nodes[r]?
      some { h with nodes := h.nodes.set r { rN with parent := some dst } }

/-- SkewHeap::realloc_node, lines 148 to 192.  The free queue is sorted, then if
the smallest free index is at most the source index the node is copied there
field by field, the parent child link and the children parent links are fixed
up, and the source slot is freed.  Each arena read is bounds checked (a rust
index panic becomes none). -/
def SkewHeap.realloc_node (h : SkewHeap α) (src : Nat) :
    Option (SkewHeap α × Option Nat) :=
  let h0 : SkewHeap α := { h with freed := sortNat h.freed }
  match h0.freed with
  | [] => some (h0, none)
  | first :: rest =>
      if src < first then some (h0, none)
      else do
        let h1 : SkewHeap α := { h0 with freed := rest }
        let h5 ← h1.reallocCopy src first
        let h6 ← h5.reallocFixParent src first
        let h7 ← h6.reallocFixLeft first
        let h8 ← h7.reallocFixRight first
        let h9 ← h8.free_node src
        some (h9, some first)

/-- One iteration body of the defrag loop (lines 203 to 226 without the
decrement): process index i, returning the new heap and whether the loop breaks
because realloc ran out of lower free slots. -/
def SkewHeap.defragStep (h : SkewHeap α) (i : Nat) : Option (SkewHeap α × Bool) := do
  let nd ← h.nodes[i]?
  match nd.item with
  | none => some (h, false)
  | some _ => do
      let (h1, res) ← h.realloc_node i
      match res with
      | some newIndex =>
          let h2 := if h1.root = some i then { h1 with root := some newIndex } else h1
          some (h2, false)
      | none => some (h1, true)

/-- The defrag loop of SkewHeap::defrag (lines 201 to 226), by recursion on the
decreasing index.  Returns the heap and the final value of i, which the
truncation test below the loop uses. -/
def SkewHeap.defragLoop : Nat → SkewHeap α → Option (SkewHeap α × Nat)
  | i, h =>
      if h.needs_defrag = false then some (h, i)
      else do
        let (h1, brk) ← h.defragStep i
        if brk then some (h1, i)
        else
          match i with
          | 0 => some (h1, 0)
          | j + 1 => SkewHeap.defragLoop j h1

/-- SkewHeap::defrag, lines 199 to 234.  The initial index nodes.len() - 1 is a
checked subtraction (usize underflow on an empty arena), and the truncation
length nodes.len() - freed.len() likewise. -/
def SkewHeap.defrag (h : SkewHeap α) : Option (SkewHeap α) := do
  let i0 ← checkSub h.nodes.length 1
  let (h1, iEnd) ← SkewHeap.defragLoop i0 h
  if iEnd < h1.nodes.length - 1 then do
    let keep ← checkSub h1.nodes.length h1.freed.length
    some { h1 with nodes := h1.nodes.take keep, freed := [] }
  else
    some h1

/-- Removes and retrieves the top item, mirroring SkewHeap::take, lines 82
to 97: read the root item, decrement count, merge the two children into the new
root, free the old root, and defrag when the trigger holds. -/
def SkewHeap.take [LinearOrder α] (h : SkewHeap α) : Option (SkewHeap α × Option α) :=
  match h.root with
  | none => some (h, none)
  | some root => do
      let rootNd ← h.nodes[root]?
      let item := rootNd.item
      let newCount ← checkSub h.count 1
      let h1 : SkewHeap α := { h with count := newCount }
      let (nodes2, newRoot) ← SkewHeap.merge (mergeFuel h1) h1.nodes rootNd.left rootNd.right
      let h2 : SkewHeap α := { h1 with nodes := nodes2, root := newRoot }
      let h3 ← h2.free_node root
      let h4 ← if h3.needs_defrag then h3.defrag else some h3
      some (h4, item)

/-- SkewHeap::take with the compaction check removed (lines 89 to 91 deleted),
used to state that compaction does not change observable behavior. -/
def SkewHeap.takePre [LinearOrder α] (h : SkewHeap α) : Option (SkewHeap α × Option α) :=
  match h.root with
  | none => some (h, none)
  | some root => do
      let rootNd ← h.nodes[root]?
      let item := rootNd.item
      let newCount ← checkSub h.count 1
      let h1 : SkewHeap α := { h with count := newCount }
      let (nodes2, newRoot) ← SkewHeap.merge (mergeFuel h1) h1.nodes rootNd.left rootNd.right
      let h2 : SkewHeap α := { h1 with nodes := nodes2, root := newRoot }
      let h3 ← h2.free_node root
      some (h3, item)

/-- Runs put for each list element in order, from the given heap. -/
def SkewHeap.putList [LinearOrder α] : SkewHeap α → List α → Option (SkewHeap α)
  | h, [] => some h
  | h, x :: xs => do
      let (h1, _) ← h.put x
      h1.putList xs

/-- Repeated take until the heap reports empty (the while not is_empty loop of
the library consumers), with fuel; on a well formed heap the fuel count equals
the item count. -/
def SkewHeap.drain [LinearOrder α] : Nat → SkewHeap α → Option (List α)
  | 0, h => if h.count = 0 then some [] else none
  | n + 1, h =>
      if h.count = 0 then some [] else do
        let (h1, x?) ← h.take
        match x? with
        | none => none
        | some x => do
            let rest ← SkewHeap.drain n h1
            some (x :: rest)

/-! ## Abstract trees

An ITree records which arena index holds each tree node; an STree is the pure
item tree obtained by erasing the indices.  The functional merge on each
mirrors the skew merge of the rust code. -/

/-- Binary tree of items annotated with the arena index of each node. -/
inductive ITree (α : Type) where
  | leaf
  | node (idx : Nat) (item : α) (l r : ITree α)
  deriving Repr, DecidableEq

/-- Binary tree of items only. -/
inductive STree (α : Type) where
  | leaf
  | node (item : α) (l r : STree α)
  deriving Repr, DecidableEq

/-- Number of nodes of an ITree. -/
def ITree.size : ITree α → Nat
  | .leaf => 0
  | .node _ _ l r => l.size + r.size + 1

/-- Preorder list of the arena indices of an ITree. -/
def ITree.idxs : ITree α → List Nat
  | .leaf => []
  | .node i _ l r => i :: (l.idxs ++ r.idxs)

/-- Arena index of the root of an ITree, if any. -/
def ITree.rootI : ITree α → Option Nat
  | .leaf => none
  | .node i _ _ _ => some i

/-- Forgets the arena indices. -/
def ITree.erase : ITree α → STree α
  | .leaf => .leaf
  | .node _ x l r => .node x l.erase r.erase

/-- Renames arena index a to b everywhere in the tree. -/
def ITree.rename (a b : Nat) : ITree α → ITree α
  | .leaf => .leaf
  | .node i x l r => .node (if i = a then b else i) x (l.rename a b) (r.rename a b)

/-- Number of nodes of an STree. -/
def STree.size : STree α → Nat
  | .leaf => 0
  | .node _ l r => l.size + r.size + 1

/-- Preorder list of the items of an STree. -/
def STree.items : STree α → List α
  | .leaf => []
  | .node x l r => x :: (l.items ++ r.items)

/-- The functional skew merge on item trees, mirroring SkewHeap::merge: the
node with the strictly larger root loses, ties go to the first argument; the
winner keeps its root, its new left child is the merge of the loser with its
old right child, and its new right child is its old left child. -/
def STree.fmerge [LinearOrder α] : STree α → STree α → STree α
  | .leaf, t => t
  | t, .leaf => t
  | .node xa la ra, .node xb lb rb =>
      if xb < xa then .node xb (STree.fmerge (.node xa la ra) rb) lb
      else .node xa (STree.fmerge (.node xb lb rb) ra) la
termination_by a b => a.size + b.size
decreasing_by
  · simp [STree.size]; omega
  · simp [STree.size]; omega

/-- The functional skew merge on indexed trees, same recursion as
STree.fmerge. -/
def ITree.fmerge [LinearOrder α] : ITree α → ITree α → ITree α
  | .leaf, t => t
  | t, .leaf => t
  | .node a xa la ra, .node b xb lb rb =>
      if xb < xa then .node b xb (ITree.fmerge (.node a xa la ra) rb) lb
      else .node a xa (ITree.fmerge (.node b xb lb rb) ra) la
termination_by a b => a.size + b.size
decreasing_by
  · simp [ITree.size]; omega
  · simp [ITree.size]; omega

/-- The min heap property as a boolean: every node is at most each item in its
subtrees. -/
def STree.heapB [LinearOrder α] : STree α → Bool
  | .leaf => true
  | .node x l r =>
      l.items.all (fun y => decide (x ≤ y)) && r.items.all (fun y => decide (x ≤ y))
        && l.heapB && r.heapB

/-- Repeatedly removes the root of an item tree, merging the two children, with
fuel; with fuel at least the size this drains the whole tree. -/
def STree.drainAux [LinearOrder α] : Nat → STree α → List α
  | 0, _ => []
  | _ + 1, .leaf => []
  | n + 1, .node x l r => x :: STree.drainAux n (l.fmerge r)

/-- Drains the whole item tree. -/
def STree.drain [LinearOrder α] (t : STree α) : List α :=
  STree.drainAux t.size t

/-! ## The abstraction relation and the heap invariant -/

/-- Shape nodes root t states that following the root handle and the left and
right links through the arena yields exactly the indexed tree t, every visited
slot holding the item recorded in t. -/
inductive Shape (nodes : List (Node α)) : Option Nat → ITree α → Prop where
  | leaf : Shape nodes none .leaf
  | node {i : Nat} {x : α} {l r : ITree α} {nd : Node α} :
      nodes[i]? = some nd → nd.item = some x →
      Shape nodes nd.left l → Shape nodes nd.right r →
      Shape nodes (some i) (.node i x l r)

/-- The root of the given subtree, when present, records p as its parent in the
arena. -/
def ChildParent (nodes : List (Node α)) (t : ITree α) (p : Nat) : Prop :=
  match t.rootI with
  | none => True
  | some c => ∃ nd, nodes[c]? = some nd ∧ nd.parent = some p

/-- Every non root node of the tree records its actual tree parent in the
arena. -/
def ParentAcc (nodes : List (Node α)) : ITree α → Prop
  | .leaf => True
  | .node i _ l r =>
      ChildParent nodes l i ∧ ChildParent nodes r i ∧ ParentAcc nodes l ∧ ParentAcc nodes r

/-- The fields of a node that Shape reads: item, left and right. -/
def Node.core (nd : Node α) : Option α × Option Nat × Option Nat :=
  (nd.item, nd.left, nd.right)

/-- Occurs s t states that s is a subtree of t. -/
inductive Occurs : ITree α → ITree α → Prop where
  | refl (t : ITree α) : Occurs t t
  | left {s l r : ITree α} {i : Nat} {x : α} : Occurs s l → Occurs s (.node i x l r)
  | right {s l r : ITree α} {i : Nat} {x : α} : Occurs s r → Occurs s (.node i x l r)

/-- The structural invariant of a heap state, relative to the indexed tree t it
stores: the arena spells out t from the root handle, indices are not shared,
count matches, the freed queue holds exactly the dead slots (in bounds, without
duplicates, items cleared), and parent links of non root live nodes are
accurate. -/
structure InvT (h : SkewHeap α) (t : ITree α) : Prop where
  shape : Shape h.nodes h.root t
  nodup : t.idxs.Nodup
  countEq : h.count = t.size
  freedBound : ∀ j ∈ h.freed, j < h.nodes.length
  freedNodup : h.freed.Nodup
  liveIff : ∀ j nd, h.nodes[j]? = some nd → (nd.item.isSome = true ↔ j ∈ t.idxs)
  freedIff : ∀ j, j < h.nodes.length → (j ∈ h.freed ↔ j ∉ t.idxs)
  arith : h.nodes.length = t.size + h.freed.length
  parentAcc : ParentAcc h.nodes t

/-- The full invariant: some indexed tree satisfies the structural invariant
and its item tree is a min heap. -/
def InvH [LinearOrder α] (h : SkewHeap α) : Prop :=
  ∃ t : ITree α, InvT h t ∧ t.erase.heapB = true

/-- Freed slots carry no links, the freed slot part of the §3 invariant list of
the specification. -/
def CleanFreed (h : SkewHeap α) : Prop :=
  ∀ j ∈ h.freed, ∀ nd : Node α, h.nodes[j]? = some nd →
    nd.left = none ∧ nd.right = none ∧ nd.parent = none

/-- The parent link of the root, when present at all, stays inside the arena;
a consequence of the parent part of the §3 invariant list of the specification
(a root parent of none) and of what take actually establishes. -/
def RootParentOk (h : SkewHeap α) : Prop :=
  ∀ w, h.root = some w → ∀ nd : Node α, h.nodes[w]? = some nd →
    ∀ p, nd.parent = some p → p < h.nodes.length

/-! ## The adopt operation, modelled from the specification

The repository sources under src/ do not define adopt; the specification
describes it in §4.2 and §3.  We model the heap a merge level operation sees as
its item tree plus its count, with take and drain mirroring §4.2. -/

/-- Functional heap view: the stored item tree plus the live count. -/
structure FHeap (α : Type) where
  tree : STree α
  count : Nat
  deriving Repr, DecidableEq

/-- Take on the functional heap view, following §4.2 of the specification:
capture the root item, merge the two children, decrement the count. -/
def FHeap.take [LinearOrder α] (h : FHeap α) : FHeap α × Option α :=
  match h.tree with
  | .leaf => (h, none)
  | .node x l r => (⟨l.fmerge r, h.count - 1⟩, some x)

/-- Repeated take on the functional heap view until empty, with fuel. -/
def FHeap.drain [LinearOrder α] : Nat → FHeap α → List α
  | 0, _ => []
  | n + 1, h =>
      match h.tree with
      | .leaf => []
      | .node x l r => x :: FHeap.drain n ⟨l.fmerge r, h.count - 1⟩

/-- Modelled from the spec: adopt is not present under src/ (the specification
describes it in §4.2 and §3).  Following the words of §4.2: root becomes
merge(root, other root), the count of the other heap is added, and the other
heap is reset to the empty heap state (root none, count zero). -/
def FHeap.adopt [LinearOrder α] (a b : FHeap α) : FHeap α × FHeap α :=
  (⟨a.tree.fmerge b.tree, a.count + b.count⟩, ⟨.leaf, 0⟩)

/-- Bundled conclusion of the merge simulation: merge succeeds and returns the
root of the functional merge, the final arena spells out the functional merge,
parent accuracy holds for it, slots outside the two trees are untouched, every
item is preserved, and the parent field of the resulting root is preserved. -/
def MergeOut [LinearOrder α] (fuel : Nat) (nodes : List (Node α)) (ta tb : ITree α) : Prop :=
  ∃ nodes2 : List (Node α),
    SkewHeap.merge fuel nodes ta.rootI tb.rootI = some (nodes2, (ITree.fmerge ta tb).rootI) ∧
    nodes2.length = nodes.length ∧
    Shape nodes2 (ITree.fmerge ta tb).rootI (ITree.fmerge ta tb) ∧
    ParentAcc nodes2 (ITree.fmerge ta tb) ∧
    (∀ j, j ∉ ta.idxs → j ∉ tb.idxs → nodes2[j]? = nodes[j]?) ∧
    (∀ j, ∀ nd : Node α, nodes[j]? = some nd → ∃ nd2, nodes2[j]? = some nd2 ∧
      nd2.item = nd.item ∧ ((ITree.fmerge ta tb).rootI = some j → nd2.parent = nd.parent))

/-! ## Lemmas: the functional item tree -/

theorem STree.fmerge_leaf_left [LinearOrder α] (t : STree α) : STree.fmerge .leaf t = t := by
  cases t <;> simp [STree.fmerge]

theorem STree.fmerge_leaf_right [LinearOrder α] (t : STree α) : STree.fmerge t .leaf = t := by
  cases t <;> simp [STree.fmerge]

theorem STree.size_fmerge [LinearOrder α] (a b : STree α) :
    (STree.fmerge a b).size = a.size + b.size := by
  induction a, b using STree.fmerge.induct with
  | case1 t => simp [STree.fmerge, STree.size]
  | case2 t h => simp [STree.fmerge, STree.size]
  | case3 xa la ra xb lb rb hlt ih =>
      rw [STree.fmerge, if_pos hlt]
      simp [STree.size] at ih ⊢
      omega
  | case4 xa la ra xb lb rb hlt ih =>
      rw [STree.fmerge, if_neg hlt]
      simp [STree.size] at ih ⊢
      omega

theorem STree.items_fmerge_perm [LinearOrder α] (a b : STree α) :
    (STree.fmerge a b).items.Perm (a.items ++ b.items) := by
  induction a, b using STree.fmerge.induct with
  | case1 t => simp [STree.fmerge, STree.items]
  | case2 t h => cases t <;> simp [STree.fmerge, STree.items]
  | case3 xa la ra xb lb rb hlt ih =>
      rw [STree.fmerge, if_pos hlt]
      rw [← Multiset.coe_eq_coe] at ih ⊢
      simp only [STree.items, ← Multiset.cons_coe, ← Multiset.coe_add,
        ← Multiset.singleton_add] at ih ⊢
      rw [ih]
      simp only [add_assoc, add_comm, add_left_comm]
  | case4 xa la ra xb lb rb hlt ih =>
      rw [STree.fmerge, if_neg hlt]
      rw [← Multiset.coe_eq_coe] at ih ⊢
      simp only [STree.items, ← Multiset.cons_coe, ← Multiset.coe_add,
        ← Multiset.singleton_add] at ih ⊢
      rw [ih]
      simp only [add_assoc, add_comm, add_left_comm]

theorem STree.mem_items_fmerge [LinearOrder α] {a b : STree α} {y : α} :
    y ∈ (STree.fmerge a b).items ↔ y ∈ a.items ∨ y ∈ b.items := by
  rw [(STree.items_fmerge_perm a b).mem_iff, List.mem_append]

theorem STree.heapB_node_iff [LinearOrder α] {x : α} {l r : STree α} :
    (STree.node x l r).heapB = true ↔
      (∀ y ∈ l.items, x ≤ y) ∧ (∀ y ∈ r.items, x ≤ y) ∧ l.heapB = true ∧ r.heapB = true := by
  simp [STree.heapB, List.all_eq_true, and_assoc]

theorem STree.heapB_le_items [LinearOrder α] {x : α} {l r : STree α}
    (h : (STree.node x l r).heapB = true) : ∀ y ∈ (STree.node x l r).items, x ≤ y := by
  rw [STree.heapB_node_iff] at h
  intro y hy
  simp only [STree.items, List.mem_cons, List.mem_append] at hy
  rcases hy with rfl | hy | hy
  · exact le_refl y
  · exact h.1 y hy
  · exact h.2.1 y hy

theorem STree.heapB_fmerge [LinearOrder α] {a b : STree α}
    (ha : a.heapB = true) (hb : b.heapB = true) : (STree.fmerge a b).heapB = true := by
  induction a, b using STree.fmerge.induct with
  | case1 t => simpa [STree.fmerge] using hb
  | case2 t h => cases t <;> simp_all [STree.fmerge]
  | case3 xa la ra xb lb rb hlt ih =>
      rw [STree.fmerge, if_pos hlt]
      have hb' := STree.heapB_node_iff.mp hb
      rw [STree.heapB_node_iff]
      refine ⟨?_, hb'.1, ih ha hb'.2.2.2, hb'.2.2.1⟩
      intro y hy
      rcases STree.mem_items_fmerge.mp hy with hy | hy
      · exact le_of_lt (lt_of_lt_of_le hlt (STree.heapB_le_items ha y hy))
      · exact hb'.2.1 y hy
  | case4 xa la ra xb lb rb hlt ih =>
      rw [STree.fmerge, if_neg hlt]
      have ha' := STree.heapB_node_iff.mp ha
      rw [STree.heapB_node_iff]
      refine ⟨?_, ha'.1, ih hb ha'.2.2.2, ha'.2.2.1⟩
      intro y hy
      rcases STree.mem_items_fmerge.mp hy with hy | hy
      · exact (le_of_not_lt hlt).trans (STree.heapB_le_items hb y hy)
      · exact ha'.2.1 y hy

theorem STree.drainAux_perm [LinearOrder α] :
    ∀ (n : Nat) (t : STree α), t.heapB = true → t.size ≤ n →
      (STree.drainAux n t).Perm t.items
  | 0, t, _, hn => by
      cases t with
      | leaf => simp [STree.drainAux, STree.items]
      | node x l r => simp [STree.size] at hn
  | n + 1, .leaf, _, _ => by simp [STree.drainAux, STree.items]
  | n + 1, .node x l r, hh, hn => by
      have hh' := STree.heapB_node_iff.mp hh
      have hm : (STree.fmerge l r).heapB = true := STree.heapB_fmerge hh'.2.2.1 hh'.2.2.2
      have hs : (STree.fmerge l r).size ≤ n := by
        rw [STree.size_fmerge]; simp [STree.size] at hn; omega
      rw [STree.drainAux]
      have h1 := (STree.drainAux_perm n _ hm hs).cons x
      have h2 := (STree.items_fmerge_perm l r).cons x
      have h3 : (STree.node x l r).items = x :: (l.items ++ r.items) := rfl
      rw [h3]
      exact h1.trans h2

theorem STree.drainAux_sorted [LinearOrder α] :
    ∀ (n : Nat) (t : STree α), t.heapB = true → t.size ≤ n →
      List.Sorted (· ≤ ·) (STree.drainAux n t)
  | 0, t, _, _ => by rw [STree.drainAux]; exact List.sorted_nil
  | n + 1, .leaf, _, _ => by rw [STree.drainAux]; exact List.sorted_nil
  | n + 1, .node x l r, hh, hn => by
      have hh' := STree.heapB_node_iff.mp hh
      have hm : (STree.fmerge l r).heapB = true := STree.heapB_fmerge hh'.2.2.1 hh'.2.2.2
      have hs : (STree.fmerge l r).size ≤ n := by
        rw [STree.size_fmerge]; simp [STree.size] at hn; omega
      rw [STree.drainAux, List.sorted_cons]
      refine ⟨?_, STree.drainAux_sorted n _ hm hs⟩
      intro y hy
      have hy' : y ∈ (STree.fmerge l r).items := (STree.drainAux_perm n _ hm hs).subset hy
      rcases STree.mem_items_fmerge.mp hy' with hy' | hy'
      · exact hh'.1 y hy'
      · exact hh'.2.1 y hy'

theorem STree.drainAux_fuel [LinearOrder α] :
    ∀ (n m : Nat) (t : STree α), t.size ≤ n → t.size ≤ m →
      STree.drainAux n t = STree.drainAux m t
  | 0, 0, t, _, _ => rfl
  | 0, m + 1, t, hn, _ => by
      cases t with
      | leaf => rw [STree.drainAux, STree.drainAux]
      | node x l r => simp [STree.size] at hn
  | n + 1, 0, t, _, hm => by
      cases t with
      | leaf => rw [STree.drainAux, STree.drainAux]
      | node x l r => simp [STree.size] at hm
  | n + 1, m + 1, t, hn, hm => by
      cases t with
      | leaf => rw [STree.drainAux, STree.drainAux]
      | node x l r =>
          rw [STree.drainAux, STree.drainAux]
          have hs : (STree.fmerge l r).size ≤ n ∧ (STree.fmerge l r).size ≤ m := by
            rw [STree.size_fmerge]
            simp [STree.size] at hn hm
            omega
          rw [STree.drainAux_fuel n m _ hs.1 hs.2]

/-! ## Lemmas: indexed trees -/

theorem ITree.size_erase (t : ITree α) : t.erase.size = t.size := by
  induction t with
  | leaf => rfl
  | node i x l r ihl ihr => simp [ITree.erase, ITree.size, STree.size, ihl, ihr]

theorem ITree.idxs_length (t : ITree α) : t.idxs.length = t.size := by
  induction t with
  | leaf => rfl
  | node i x l r ihl ihr => simp [ITree.idxs, ITree.size, ihl, ihr]

theorem ITree.fmerge_leaf_l [LinearOrder α] (t : ITree α) : ITree.fmerge .leaf t = t := by
  cases t <;> simp [ITree.fmerge]

theorem ITree.fmerge_leaf_r [LinearOrder α] (t : ITree α) : ITree.fmerge t .leaf = t := by
  cases t <;> simp [ITree.fmerge]

theorem ITree.erase_fmerge [LinearOrder α] (a b : ITree α) :
    (ITree.fmerge a b).erase = STree.fmerge a.erase b.erase := by
  induction a, b using ITree.fmerge.induct with
  | case1 t => cases t <;> simp [ITree.fmerge, ITree.erase, STree.fmerge]
  | case2 t h => cases t <;> simp [ITree.fmerge, ITree.erase, STree.fmerge]
  | case3 a xa la ra b xb lb rb hlt ih =>
      rw [ITree.fmerge, if_pos hlt]
      simp only [ITree.erase]
      rw [STree.fmerge, if_pos hlt, ih]
      simp [ITree.erase]
  | case4 a xa la ra b xb lb rb hlt ih =>
      rw [ITree.fmerge, if_neg hlt]
      simp only [ITree.erase]
      rw [STree.fmerge, if_neg hlt, ih]
      simp [ITree.erase]

theorem ITree.fmerge_size [LinearOrder α] (a b : ITree α) :
    (ITree.fmerge a b).size = a.size + b.size := by
  rw [← ITree.size_erase, ITree.erase_fmerge, STree.size_fmerge,
    ITree.size_erase, ITree.size_erase]

theorem ITree.idxs_fmerge_perm [LinearOrder α] (a b : ITree α) :
    (ITree.fmerge a b).idxs.Perm (a.idxs ++ b.idxs) := by
  induction a, b using ITree.fmerge.induct with
  | case1 t => simp [ITree.fmerge, ITree.idxs]
  | case2 t h => cases t <;> simp [ITree.fmerge, ITree.idxs]
  | case3 a xa la ra b xb lb rb hlt ih =>
      rw [ITree.fmerge, if_pos hlt]
      rw [← Multiset.coe_eq_coe] at ih ⊢
      simp only [ITree.idxs, ← Multiset.cons_coe, ← Multiset.coe_add,
        ← Multiset.singleton_add] at ih ⊢
      rw [ih]
      simp only [add_assoc, add_comm, add_left_comm]
  | case4 a xa la ra b xb lb rb hlt ih =>
      rw [ITree.fmerge, if_neg hlt]
      rw [← Multiset.coe_eq_coe] at ih ⊢
      simp only [ITree.idxs, ← Multiset.cons_coe, ← Multiset.coe_add,
        ← Multiset.singleton_add] at ih ⊢
      rw [ih]
      simp only [add_assoc, add_comm, add_left_comm]

theorem ITree.mem_idxs_fmerge [LinearOrder α] {a b : ITree α} {j : Nat} :
    j ∈ (ITree.fmerge a b).idxs ↔ j ∈ a.idxs ∨ j ∈ b.idxs := by
  rw [(ITree.idxs_fmerge_perm a b).mem_iff, List.mem_append]

theorem ITree.rootI_eq_none_iff (t : ITree α) : t.rootI = none ↔ t = .leaf := by
  cases t <;> simp [ITree.rootI]

theorem ITree.rootI_fmerge_mem [LinearOrder α] {a b : ITree α} {w : Nat}
    (h : (ITree.fmerge a b).rootI = some w) : w ∈ (ITree.fmerge a b).idxs := by
  cases hm : ITree.fmerge a b with
  | leaf => rw [hm] at h; simp [ITree.rootI] at h
  | node i x l r =>
      rw [hm] at h
      simp [ITree.rootI] at h
      simp [ITree.idxs, h]

theorem ITree.erase_rename (a b : Nat) (t : ITree α) : (t.rename a b).erase = t.erase := by
  induction t with
  | leaf => rfl
  | node i x l r ihl ihr => simp [ITree.rename, ITree.erase, ihl, ihr]

theorem ITree.size_rename (a b : Nat) (t : ITree α) : (t.rename a b).size = t.size := by
  rw [← ITree.size_erase, ITree.erase_rename, ITree.size_erase]

theorem ITree.idxs_rename (a b : Nat) (t : ITree α) :
    (t.rename a b).idxs = t.idxs.map (fun j => if j = a then b else j) := by
  induction t with
  | leaf => rfl
  | node i x l r ihl ihr => simp [ITree.rename, ITree.idxs, ihl, ihr]

theorem ITree.mem_idxs_rename {a b j : Nat} {t : ITree α} (hab : b ∉ t.idxs) :
    j ∈ (t.rename a b).idxs ↔ (j = b ∧ a ∈ t.idxs) ∨ (j ∈ t.idxs ∧ j ≠ a) := by
  rw [ITree.idxs_rename, List.mem_map]
  constructor
  · rintro ⟨c, hc, hcj⟩
    by_cases hca : c = a
    · subst hca; rw [if_pos rfl] at hcj; subst hcj; exact Or.inl ⟨rfl, hc⟩
    · rw [if_neg hca] at hcj; subst hcj; exact Or.inr ⟨hc, hca⟩
  · rintro (⟨rfl, ha⟩ | ⟨hj, hja⟩)
    · exact ⟨a, ha, by simp⟩
    · exact ⟨j, hj, by simp [hja]⟩

theorem ITree.rename_of_not_mem {a : Nat} {t : ITree α} (h : a ∉ t.idxs) (b : Nat) :
    t.rename a b = t := by
  induction t with
  | leaf => rfl
  | node i x l r ihl ihr =>
      simp only [ITree.idxs, List.mem_cons, List.mem_append] at h
      push_neg at h
      simp [ITree.rename, Ne.symm h.1, ihl h.2.1, ihr h.2.2]

theorem ITree.nodup_rename {a b : Nat} {t : ITree α} (hn : t.idxs.Nodup)
    (hb : b ∉ t.idxs) : (t.rename a b).idxs.Nodup := by
  rw [ITree.idxs_rename]
  refine List.Nodup.map_on ?_ hn
  intro x hx y hy hxy
  by_cases hxa : x = a <;> by_cases hya : y = a
  · rw [hxa, hya]
  · rw [if_pos hxa, if_neg hya] at hxy; exact absurd (hxy ▸ hy) hb
  · rw [if_neg hxa, if_pos hya] at hxy; exact absurd (hxy ▸ hx) hb
  · rwa [if_neg hxa, if_neg hya] at hxy

theorem ITree.rootI_rename (a b : Nat) (t : ITree α) :
    (t.rename a b).rootI = t.rootI.map (fun j => if j = a then b else j) := by
  cases t <;> simp [ITree.rename, ITree.rootI]

/-! ## Lemmas: the Shape relation and subtrees -/

theorem Shape.root_spec {nodes : List (Node α)} {r : Option Nat} {t : ITree α}
    (h : Shape nodes r t) : t.rootI = r := by
  cases h <;> rfl

theorem Shape.none_inv {nodes : List (Node α)} {t : ITree α}
    (h : Shape nodes none t) : t = .leaf := by
  cases h; rfl

theorem Shape.leaf_inv {nodes : List (Node α)} {r : Option Nat}
    (h : Shape nodes r ITree.leaf) : r = none := by
  cases h; rfl

theorem Shape.node_inv {nodes : List (Node α)} {i j : Nat} {x : α} {l r : ITree α}
    (h : Shape nodes (some j) (.node i x l r)) :
    i = j ∧ ∃ nd, nodes[i]? = some nd ∧ nd.item = some x ∧
      Shape nodes nd.left l ∧ Shape nodes nd.right r ∧ nd.left = l.rootI ∧
      nd.right = r.rootI := by
  cases h with
  | node hnd hitem hl hr =>
      exact ⟨rfl, _, hnd, hitem, hl, hr, hl.root_spec.symm, hr.root_spec.symm⟩

theorem Shape.idx_lt {nodes : List (Node α)} {r : Option Nat} {t : ITree α}
    (h : Shape nodes r t) : ∀ j ∈ t.idxs, j < nodes.length := by
  induction h with
  | leaf => intro j hj; simp [ITree.idxs] at hj
  | node hnd hitem hl hr ihl ihr =>
      intro j hj
      simp only [ITree.idxs, List.mem_cons, List.mem_append] at hj
      rcases hj with rfl | hj | hj
      · exact (List.getElem?_eq_some.mp hnd).1
      · exact ihl j hj
      · exact ihr j hj

theorem Shape.congr_arena {nodes nodes2 : List (Node α)} {r : Option Nat} {t : ITree α}
    (h : Shape nodes r t)
    (hag : ∀ j ∈ t.idxs, (nodes2[j]?).map Node.core = (nodes[j]?).map Node.core) :
    Shape nodes2 r t := by
  induction h with
  | leaf => exact Shape.leaf
  | node hnd hitem hl hr ihl ihr =>
      rename_i i x l rr nd
      have hme : i ∈ (ITree.node i x l rr).idxs := by simp [ITree.idxs]
      have := hag i hme
      rw [hnd] at this
      simp only [Option.map_some'] at this
      match h2 : nodes2[i]? with
      | none => rw [h2] at this; simp at this
      | some nd2 =>
          rw [h2] at this
          simp only [Option.map_some', Option.some_inj] at this
          have hcore : nd2.item = nd.item ∧ nd2.left = nd.left ∧ nd2.right = nd.right := by
            have h3 := congrArg Prod.fst this
            have h4 := congrArg (fun p => p.2.1) this
            have h5 := congrArg (fun p => p.2.2) this
            exact ⟨h3, h4, h5⟩
          refine Shape.node h2 (hcore.1.trans hitem) ?_ ?_
          · rw [hcore.2.1]
            refine ihl ?_
            intro j hj
            exact hag j (by simp [ITree.idxs, hj])
          · rw [hcore.2.2]
            refine ihr ?_
            intro j hj
            exact hag j (by simp [ITree.idxs, hj])

theorem Occurs.idxs_subset {s t : ITree α} (h : Occurs s t) : s.idxs ⊆ t.idxs := by
  induction h with
  | refl => exact fun j hj => hj
  | left h ih => intro j hj; simp [ITree.idxs]; exact Or.inr (Or.inl (ih hj))
  | right h ih => intro j hj; simp [ITree.idxs]; exact Or.inr (Or.inr (ih hj))

theorem Occurs.shape {nodes : List (Node α)} {s t : ITree α}
    (ho : Occurs s t) (hs : Shape nodes t.rootI t) : Shape nodes s.rootI s := by
  induction ho with
  | refl => exact hs
  | left h ih =>
      rename_i l r i x
      cases hs with
      | node hnd hitem hl hr =>
          exact ih (show Shape nodes l.rootI l by rw [hl.root_spec]; exact hl)
  | right h ih =>
      rename_i l r i x
      cases hs with
      | node hnd hitem hl hr =>
          exact ih (show Shape nodes r.rootI r by rw [hr.root_spec]; exact hr)

theorem mem_idxs_occurs {t : ITree α} {j : Nat} (h : j ∈ t.idxs) :
    ∃ x l r, Occurs (.node j x l r) t := by
  induction t with
  | leaf => simp [ITree.idxs] at h
  | node i x l r ihl ihr =>
      simp only [ITree.idxs, List.mem_cons, List.mem_append] at h
      rcases h with rfl | h | h
      · exact ⟨x, l, r, Occurs.refl _⟩
      · obtain ⟨x2, l2, r2, ho⟩ := ihl h
        exact ⟨x2, l2, r2, Occurs.left ho⟩
      · obtain ⟨x2, l2, r2, ho⟩ := ihr h
        exact ⟨x2, l2, r2, Occurs.right ho⟩

theorem Occurs.node_cases {s : ITree α} {i : Nat} {x : α} {l r : ITree α}
    (h : Occurs s (.node i x l r)) : s = .node i x l r ∨ Occurs s l ∨ Occurs s r := by
  cases h with
  | refl => exact Or.inl rfl
  | left h => exact Or.inr (Or.inl h)
  | right h => exact Or.inr (Or.inr h)

theorem occurs_children_tail {j : Nat} {x : α} {l r : ITree α} {i : Nat} {y : α}
    {tl tr : ITree α} (h : Occurs (.node j x l r) (.node i y tl tr)) :
    ∀ c ∈ l.idxs ++ r.idxs, c ∈ tl.idxs ++ tr.idxs := by
  intro c hc
  rcases h.node_cases with heq | ho | ho
  · cases heq; exact hc
  · have : c ∈ (ITree.node j x l r).idxs := by simp [ITree.idxs]; right; simpa using hc
    have := ho.idxs_subset this
    simp [List.mem_append]; exact Or.inl this
  · have : c ∈ (ITree.node j x l r).idxs := by simp [ITree.idxs]; right; simpa using hc
    have := ho.idxs_subset this
    simp [List.mem_append]; exact Or.inr this

theorem shape_at_mem {nodes : List (Node α)} {rt : Option Nat} {t : ITree α} {j : Nat}
    (hs : Shape nodes rt t) (hj : j ∈ t.idxs) :
    ∃ (x : α) (l rr : ITree α) (nd : Node α), Occurs (.node j x l rr) t ∧
      nodes[j]? = some nd ∧ nd.item = some x ∧ nd.left = l.rootI ∧ nd.right = rr.rootI ∧
      Shape nodes nd.left l ∧ Shape nodes nd.right rr := by
  obtain ⟨x, l, rr, ho⟩ := mem_idxs_occurs hj
  have hs2 : Shape nodes (some j) (.node j x l rr) := by
    have := ho.shape (by rwa [hs.root_spec])
    simpa [ITree.rootI] using this
  obtain ⟨_, nd, hnd, hitem, hl, hr, hlr, hrr⟩ := hs2.node_inv
  exact ⟨x, l, rr, nd, ho, hnd, hitem, hlr, hrr, hl, hr⟩

theorem root_not_child {nodes : List (Node α)} {rt : Nat} {t : ITree α}
    (hs : Shape nodes (some rt) t) (hnd : t.idxs.Nodup) :
    ∀ j ∈ t.idxs, ∀ nd : Node α, nodes[j]? = some nd →
      nd.left ≠ some rt ∧ nd.right ≠ some rt := by
  intro j hj nd hjnd
  obtain ⟨x, l, rr, nd2, ho, hnd2, hitem, hlft, hrgt, _, _⟩ := shape_at_mem hs hj
  rw [hjnd] at hnd2
  cases hnd2
  cases hs with
  | node hroot hitem2 hl hr =>
      rename_i xx tl tr ndr
      have htail : ∀ c ∈ l.idxs ++ rr.idxs, c ∈ tl.idxs ++ tr.idxs := occurs_children_tail ho
      have hnotin : rt ∉ tl.idxs ++ tr.idxs := by
        simp only [ITree.idxs, List.nodup_cons] at hnd
        exact hnd.1
      constructor
      · intro hcon
        rw [hcon] at hlft
        have : rt ∈ l.idxs := by
          cases l with
          | leaf => simp [ITree.rootI] at hlft
          | node c y cl cr =>
              simp [ITree.rootI] at hlft
              simp [ITree.idxs, hlft]
        exact hnotin (htail rt (by simp [List.mem_append]; exact Or.inl this))
      · intro hcon
        rw [hcon] at hrgt
        have : rt ∈ rr.idxs := by
          cases rr with
          | leaf => simp [ITree.rootI] at hrgt
          | node c y cl cr =>
              simp [ITree.rootI] at hrgt
              simp [ITree.idxs, hrgt]
        exact hnotin (htail rt (by simp [List.mem_append]; exact Or.inr this))

theorem ParentAcc.congr_parent {nodes nodes2 : List (Node α)} {t : ITree α}
    (h : ParentAcc nodes t) (hnd : t.idxs.Nodup)
    (hag : ∀ j ∈ t.idxs, t.rootI ≠ some j →
      (nodes2[j]?).map Node.parent = (nodes[j]?).map Node.parent) :
    ParentAcc nodes2 t := by
  induction t with
  | leaf => exact trivial
  | node i x l r ihl ihr =>
      obtain ⟨hcl, hcr, hal, har⟩ := h
      have hndc : i ∉ l.idxs ++ r.idxs ∧ l.idxs.Nodup ∧ r.idxs.Nodup := by
        simp only [ITree.idxs, List.nodup_cons, List.nodup_append] at hnd
        exact ⟨hnd.1, hnd.2.1, hnd.2.2.1⟩
      have hmem : ∀ j ∈ l.idxs ++ r.idxs, j ∈ (ITree.node i x l r).idxs := by
        intro j hj; simp [ITree.idxs]; simp [List.mem_append] at hj
        rcases hj with hj | hj
        · exact Or.inr (Or.inl hj)
        · exact Or.inr (Or.inr hj)
      have hagc : ∀ j ∈ l.idxs ++ r.idxs,
          (nodes2[j]?).map Node.parent = (nodes[j]?).map Node.parent := by
        intro j hj
        refine hag j (hmem j hj) ?_
        simp only [ITree.rootI]
        intro hcon
        injection hcon with hij
        exact hndc.1 (hij ▸ hj)
      refine ⟨?_, ?_, ?_, ?_⟩
      · cases l with
        | leaf => exact trivial
        | node c y cl cr =>
            obtain ⟨ndc, hndc2, hpar⟩ := hcl
            have := hagc c (by simp [ITree.idxs, List.mem_append])
            rw [hndc2] at this
            match h2 : nodes2[c]? with
            | none => rw [h2] at this; simp at this
            | some nd2 =>
                rw [h2] at this
                simp only [Option.map_some', Option.some_inj] at this
                exact ⟨nd2, h2, this.trans hpar⟩
      · cases r with
        | leaf => exact trivial
        | node c y cl cr =>
            obtain ⟨ndc, hndc2, hpar⟩ := hcr
            have := hagc c (by simp [ITree.idxs, List.mem_append])
            rw [hndc2] at this
            match h2 : nodes2[c]? with
            | none => rw [h2] at this; simp at this
            | some nd2 =>
                rw [h2] at this
                simp only [Option.map_some', Option.some_inj] at this
                exact ⟨nd2, h2, this.trans hpar⟩
      · refine ihl hal hndc.2.1 ?_
        intro j hj hjr
        exact hagc j (by simp [List.mem_append]; exact Or.inl hj)
      · refine ihr har hndc.2.2 ?_
        intro j hj hjr
        exact hagc j (by simp [List.mem_append]; exact Or.inr hj)

/-! ## The merge simulation -/

theorem ITree.mem_idxs_node {j i : Nat} {x : α} {l r : ITree α} :
    j ∈ (ITree.node i x l r).idxs ↔ j = i ∨ j ∈ l.idxs ∨ j ∈ r.idxs := by
  simp [ITree.idxs]

theorem ITree.rootI_mem {t : ITree α} {w : Nat} (h : t.rootI = some w) : w ∈ t.idxs := by
  cases t with
  | leaf => simp [ITree.rootI] at h
  | node i x l r =>
      simp [ITree.rootI] at h
      simp [ITree.idxs, h]

theorem ITree.fmerge_node_form [LinearOrder α] {a : Nat} {xa : α} {la ra : ITree α}
    (tb : ITree α) :
    ∃ w xw lw rw2, ITree.fmerge (.node a xa la ra) tb = .node w xw lw rw2 := by
  cases tb with
  | leaf => exact ⟨a, xa, la, ra, ITree.fmerge_leaf_r _⟩
  | node b xb lb rb =>
      rw [ITree.fmerge]
      by_cases hc : xb < xa
      · rw [if_pos hc]; exact ⟨b, xb, _, _, rfl⟩
      · rw [if_neg hc]; exact ⟨a, xa, _, _, rfl⟩

theorem nodup_append_parts {l1 l2 : List Nat} (h : (l1 ++ l2).Nodup) :
    l1.Nodup ∧ l2.Nodup ∧ ∀ j ∈ l1, j ∉ l2 := by
  rw [List.nodup_append] at h
  exact ⟨h.1, h.2.1, fun j hj => h.2.2 hj⟩

theorem nodup_node_parts {i : Nat} {x : α} {l r : ITree α}
    (h : (ITree.node i x l r).idxs.Nodup) :
    i ∉ l.idxs ∧ i ∉ r.idxs ∧ l.idxs.Nodup ∧ r.idxs.Nodup ∧ ∀ j ∈ l.idxs, j ∉ r.idxs := by
  simp only [ITree.idxs, List.nodup_cons, List.mem_append] at h
  obtain ⟨hi, hlr⟩ := h
  obtain ⟨hl, hr, hd⟩ := nodup_append_parts hlr
  push_neg at hi
  exact ⟨hi.1, hi.2, hl, hr, hd⟩

theorem ChildParent.congr_link {nodes nodes2 : List (Node α)} {t : ITree α} {p : Nat}
    (h : ChildParent nodes t p)
    (hag : ∀ c, t.rootI = some c →
      (nodes2[c]?).map Node.parent = (nodes[c]?).map Node.parent) :
    ChildParent nodes2 t p := by
  cases t with
  | leaf => exact trivial
  | node c y cl cr =>
      obtain ⟨ndc, hndc, hpar⟩ := h
      have := hag c rfl
      rw [hndc] at this
      match h2 : nodes2[c]? with
      | none => rw [h2] at this; simp at this
      | some nd2 =>
          rw [h2] at this
          simp only [Option.map_some', Option.some_inj] at this
          exact ⟨nd2, h2, this.trans hpar⟩

theorem merge_body [LinearOrder α] (fuel : Nat) (nodes : List (Node α))
    {a : Nat} {xa : α} {la ra : ITree α} {b : Nat} {xb : α} {lb rb : ITree α}
    (hsw : Shape nodes (some a) (.node a xa la ra))
    (hsl : Shape nodes (some b) (.node b xb lb rb))
    (hnd : ((ITree.node a xa la ra).idxs ++ (ITree.node b xb lb rb).idxs).Nodup)
    (hpw : ParentAcc nodes (.node a xa la ra))
    (hpl : ParentAcc nodes (.node b xb lb rb))
    (hgt : ¬ xb < xa)
    (ih : ∀ (nodes3 : List (Node α)) (tx ty : ITree α), Shape nodes3 tx.rootI tx →
      Shape nodes3 ty.rootI ty → (tx.idxs ++ ty.idxs).Nodup → ParentAcc nodes3 tx →
      ParentAcc nodes3 ty → 2 * (tx.size + ty.size) + 2 ≤ fuel → MergeOut fuel nodes3 tx ty)
    (hfuel : 2 * ((ITree.node b xb lb rb).size + ra.size) + 2 ≤ fuel) :
    ∃ nodes2 : List (Node α),
      SkewHeap.merge (fuel + 1) nodes (some a) (some b) = some (nodes2, some a) ∧
      nodes2.length = nodes.length ∧
      Shape nodes2 (some a) (.node a xa (ITree.fmerge (.node b xb lb rb) ra) la) ∧
      ParentAcc nodes2 (.node a xa (ITree.fmerge (.node b xb lb rb) ra) la) ∧
      (∀ j, j ∉ (ITree.node a xa la ra).idxs → j ∉ (ITree.node b xb lb rb).idxs →
        nodes2[j]? = nodes[j]?) ∧
      (∀ j, ∀ nd : Node α, nodes[j]? = some nd → ∃ nd2, nodes2[j]? = some nd2 ∧
        nd2.item = nd.item ∧ (a = j → nd2.parent = nd.parent)) := by
  obtain ⟨-, ndA, hndA, hitA, hsla, hsra, hlA, hrA⟩ := hsw.node_inv
  obtain ⟨-, ndB, hndB, hitB, hslb, hsrb, hlB, hrB⟩ := hsl.node_inv
  have hguard : nodeGt ndA ndB = false := by
    simp [nodeGt, hitA, hitB, hgt]
  -- disjointness bookkeeping
  obtain ⟨hTwN, hTlN, hDisj⟩ := nodup_append_parts hnd
  obtain ⟨haLa, haRa, hLaN, hRaN, hLaRa⟩ := nodup_node_parts hTwN
  obtain ⟨hbLb, hbRb, hLbN, hRbN, hLbRb⟩ := nodup_node_parts hTlN
  have haTl : a ∉ (ITree.node b xb lb rb).idxs :=
    hDisj a (by simp [ITree.mem_idxs_node])
  have hRaTl : ∀ j ∈ ra.idxs, j ∉ (ITree.node b xb lb rb).idxs := by
    intro j hj
    exact hDisj j (by simp [ITree.mem_idxs_node, hj])
  have hLaTl : ∀ j ∈ la.idxs, j ∉ (ITree.node b xb lb rb).idxs := by
    intro j hj
    exact hDisj j (by simp [ITree.mem_idxs_node, hj])
  -- the inner recursive merge of the loser with the old right child of the winner
  have hndInner : ((ITree.node b xb lb rb).idxs ++ ra.idxs).Nodup := by
    rw [List.nodup_append]
    refine ⟨hTlN, hRaN, ?_⟩
    intro j hj hj2
    exact hRaTl j hj2 hj
  have hmo := ih nodes (.node b xb lb rb) ra
    (by simpa [ITree.rootI] using hsl)
    (by rw [← hrA]; exact hsra)
    hndInner hpl hpw.2.2.2 hfuel
  obtain ⟨nodes1, heq1, hlen1, hshape1, hpa1, hframe1, hitem1⟩ := hmo
  -- the merged left child is a node
  obtain ⟨w, xw, lw, rw2, hM⟩ :=
    @ITree.fmerge_node_form _ _ b xb lb rb ra
  have hMroot : (ITree.fmerge (.node b xb lb rb) ra).rootI = some w := by
    rw [hM]; rfl
  have hwM : w ∈ (ITree.fmerge (.node b xb lb rb) ra).idxs := ITree.rootI_mem hMroot
  have hwMem : w ∈ (ITree.node b xb lb rb).idxs ∨ w ∈ ra.idxs := ITree.mem_idxs_fmerge.mp hwM
  have hwa : w ≠ a := by
    rintro rfl
    rcases hwMem with hw | hw
    · exact haTl hw
    · exact haRa hw
  -- lookups after the inner merge
  have hna1 : nodes1[a]? = some ndA := by
    rw [hframe1 a haTl haRa, hndA]
  have halen : a < nodes.length := (List.getElem?_eq_some.mp hndA).1
  have hshapeW := hshape1
  rw [hMroot, hM] at hshapeW
  obtain ⟨-, ndW, hndW, hitW, hslw, hsrw, hlW, hrW⟩ := hshapeW.node_inv
  -- the two arena writes
  have hndAitem : ndA.item = some xa := hitA
  have hAlen1 : a < nodes1.length := by rw [hlen1]; exact halen
  have hndW2 : (nodes1.set a
      { item := ndA.item, left := some w, right := ndA.left, parent := ndA.parent })[w]?
        = some ndW := by
    rw [List.getElem?_set_ne (fun h => hwa h.symm), hndW]
  have heqFinal : SkewHeap.merge (fuel + 1) nodes (some a) (some b) =
      some (((nodes1.set a
          { item := ndA.item, left := some w, right := ndA.left, parent := ndA.parent }).set w
          { item := ndW.item, left := ndW.left, right := ndW.right, parent := some a }),
        some a) := by
    rw [SkewHeap.merge, hndA, hndB]
    simp only [Option.bind_eq_bind, Option.some_bind, hguard, Bool.false_eq_true, if_false]
    rw [hrA]
    have hTLroot : (ITree.node b xb lb rb : ITree α).rootI = some b := rfl
    rw [hTLroot] at heq1
    rw [heq1, hMroot]
    simp only [Option.some_bind, hna1]
    rw [hndW2]
    simp only [Option.some_bind]
  refine ⟨_, heqFinal, ?_, ?_, ?_, ?_, ?_⟩
  · simp [List.length_set, hlen1]
  · -- Shape of the result
    refine Shape.node
      (show _[a]? = some (Node.mk ndA.item (some w) ndA.left ndA.parent) from ?_)
      ?_ ?_ ?_
    · rw [List.getElem?_set_ne hwa, List.getElem?_set_eq hAlen1]
    · exact hitA
    · -- left subtree: the merged tree
      show Shape _ (some w) _
      rw [← hMroot]
      refine hshape1.congr_arena ?_
      intro j hj
      have hja : j ≠ a := by
        rintro rfl
        rcases ITree.mem_idxs_fmerge.mp hj with hw | hw
        · exact haTl hw
        · exact haRa hw
      by_cases hjw : j = w
      · subst hjw
        rw [List.getElem?_set_eq, hndW]
        · rfl
        · simp [List.length_set, hAlen1]
          exact (List.getElem?_eq_some.mp hndW).1
      · rw [List.getElem?_set_ne (fun h => hjw h.symm),
          List.getElem?_set_ne (fun h => hja h.symm)]
    · -- right subtree: the old left child of the winner
      show Shape _ ndA.left la
      refine hsla.congr_arena ?_
      intro j hj
      have hja : j ≠ a := fun h => haLa (h ▸ hj)
      have hjw : j ≠ w := by
        rintro rfl
        rcases hwMem with hw | hw
        · exact hLaTl _ hj hw
        · exact hLaRa _ hj hw
      rw [List.getElem?_set_ne (fun h => hjw h.symm),
        List.getElem?_set_ne (fun h => hja h.symm),
        hframe1 j (hLaTl j hj) (hLaRa j hj)]
  · -- parent accuracy of the result
    obtain ⟨hcpLa, hcpRa, hpaLa, hpaRa⟩ := hpw
    have hwlen : w < nodes1.length := (List.getElem?_eq_some.mp hndW).1
    have hgetW : ((nodes1.set a
        { item := ndA.item, left := some w, right := ndA.left, parent := ndA.parent }).set w
        { item := ndW.item, left := ndW.left, right := ndW.right, parent := some a })[w]?
          = some { item := ndW.item, left := ndW.left, right := ndW.right, parent := some a } := by
      rw [List.getElem?_set_self]
      simp [List.length_set, hwlen]
    have hoffTree : ∀ j, j ∈ la.idxs →
        ((nodes1.set a
          { item := ndA.item, left := some w, right := ndA.left, parent := ndA.parent }).set w
          { item := ndW.item, left := ndW.left, right := ndW.right, parent := some a })[j]?
            = nodes[j]? := by
      intro j hj
      have hja : j ≠ a := fun h => haLa (h ▸ hj)
      have hjw : j ≠ w := by
        rintro rfl
        rcases hwMem with hw | hw
        · exact hLaTl _ hj hw
        · exact hLaRa _ hj hw
      rw [List.getElem?_set_ne (fun h => hjw h.symm),
        List.getElem?_set_ne (fun h => hja h.symm),
        hframe1 j (hLaTl j hj) (hLaRa j hj)]
    refine ⟨?_, ?_, ?_, ?_⟩
    · -- the merged left child records the winner as parent
      show ChildParent _ (ITree.fmerge (.node b xb lb rb) ra) a
      rw [ChildParent, hMroot]
      exact ⟨_, hgetW, rfl⟩
    · -- the old left child keeps the winner as parent
      refine hcpLa.congr_link ?_
      intro c hc
      rw [hoffTree c (ITree.rootI_mem hc)]
    · -- parent accuracy inside the merged left child
      refine hpa1.congr_parent ((ITree.idxs_fmerge_perm _ _).nodup_iff.mpr hndInner) ?_
      intro j hj hjroot
      have hjw : j ≠ w := by
        rintro rfl
        exact hjroot hMroot
      have hja : j ≠ a := by
        rintro rfl
        rcases ITree.mem_idxs_fmerge.mp hj with hw | hw
        · exact haTl hw
        · exact haRa hw
      rw [List.getElem?_set_ne (fun h => hjw h.symm),
        List.getElem?_set_ne (fun h => hja h.symm)]
    · -- parent accuracy inside the old left child
      refine hpaLa.congr_parent hLaN ?_
      intro j hj hjroot
      rw [hoffTree j hj]
  · -- untouched slots
    intro j hjw2 hjl
    have hj' : ¬ (j = a ∨ j ∈ la.idxs ∨ j ∈ ra.idxs) := fun h =>
      hjw2 (ITree.mem_idxs_node.mpr h)
    push_neg at hj'
    have hjw3 : j ≠ w := by
      rintro rfl
      rcases hwMem with hw | hw
      · exact hjl hw
      · exact hj'.2.2 hw
    rw [List.getElem?_set_ne (fun h => hjw3 h.symm),
      List.getElem?_set_ne (fun h => hj'.1 h.symm),
      hframe1 j hjl hj'.2.2]
  · -- items preserved, parent of the result root preserved
    intro j nd hjnd
    obtain ⟨nd1, h1, hit1, -⟩ := hitem1 j nd hjnd
    by_cases hja : j = a
    · subst hja
      have hnd' : nd = ndA := by
        rw [hndA] at hjnd
        injection hjnd with h
        exact h.symm
      refine ⟨{ item := ndA.item, left := some w, right := ndA.left, parent := ndA.parent },
        ?_, by simp [hnd'], fun _ => by simp [hnd']⟩
      rw [List.getElem?_set_ne hwa, List.getElem?_set_self hAlen1]
    · by_cases hjw : j = w
      · have hnd1W : nd1 = ndW := by
          rw [hjw, hndW] at h1
          injection h1 with h
          exact h.symm
        have hwlen : w < nodes1.length := (List.getElem?_eq_some.mp hndW).1
        refine ⟨{ item := ndW.item, left := ndW.left, right := ndW.right, parent := some a },
          ?_, by simp [← hnd1W, hit1], fun h => absurd h.symm hja⟩
        rw [hjw, List.getElem?_set_self]
        simp [List.length_set, hwlen]
      · refine ⟨nd1, ?_, hit1, fun h => absurd h.symm hja⟩
        rw [List.getElem?_set_ne (fun h => hjw h.symm),
          List.getElem?_set_ne (fun h => hja h.symm), h1]

theorem merge_sim [LinearOrder α] :
    ∀ (fuel : Nat) (nodes : List (Node α)) (ta tb : ITree α),
      Shape nodes ta.rootI ta → Shape nodes tb.rootI tb →
      (ta.idxs ++ tb.idxs).Nodup → ParentAcc nodes ta → ParentAcc nodes tb →
      2 * (ta.size + tb.size) + 2 ≤ fuel → MergeOut fuel nodes ta tb
  | 0, nodes, ta, tb => by
      intro _ _ _ _ _ hfuel
      omega
  | fuel + 1, nodes, ta, tb => by
      intro hsa hsb hnd hpa hpb hfuel
      cases ta with
      | leaf =>
          refine ⟨nodes, ?_, rfl, ?_, ?_, fun j _ _ => rfl,
            fun j nd h => ⟨nd, h, rfl, fun _ => rfl⟩⟩
          · cases tb with
            | leaf => simp [ITree.rootI, ITree.fmerge, SkewHeap.merge]
            | node b xb lb rb => simp [ITree.rootI, ITree.fmerge, SkewHeap.merge]
          · rw [ITree.fmerge_leaf_l]; exact hsb
          · rw [ITree.fmerge_leaf_l]; exact hpb
      | node a xa la ra =>
          cases tb with
          | leaf =>
              refine ⟨nodes, ?_, rfl, ?_, ?_, fun j _ _ => rfl,
                fun j nd h => ⟨nd, h, rfl, fun _ => rfl⟩⟩
              · simp [ITree.rootI, ITree.fmerge_leaf_r, SkewHeap.merge]
              · rw [ITree.fmerge_leaf_r]; exact hsa
              · rw [ITree.fmerge_leaf_r]; exact hpa
          | node b xb lb rb =>
              have hsa' : Shape nodes (some a) (.node a xa la ra) := by
                simpa [ITree.rootI] using hsa
              have hsb' : Shape nodes (some b) (.node b xb lb rb) := by
                simpa [ITree.rootI] using hsb
              obtain ⟨-, ndA, hndA, hitA, -, -, -, hrA⟩ := hsa'.node_inv
              obtain ⟨-, ndB, hndB, hitB, -, -, -, -⟩ := hsb'.node_inv
              by_cases hlt : xb < xa
              · -- the swap branch of the rust merge
                obtain ⟨f2, rfl⟩ : ∃ f2, fuel = f2 + 1 := by
                  refine ⟨fuel - 1, ?_⟩
                  simp [ITree.size] at hfuel
                  omega
                have hndSwap : ((ITree.node b xb lb rb).idxs ++
                    (ITree.node a xa la ra).idxs).Nodup :=
                  (List.perm_append_comm).nodup_iff.mp hnd
                have hbody := merge_body f2 nodes hsb' hsa' hndSwap hpb hpa
                  (lt_asymm hlt)
                  (fun nodes3 tx ty h1 h2 h3 h4 h5 h6 =>
                    merge_sim f2 nodes3 tx ty h1 h2 h3 h4 h5 h6)
                  (by simp [ITree.size] at hfuel ⊢; omega)
                obtain ⟨nodes2, heq, hlen, hshape, hpa2, hframe, hitem⟩ := hbody
                have hfm : ITree.fmerge (.node a xa la ra) (.node b xb lb rb) =
                    .node b xb (ITree.fmerge (.node a xa la ra) rb) lb := by
                  rw [ITree.fmerge, if_pos hlt]
                have hguard : nodeGt ndA ndB = true := by
                  simp [nodeGt, hitA, hitB, hlt]
                refine ⟨nodes2, ?_, hlen, ?_, ?_, ?_, ?_⟩
                · show SkewHeap.merge (f2 + 1 + 1) nodes (some a) (some b) = _
                  rw [SkewHeap.merge, hndA, hndB]
                  simp only [Option.bind_eq_bind, Option.some_bind, hguard, if_true]
                  rw [heq, hfm]
                  rfl
                · rw [hfm]
                  exact hshape
                · rw [hfm]
                  exact hpa2
                · intro j hj1 hj2
                  exact hframe j hj2 hj1
                · intro j nd hj
                  obtain ⟨nd2, h2, hit2, hpar2⟩ := hitem j nd hj
                  refine ⟨nd2, h2, hit2, ?_⟩
                  rw [hfm]
                  intro hroot
                  refine hpar2 ?_
                  simpa [ITree.rootI] using hroot
              · -- the direct branch: the first argument wins
                have hbody := merge_body fuel nodes hsa' hsb' hnd hpa hpb hlt
                  (fun nodes3 tx ty h1 h2 h3 h4 h5 h6 =>
                    merge_sim fuel nodes3 tx ty h1 h2 h3 h4 h5 h6)
                  (by simp [ITree.size] at hfuel ⊢; omega)
                obtain ⟨nodes2, heq, hlen, hshape, hpa2, hframe, hitem⟩ := hbody
                have hfm : ITree.fmerge (.node a xa la ra) (.node b xb lb rb) =
                    .node a xa (ITree.fmerge (.node b xb lb rb) ra) la := by
                  rw [ITree.fmerge, if_neg hlt]
                refine ⟨nodes2, ?_, hlen, ?_, ?_, ?_, ?_⟩
                · show SkewHeap.merge (fuel + 1) nodes (some a) (some b) = _
                  rw [heq, hfm]
                  rfl
                · rw [hfm]
                  exact hshape
                · rw [hfm]
                  exact hpa2
                · exact hframe
                · intro j nd hj
                  obtain ⟨nd2, h2, hit2, hpar2⟩ := hitem j nd hj
                  refine ⟨nd2, h2, hit2, ?_⟩
                  rw [hfm]
                  intro hroot
                  refine hpar2 ?_
                  simpa [ITree.rootI] using hroot
termination_by fuel => fuel

/-! ## Preservation for put and takePre -/

theorem nodup_length_le {l : List Nat} {n : Nat} (hn : l.Nodup) (hb : ∀ x ∈ l, x < n) :
    l.length ≤ n := by
  have hsub : l ⊆ List.range n := fun x hx => List.mem_range.mpr (hb x hx)
  have := (List.subperm_of_subset hn hsub).length_le
  simpa using this

theorem InvT.size_le {h : SkewHeap α} {t : ITree α} (hI : InvT h t) :
    t.size ≤ h.nodes.length := by
  rw [← ITree.idxs_length]
  exact nodup_length_le hI.nodup hI.shape.idx_lt

theorem ITree.mem_idxs_single {j i : Nat} {x : α} :
    j ∈ (ITree.node i x .leaf .leaf).idxs ↔ j = i := by
  simp [ITree.idxs]

theorem parentAcc_single {nodes : List (Node α)} {i : Nat} {x : α} :
    ParentAcc nodes (.node i x .leaf .leaf) :=
  ⟨trivial, trivial, trivial, trivial⟩

theorem put_ok [LinearOrder α] {h : SkewHeap α} {t : ITree α} (hI : InvT h t)
    (hclean : CleanFreed h) (x : α) :
    ∃ (h2 : SkewHeap α) (idx : Nat),
      h.put x = some (h2, h.count + 1) ∧
      InvT h2 (ITree.fmerge t (.node idx x .leaf .leaf)) ∧
      CleanFreed h2 ∧
      h2.count = h.count + 1 ∧
      (h.freed = [] → h2.freed = []) := by
  cases hfr : h.freed with
  | nil =>
      -- fresh slot at the end of the arena
      have hidx : h.nodes.length ∉ t.idxs := fun hc =>
        lt_irrefl _ (hI.shape.idx_lt _ hc)
      have halloc : h.alloc_node x = some
          ({ h with nodes := h.nodes ++ [Node.fresh x] }, some h.nodes.length) := by
        rw [SkewHeap.alloc_node, hfr]
      have hAg : ∀ j, j ∈ t.idxs →
          ((h.nodes ++ [Node.fresh x])[j]?).map Node.core = (h.nodes[j]?).map Node.core := by
        intro j hj
        rw [List.getElem?_append_left (hI.shape.idx_lt _ hj)]
      have hAgP : ∀ j, j ∈ t.idxs →
          ((h.nodes ++ [Node.fresh x])[j]?).map Node.parent = (h.nodes[j]?).map Node.parent := by
        intro j hj
        rw [List.getElem?_append_left (hI.shape.idx_lt _ hj)]
      have hs1 : Shape (h.nodes ++ [Node.fresh x]) h.root t := hI.shape.congr_arena hAg
      have hsts : Shape (h.nodes ++ [Node.fresh x]) (some h.nodes.length)
          (.node h.nodes.length x .leaf .leaf) := by
        exact Shape.node (List.getElem?_concat_length h.nodes (Node.fresh x)) rfl
          Shape.leaf Shape.leaf
      have hnd2 : (t.idxs ++ (ITree.node h.nodes.length x .leaf .leaf).idxs).Nodup := by
        rw [List.nodup_append]
        refine ⟨hI.nodup, by simp [ITree.idxs], ?_⟩
        intro j hj hj2
        rw [ITree.mem_idxs_single] at hj2
        exact hidx (hj2 ▸ hj)
      have hfuel : 2 * (t.size + (ITree.node h.nodes.length x .leaf .leaf).size) + 2 ≤
          mergeFuel { h with nodes := h.nodes ++ [Node.fresh x] } := by
        have := hI.size_le
        simp [mergeFuel, ITree.size]
        omega
      have hmo := merge_sim (mergeFuel { h with nodes := h.nodes ++ [Node.fresh x] })
        (h.nodes ++ [Node.fresh x]) t (.node h.nodes.length x .leaf .leaf)
        (by rw [hI.shape.root_spec]; exact hs1) hsts hnd2
        (hI.parentAcc.congr_parent hI.nodup (fun j hj hjr => hAgP j hj)) parentAcc_single hfuel
      obtain ⟨nodes2, heq, hlen, hshape, hpa, hframe, hitem⟩ := hmo
      refine ⟨SkewHeap.mk (h.count + 1)
          ((ITree.fmerge t (.node h.nodes.length x .leaf .leaf)).rootI)
          nodes2 h.freed, h.nodes.length, ?_, ?_, ?_, ?_, ?_⟩
      · rw [SkewHeap.put]
        simp only [Option.bind_eq_bind, halloc, Option.some_bind]
        rw [hI.shape.root_spec] at heq
        simp only [ITree.rootI] at heq
        rw [heq]
        rfl
      · -- the invariant for the merged tree
        constructor
        case shape => exact hshape
        case nodup => exact (ITree.idxs_fmerge_perm _ _).nodup_iff.mpr hnd2
        case countEq =>
            dsimp only
            rw [hI.countEq, ITree.fmerge_size]
            simp [ITree.size]
        case freedBound =>
            intro j hj
            dsimp only at hj
            rw [hfr] at hj
            simp at hj
        case freedNodup =>
            dsimp only
            rw [hfr]
            exact List.nodup_nil
        case liveIff =>
            intro j nd hnd
            dsimp only at hnd ⊢
            have hjlen : j < h.nodes.length + 1 := by
              have := (List.getElem?_eq_some.mp hnd).1
              rwa [hlen, List.length_append, List.length_singleton] at this
            have hjin : j ∈ (ITree.fmerge t (.node h.nodes.length x .leaf .leaf)).idxs := by
              rw [ITree.mem_idxs_fmerge]
              by_cases hje : j = h.nodes.length
              · right; rw [ITree.mem_idxs_single]; exact hje
              · left
                have hjl2 : j < h.nodes.length := by omega
                by_contra hjn
                have := (hI.freedIff j hjl2).mpr hjn
                rw [hfr] at this
                simp at this
            refine ⟨fun _ => hjin, fun _ => ?_⟩
            obtain ⟨xj, lj, rj, ndj, hoj, hndj, hitj, -, -, -, -⟩ :=
              shape_at_mem hshape hjin
            rw [hnd] at hndj
            injection hndj with hndj2
            rw [hndj2, hitj]
            rfl
        case freedIff =>
            intro j hjl
            dsimp only at hjl ⊢
            rw [hfr]
            constructor
            · intro hj; simp at hj
            · intro hjn
              exfalso
              apply hjn
              rw [ITree.mem_idxs_fmerge]
              rw [hlen, List.length_append, List.length_singleton] at hjl
              by_cases hje : j = h.nodes.length
              · right; rw [ITree.mem_idxs_single]; exact hje
              · left
                have hjl2 : j < h.nodes.length := by omega
                by_contra hjn2
                have := (hI.freedIff j hjl2).mpr hjn2
                rw [hfr] at this
                simp at this
        case arith =>
            dsimp only
            rw [hlen, List.length_append, List.length_singleton, ITree.fmerge_size, hfr]
            have harith := hI.arith
            rw [hfr] at harith
            simp at harith
            simp [ITree.size]
            omega
        case parentAcc => exact hpa
      · -- freed is empty, so CleanFreed is vacuous
        intro j hj
        dsimp only at hj
        rw [hfr] at hj
        simp at hj
      · rfl
      · intro
        exact hfr
  | cons idx rest =>
      have hidxF : idx ∈ h.freed := by rw [hfr]; exact List.mem_cons_self idx rest
      have hidxlen : idx < h.nodes.length := hI.freedBound idx hidxF
      obtain ⟨ndOld, hndOld⟩ : ∃ nd, h.nodes[idx]? = some nd :=
        ⟨_, List.getElem?_eq_getElem hidxlen⟩
      have hidxT : idx ∉ t.idxs := (hI.freedIff idx hidxlen).mp hidxF
      have hcleanIdx := hclean idx hidxF ndOld hndOld
      have halloc : h.alloc_node x = some
          ({ h with nodes := h.nodes.set idx { ndOld with item := some x }, freed := rest },
            some idx) := by
        simp only [SkewHeap.alloc_node, hfr, hndOld, Option.bind_eq_bind, Option.some_bind]
      have hAg : ∀ j, j ∈ t.idxs →
          ((h.nodes.set idx { ndOld with item := some x })[j]?).map Node.core
            = (h.nodes[j]?).map Node.core := by
        intro j hj
        rw [List.getElem?_set_ne (fun hc => hidxT (by rw [hc]; exact hj))]
      have hAgP : ∀ j, j ∈ t.idxs →
          ((h.nodes.set idx { ndOld with item := some x })[j]?).map Node.parent
            = (h.nodes[j]?).map Node.parent := by
        intro j hj
        rw [List.getElem?_set_ne (fun hc => hidxT (by rw [hc]; exact hj))]
      have hs1 : Shape (h.nodes.set idx { ndOld with item := some x }) h.root t :=
        hI.shape.congr_arena hAg
      have hsts : Shape (h.nodes.set idx { ndOld with item := some x }) (some idx)
          (.node idx x .leaf .leaf) := by
        refine Shape.node (List.getElem?_set_self hidxlen) rfl ?_ ?_
        · show Shape _ ndOld.left _
          rw [hcleanIdx.1]
          exact Shape.leaf
        · show Shape _ ndOld.right _
          rw [hcleanIdx.2.1]
          exact Shape.leaf
      have hnd2 : (t.idxs ++ (ITree.node idx x .leaf .leaf).idxs).Nodup := by
        rw [List.nodup_append]
        refine ⟨hI.nodup, by simp [ITree.idxs], ?_⟩
        intro j hj hj2
        rw [ITree.mem_idxs_single] at hj2
        exact hidxT (hj2 ▸ hj)
      have hsizelt : t.size < h.nodes.length := by
        have := hI.arith
        rw [hfr] at this
        simp at this
        omega
      have hfuel : 2 * (t.size + (ITree.node idx x .leaf .leaf).size) + 2 ≤
          mergeFuel { h with nodes := h.nodes.set idx { ndOld with item := some x }, freed := rest } := by
        simp [mergeFuel, ITree.size, List.length_set]
        omega
      have hmo := merge_sim
        (mergeFuel { h with nodes := h.nodes.set idx { ndOld with item := some x }, freed := rest })
        (h.nodes.set idx { ndOld with item := some x }) t (.node idx x .leaf .leaf)
        (by rw [hI.shape.root_spec]; exact hs1) hsts hnd2
        (hI.parentAcc.congr_parent hI.nodup (fun j hj hjr => hAgP j hj)) parentAcc_single hfuel
      obtain ⟨nodes2, heq, hlen, hshape, hpa, hframe, hitem⟩ := hmo
      have hlen2 : nodes2.length = h.nodes.length := by
        rw [hlen, List.length_set]
      have hfreedN : (idx :: rest).Nodup := by
        rw [← hfr]; exact hI.freedNodup
      have hrestF : ∀ j ∈ rest, j ∈ h.freed := by
        intro j hj; rw [hfr]; exact List.mem_cons_of_mem idx hj
      have hframe2 : ∀ j, j ∉ t.idxs → j ≠ idx → nodes2[j]? = h.nodes[j]? := by
        intro j hjt hji
        rw [hframe j hjt (fun hc => hji (ITree.mem_idxs_single.mp hc)),
          List.getElem?_set_ne (fun hc => hji hc.symm)]
      refine ⟨SkewHeap.mk (h.count + 1)
          ((ITree.fmerge t (.node idx x .leaf .leaf)).rootI)
          nodes2 rest, idx, ?_, ?_, ?_, ?_, ?_⟩
      · rw [SkewHeap.put]
        simp only [Option.bind_eq_bind, halloc, Option.some_bind]
        rw [hI.shape.root_spec] at heq
        simp only [ITree.rootI] at heq
        rw [heq]
        rfl
      · constructor
        case shape => exact hshape
        case nodup => exact (ITree.idxs_fmerge_perm _ _).nodup_iff.mpr hnd2
        case countEq =>
            dsimp only
            rw [hI.countEq, ITree.fmerge_size]
            simp [ITree.size]
        case freedBound =>
            intro j hj
            dsimp only at hj ⊢
            rw [hlen2]
            exact hI.freedBound j (hrestF j hj)
        case freedNodup =>
            dsimp only
            exact hfreedN.of_cons
        case liveIff =>
            intro j nd hnd
            dsimp only at hnd ⊢
            constructor
            · intro hsome
              by_contra hjn
              rw [ITree.mem_idxs_fmerge] at hjn
              push_neg at hjn
              have hji : j ≠ idx := fun hc => hjn.2 (ITree.mem_idxs_single.mpr hc)
              rw [hframe2 j hjn.1 hji] at hnd
              have := (hI.liveIff j nd hnd).mp hsome
              exact hjn.1 this
            · intro hjin
              obtain ⟨xj, lj, rj, ndj, hoj, hndj, hitj, -, -, -, -⟩ :=
                shape_at_mem hshape hjin
              rw [hnd] at hndj
              injection hndj with hndj2
              rw [hndj2, hitj]
              rfl
        case freedIff =>
            intro j hjl
            dsimp only at hjl ⊢
            rw [hlen2] at hjl
            rw [ITree.mem_idxs_fmerge]
            constructor
            · intro hj
              push_neg
              refine ⟨(hI.freedIff j hjl).mp (hrestF j hj), ?_⟩
              intro hc
              rw [ITree.mem_idxs_single] at hc
              subst hc
              rw [List.nodup_cons] at hfreedN
              exact hfreedN.1 hj
            · intro hjn
              push_neg at hjn
              have hji : j ≠ idx := fun hc => hjn.2 (ITree.mem_idxs_single.mpr hc)
              have := (hI.freedIff j hjl).mpr hjn.1
              rw [hfr] at this
              rcases List.mem_cons.mp this with hc | hc
              · exact absurd hc hji
              · exact hc
        case arith =>
            dsimp only
            rw [hlen2, ITree.fmerge_size]
            have harith := hI.arith
            rw [hfr] at harith
            simp [ITree.size] at harith ⊢
            omega
        case parentAcc => exact hpa
      · -- clean freed slots survive
        intro j hj nd hnd
        dsimp only at hj hnd
        have hjF : j ∈ h.freed := hrestF j hj
        have hjl : j < h.nodes.length := hI.freedBound j hjF
        have hjt : j ∉ t.idxs := (hI.freedIff j hjl).mp hjF
        have hji : j ≠ idx := by
          intro hc
          subst hc
          rw [List.nodup_cons] at hfreedN
          exact hfreedN.1 hj
        rw [hframe2 j hjt hji] at hnd
        exact hclean j hjF nd hnd
      · rfl
      · intro hcon
        simp at hcon

theorem ITree.rootI_fmerge_cases [LinearOrder α] {a b : ITree α} {w : Nat}
    (h : (ITree.fmerge a b).rootI = some w) : a.rootI = some w ∨ b.rootI = some w := by
  cases a with
  | leaf => rw [ITree.fmerge_leaf_l] at h; exact Or.inr h
  | node i x l r =>
      cases b with
      | leaf => rw [ITree.fmerge_leaf_r] at h; exact Or.inl h
      | node j y l2 r2 =>
          rw [ITree.fmerge] at h
          by_cases hc : y < x
          · rw [if_pos hc] at h
            exact Or.inr h
          · rw [if_neg hc] at h
            exact Or.inl h

theorem takePre_ok [LinearOrder α] {h : SkewHeap α} {rt : Nat} {x : α} {l r : ITree α}
    (hI : InvT h (.node rt x l r)) :
    ∃ (h3 : SkewHeap α) (ndRt : Node α),
      h.takePre = some (h3, some x) ∧
      InvT h3 (ITree.fmerge l r) ∧
      h3.count = h.count - 1 ∧
      h3.nodes.length = h.nodes.length ∧
      h3.freed = h.freed ++ [rt] ∧
      h3.root = (ITree.fmerge l r).rootI ∧
      h.nodes[rt]? = some ndRt ∧ ndRt.left = l.rootI ∧ ndRt.right = r.rootI ∧
      h3.nodes[rt]? = some { ndRt with item := none } ∧
      (∀ w, (ITree.fmerge l r).rootI = some w → ∃ ndW : Node α,
        h3.nodes[w]? = some ndW ∧ ndW.parent = some rt) := by
  have hroot : h.root = some rt := (hI.shape.root_spec).symm
  have hs := hI.shape
  rw [hroot] at hs
  obtain ⟨-, ndRt, hndRt, hitRt, hsl, hsr, hlA, hrA⟩ := hs.node_inv
  obtain ⟨hrtL, hrtR, hlN, hrN, hlr⟩ := nodup_node_parts hI.nodup
  have hrtlen : rt < h.nodes.length := (List.getElem?_eq_some.mp hndRt).1
  have hcount1 : 1 ≤ h.count := by
    rw [hI.countEq]
    simp [ITree.size]
  have hsub : checkSub h.count 1 = some (h.count - 1) := by
    rw [checkSub, if_pos hcount1]
  have hndsub : (l.idxs ++ r.idxs).Nodup := by
    rw [List.nodup_append]
    exact ⟨hlN, hrN, fun j hj => hlr j hj⟩
  have hfuel : 2 * (l.size + r.size) + 2 ≤
      mergeFuel { h with count := h.count - 1 } := by
    have := hI.size_le
    simp [mergeFuel, ITree.size] at this ⊢
    omega
  have hmo := merge_sim (mergeFuel { h with count := h.count - 1 }) h.nodes l r
    (by rw [← hlA]; exact hsl) (by rw [← hrA]; exact hsr) hndsub
    hI.parentAcc.2.2.1 hI.parentAcc.2.2.2 hfuel
  obtain ⟨nodes2, heq, hlen, hshape, hpa, hframe, hitem⟩ := hmo
  have hrtM : rt ∉ (ITree.fmerge l r).idxs := by
    rw [ITree.mem_idxs_fmerge]
    rintro (hc | hc)
    · exact hrtL hc
    · exact hrtR hc
  have hnd2rt : nodes2[rt]? = some ndRt := by
    rw [hframe rt hrtL hrtR, hndRt]
  have hfreedRt : rt ∉ h.freed := by
    intro hc
    exact (hI.freedIff rt hrtlen).mp hc (by rw [ITree.mem_idxs_node]; exact Or.inl rfl)
  have hframe2 : ∀ j, j ∉ (ITree.fmerge l r).idxs → j ≠ rt →
      (nodes2.set rt { ndRt with item := none })[j]? = h.nodes[j]? := by
    intro j hjm hjr
    rw [ITree.mem_idxs_fmerge] at hjm
    push_neg at hjm
    rw [List.getElem?_set_ne (fun hc => hjr hc.symm), hframe j hjm.1 hjm.2]
  refine ⟨SkewHeap.mk (h.count - 1) ((ITree.fmerge l r).rootI)
      (nodes2.set rt { ndRt with item := none }) (h.freed ++ [rt]), ndRt,
    ?_, ?_, rfl, ?_, rfl, rfl, hndRt, hlA, hrA, ?_, ?_⟩
  · -- the takePre equation
    rw [SkewHeap.takePre]
    simp only [hroot, hndRt, hsub, Option.bind_eq_bind, Option.some_bind]
    rw [hroot] at heq
    rw [hlA, hrA, heq]
    simp only [Option.some_bind]
    rw [SkewHeap.free_node]
    simp only [hnd2rt, Option.bind_eq_bind, Option.some_bind]
    rw [hitRt, hlA, hrA]
  · constructor
    case shape =>
        refine hshape.congr_arena ?_
        intro j hj
        rw [List.getElem?_set_ne (fun hc => hrtM (by rw [hc]; exact hj))]
    case nodup => exact (ITree.idxs_fmerge_perm _ _).nodup_iff.mpr hndsub
    case countEq =>
        dsimp only
        rw [hI.countEq, ITree.fmerge_size]
        simp [ITree.size]
    case freedBound =>
        intro j hj
        dsimp only at hj ⊢
        rw [List.length_set, hlen]
        rcases List.mem_append.mp hj with hj | hj
        · exact hI.freedBound j hj
        · simp at hj
          subst hj
          exact hrtlen
    case freedNodup =>
        dsimp only
        rw [List.nodup_append]
        refine ⟨hI.freedNodup, List.nodup_singleton rt, ?_⟩
        intro j hj hj2
        simp at hj2
        subst hj2
        exact hfreedRt hj
    case liveIff =>
        intro j nd hnd
        dsimp only at hnd ⊢
        constructor
        · intro hsome
          by_contra hjn
          by_cases hjr : j = rt
          · subst hjr
            rw [List.getElem?_set_self] at hnd
            · injection hnd with hnd2
              rw [← hnd2] at hsome
              simp at hsome
            · rw [hlen]; exact hrtlen
          · rw [hframe2 j hjn hjr] at hnd
            have hjt := (hI.liveIff j nd hnd).mp hsome
            rw [ITree.mem_idxs_node] at hjt
            rcases hjt with hc | hc | hc
            · exact hjr hc
            · exact hjn (ITree.mem_idxs_fmerge.mpr (Or.inl hc))
            · exact hjn (ITree.mem_idxs_fmerge.mpr (Or.inr hc))
        · intro hjin
          obtain ⟨xj, lj, rj, ndj, hoj, hndj, hitj, -, -, -, -⟩ :=
            shape_at_mem hshape hjin
          have hjr : j ≠ rt := fun hc => hrtM (hc ▸ hjin)
          rw [List.getElem?_set_ne (fun hc => hjr hc.symm), hndj] at hnd
          injection hnd with hnd2
          rw [← hnd2, hitj]
          rfl
    case freedIff =>
        intro j hjl
        dsimp only at hjl ⊢
        rw [List.length_set, hlen] at hjl
        constructor
        · intro hj
          rcases List.mem_append.mp hj with hj | hj
          · have := (hI.freedIff j hjl).mp hj
            rw [ITree.mem_idxs_node] at this
            push_neg at this
            rw [ITree.mem_idxs_fmerge]
            push_neg
            exact ⟨this.2.1, this.2.2⟩
          · simp at hj
            subst hj
            exact hrtM
        · intro hjn
          by_cases hjr : j = rt
          · subst hjr
            exact List.mem_append.mpr (Or.inr (by simp))
          · refine List.mem_append.mpr (Or.inl ?_)
            refine (hI.freedIff j hjl).mpr ?_
            rw [ITree.mem_idxs_node]
            push_neg
            rw [ITree.mem_idxs_fmerge] at hjn
            push_neg at hjn
            exact ⟨hjr, hjn.1, hjn.2⟩
    case arith =>
        dsimp only
        rw [List.length_set, hlen, ITree.fmerge_size, List.length_append]
        have harith := hI.arith
        simp [ITree.size] at harith ⊢
        omega
    case parentAcc =>
        refine hpa.congr_parent ((ITree.idxs_fmerge_perm _ _).nodup_iff.mpr hndsub) ?_
        intro j hj hjr
        rw [List.getElem?_set_ne (fun hc => hrtM (by rw [hc]; exact hj))]
  · dsimp only
    rw [List.length_set, hlen]
  · dsimp only
    rw [List.getElem?_set_self]
    rw [hlen]
    exact hrtlen
  · intro w hw
    dsimp only
    have hwrt : w ≠ rt := fun hc => hrtM (by rw [← hc]; exact ITree.rootI_mem hw)
    have hcp : ∃ ndW0 : Node α, h.nodes[w]? = some ndW0 ∧ ndW0.parent = some rt := by
      rcases ITree.rootI_fmerge_cases hw with hc | hc
      · have := hI.parentAcc.1
        rw [ChildParent, hc] at this
        exact this
      · have := hI.parentAcc.2.1
        rw [ChildParent, hc] at this
        exact this
    obtain ⟨ndW0, hndW0, hparW0⟩ := hcp
    obtain ⟨nd2, hnd2, -, hpar2⟩ := hitem w ndW0 hndW0
    refine ⟨nd2, ?_, ?_⟩
    · rw [List.getElem?_set_ne (fun hc => hwrt hc.symm), hnd2]
    · rw [hpar2 hw, hparW0]

/-! ## Specifications of the realloc phases -/

theorem reallocCopy_spec {h : SkewHeap α} {src dst : Nat} {sNd dNd : Node α}
    (hsrc : h.nodes[src]? = some sNd) (hdst : h.nodes[dst]? = some dNd)
    (hne : src ≠ dst) :
    h.reallocCopy src dst = some { h with
      nodes := h.nodes.set dst ⟨sNd.item, sNd.left, sNd.right, sNd.parent⟩ } := by
  have hdlen : dst < h.nodes.length := (List.getElem?_eq_some.mp hdst).1
  rw [SkewHeap.reallocCopy]
  simp only [hsrc, hdst, Option.bind_eq_bind, Option.some_bind]
  simp only [List.getElem?_set_ne (fun hc : dst = src => hne hc.symm),
    List.getElem?_set_self, List.length_set, hdlen, hsrc, Option.some_bind,
    List.set_set, if_true]

theorem reallocFixParent_none {h : SkewHeap α} {src dst : Nat} {cNd : Node α}
    (hdst : h.nodes[dst]? = some cNd) (hp : cNd.parent = none) :
    h.reallocFixParent src dst = some h := by
  rw [SkewHeap.reallocFixParent]
  simp only [hdst, Option.bind_eq_bind, Option.some_bind, hp]

theorem reallocFixParent_left {h : SkewHeap α} {src dst p : Nat} {cNd pNd : Node α}
    (hdst : h.nodes[dst]? = some cNd) (hp : cNd.parent = some p)
    (hpn : h.nodes[p]? = some pNd) (hl : pNd.left = some src) :
    h.reallocFixParent src dst = some
      { h with nodes := h.nodes.set p { pNd with left := some dst } } := by
  rw [SkewHeap.reallocFixParent]
  simp only [hdst, Option.bind_eq_bind, Option.some_bind, hp, hpn, hl, if_true]

theorem reallocFixParent_right {h : SkewHeap α} {src dst p : Nat} {cNd pNd : Node α}
    (hdst : h.nodes[dst]? = some cNd) (hp : cNd.parent = some p)
    (hpn : h.nodes[p]? = some pNd) (hl : pNd.left ≠ some src)
    (hr : pNd.right = some src) :
    h.reallocFixParent src dst = some
      { h with nodes := h.nodes.set p { pNd with right := some dst } } := by
  rw [SkewHeap.reallocFixParent]
  simp only [hdst, Option.bind_eq_bind, Option.some_bind, hp, hpn, hl, hr,
    if_false, if_true]

theorem reallocFixParent_skip {h : SkewHeap α} {src dst p : Nat} {cNd pNd : Node α}
    (hdst : h.nodes[dst]? = some cNd) (hp : cNd.parent = some p)
    (hpn : h.nodes[p]? = some pNd) (hl : pNd.left ≠ some src)
    (hr : pNd.right ≠ some src) :
    h.reallocFixParent src dst = some h := by
  rw [SkewHeap.reallocFixParent]
  simp only [hdst, Option.bind_eq_bind, Option.some_bind, hp, hpn, hl, hr, if_false]

theorem reallocFixLeft_none {h : SkewHeap α} {dst : Nat} {cNd : Node α}
    (hdst : h.nodes[dst]? = some cNd) (hl : cNd.left = none) :
    h.reallocFixLeft dst = some h := by
  rw [SkewHeap.reallocFixLeft]
  simp only [hdst, Option.bind_eq_bind, Option.some_bind, hl]

theorem reallocFixLeft_some {h : SkewHeap α} {dst l : Nat} {cNd lNd : Node α}
    (hdst : h.nodes[dst]? = some cNd) (hl : cNd.left = some l)
    (hln : h.nodes[l]? = some lNd) :
    h.reallocFixLeft dst = some
      { h with nodes := h.nodes.set l { lNd with parent := some dst } } := by
  rw [SkewHeap.reallocFixLeft]
  simp only [hdst, Option.bind_eq_bind, Option.some_bind, hl, hln]

theorem reallocFixRight_none {h : SkewHeap α} {dst : Nat} {cNd : Node α}
    (hdst : h.nodes[dst]? = some cNd) (hr : cNd.right = none) :
    h.reallocFixRight dst = some h := by
  rw [SkewHeap.reallocFixRight]
  simp only [hdst, Option.bind_eq_bind, Option.some_bind, hr]

theorem reallocFixRight_some {h : SkewHeap α} {dst r : Nat} {cNd rNd : Node α}
    (hdst : h.nodes[dst]? = some cNd) (hr : cNd.right = some r)
    (hrn : h.nodes[r]? = some rNd) :
    h.reallocFixRight dst = some
      { h with nodes := h.nodes.set r { rNd with parent := some dst } } := by
  rw [SkewHeap.reallocFixRight]
  simp only [hdst, Option.bind_eq_bind, Option.some_bind, hr, hrn]

theorem free_node_spec {h : SkewHeap α} {idx : Nat} {nd : Node α}
    (hidx : h.nodes[idx]? = some nd) :
    h.free_node idx = some { h with nodes := h.nodes.set idx { nd with item := none }, freed := h.freed ++ [idx] } := by
  rw [SkewHeap.free_node]
  simp only [hidx, Option.bind_eq_bind, Option.some_bind]

/-! ## Transfer of Shape and ParentAcc across a node relocation -/

theorem Occurs.trans {a b c : ITree α} (h1 : Occurs a b) (h2 : Occurs b c) : Occurs a c := by
  induction h2 with
  | refl => exact h1
  | left h ih => exact Occurs.left ih
  | right h ih => exact Occurs.right ih

theorem Occurs.eq_leaf {s : ITree α} (h : Occurs s ITree.leaf) : s = ITree.leaf := by
  cases h
  rfl

theorem Occurs.idxs_sublist {s t : ITree α} (h : Occurs s t) : s.idxs.Sublist t.idxs := by
  induction h with
  | refl => exact List.Sublist.refl _
  | left h ih =>
      refine ih.trans ?_
      simp only [ITree.idxs]
      exact (List.sublist_append_left _ _).trans (List.sublist_cons_self _ _)
  | right h ih =>
      refine ih.trans ?_
      simp only [ITree.idxs]
      exact (List.sublist_append_right _ _).trans (List.sublist_cons_self _ _)

theorem shape_move {nodes nodesF : List (Node α)} {t : ITree α} {src f : Nat}
    {sNd cNd : Node α}
    (hnd : t.idxs.Nodup)
    (hsrcN : nodes[src]? = some sNd)
    (hcF : nodesF[f]? = some cNd)
    (hcit : cNd.item = sNd.item) (hcl : cNd.left = sNd.left) (hcr : cNd.right = sNd.right)
    (hAg : ∀ j ∈ t.idxs, j ≠ src → ∃ ndj ndj2 : Node α, nodes[j]? = some ndj ∧
      nodesF[j]? = some ndj2 ∧ ndj2.item = ndj.item ∧
      ndj2.left = (if ndj.left = some src then some f else ndj.left) ∧
      ndj2.right = (if ndj.right = some src then some f else ndj.right)) :
    ∀ s : ITree α, Occurs s t → Shape nodes s.rootI s →
      Shape nodesF ((s.rename src f).rootI) (s.rename src f)
  | .leaf, _, _ => by
      rw [ITree.rename]
      exact Shape.leaf
  | .node j x lj rj, hocc, hs => by
      have hnds : (ITree.node j x lj rj).idxs.Nodup := hnd.sublist hocc.idxs_sublist
      obtain ⟨hjl, hjr, hljN, hrjN, hlr⟩ := nodup_node_parts hnds
      have hs' : Shape nodes (some j) (.node j x lj rj) := by
        simpa [ITree.rootI] using hs
      obtain ⟨-, ndj, hndj, hitj, hslj, hsrj, hljA, hrjA⟩ := hs'.node_inv
      have hoccl : Occurs lj t := (Occurs.left (Occurs.refl lj)).trans hocc
      have hoccr : Occurs rj t := (Occurs.right (Occurs.refl rj)).trans hocc
      have ihl := shape_move hnd hsrcN hcF hcit hcl hcr hAg lj hoccl
        (by rw [← hljA]; exact hslj)
      have ihr := shape_move hnd hsrcN hcF hcit hcl hcr hAg rj hoccr
        (by rw [← hrjA]; exact hsrj)
      by_cases hj : j = src
      · subst hj
        have hsnd : ndj = sNd := by
          rw [hsrcN] at hndj
          injection hndj with hh
          exact hh.symm
        have hljr : lj.rename j f = lj := ITree.rename_of_not_mem hjl f
        have hrjr : rj.rename j f = rj := ITree.rename_of_not_mem hjr f
        rw [ITree.rename]
        simp only [if_pos rfl, hljr, hrjr, ITree.rootI]
        refine Shape.node hcF ?_ ?_ ?_
        · rw [hcit, ← hsnd, hitj]
        · rw [hcl, ← hsnd, hljA]
          rw [hljr] at ihl
          exact ihl
        · rw [hcr, ← hsnd, hrjA]
          rw [hrjr] at ihr
          exact ihr
      · have hjmem : j ∈ t.idxs := hocc.idxs_subset (by rw [ITree.mem_idxs_node]; exact Or.inl rfl)
        obtain ⟨ndj0, ndj2, hndj0, hndj2, hit2, hl2, hr2⟩ := hAg j hjmem hj
        have hjeq : ndj0 = ndj := by
          rw [hndj] at hndj0
          injection hndj0 with hh
          exact hh.symm
        rw [ITree.rename]
        simp only [if_neg hj, ITree.rootI]
        refine Shape.node hndj2 ?_ ?_ ?_
        · rw [hit2, hjeq, hitj]
        · rw [hl2, hjeq, hljA]
          cases hlj : lj with
          | leaf =>
              rw [hlj] at ihl
              simp only [ITree.rootI]
              rw [if_neg (by simp)]
              simpa [ITree.rename, ITree.rootI] using ihl
          | node c y cl cr =>
              rw [hlj] at ihl
              rw [ITree.rename] at ihl
              simp only [ITree.rootI] at ihl ⊢
              rw [ITree.rename]
              by_cases hc : c = src
              · rw [if_pos (by rw [hc]), if_pos hc]
                rw [if_pos hc] at ihl
                exact ihl
              · rw [if_neg (by simp [hc]), if_neg hc]
                rw [if_neg hc] at ihl
                exact ihl
        · rw [hr2, hjeq, hrjA]
          cases hrj : rj with
          | leaf =>
              rw [hrj] at ihr
              simp only [ITree.rootI]
              rw [if_neg (by simp)]
              simpa [ITree.rename, ITree.rootI] using ihr
          | node c y cl cr =>
              rw [hrj] at ihr
              rw [ITree.rename] at ihr
              simp only [ITree.rootI] at ihr ⊢
              rw [ITree.rename]
              by_cases hc : c = src
              · rw [if_pos (by rw [hc]), if_pos hc]
                rw [if_pos hc] at ihr
                exact ihr
              · rw [if_neg (by simp [hc]), if_neg hc]
                rw [if_neg hc] at ihr
                exact ihr

theorem ParentAcc.occurs {nodes : List (Node α)} {s t : ITree α} (ho : Occurs s t)
    (h : ParentAcc nodes t) : ParentAcc nodes s := by
  induction ho with
  | refl => exact h
  | left h2 ih => exact ih h.2.2.1
  | right h2 ih => exact ih h.2.2.2

theorem parentAcc_move {nodes nodesF : List (Node α)} {t : ITree α} {src f : Nat}
    {sNd cNd : Node α}
    (hndT : t.idxs.Nodup)
    (hsrcN : nodes[src]? = some sNd)
    (hcF : nodesF[f]? = some cNd)
    (hcpar : cNd.parent = sNd.parent)
    (hAgp : ∀ j ∈ t.idxs, j ≠ src → t.rootI ≠ some j → ∃ ndj ndj2 : Node α,
      nodes[j]? = some ndj ∧ nodesF[j]? = some ndj2 ∧
      ndj2.parent = (if ndj.parent = some src then some f else ndj.parent)) :
    ∀ s : ITree α, Occurs s t → ParentAcc nodes s → ParentAcc nodesF (s.rename src f)
  | .leaf, _, _ => by
      rw [ITree.rename]
      exact trivial
  | .node j x lj rj, hocc, hpa => by
      obtain ⟨hcpl, hcpr, hpal, hpar⟩ := hpa
      have hnds : (ITree.node j x lj rj).idxs.Nodup := hndT.sublist hocc.idxs_sublist
      obtain ⟨hjl, hjr, hljN, hrjN, hlr⟩ := nodup_node_parts hnds
      have hoccl : Occurs lj t := (Occurs.left (Occurs.refl lj)).trans hocc
      have hoccr : Occurs rj t := (Occurs.right (Occurs.refl rj)).trans hocc
      have htnode : ∃ rtT yT tlT trT, t = ITree.node rtT yT tlT trT := by
        cases ht : t with
        | leaf =>
            rw [ht] at hocc
            exact absurd hocc.eq_leaf (by simp)
        | node rtT yT tlT trT => exact ⟨rtT, yT, tlT, trT, rfl⟩
      obtain ⟨rtT, yT, tlT, trT, htT⟩ := htnode
      have hCP : ∀ u : ITree α, (∀ c, u.rootI = some c → c ∈ u.idxs) →
          (∀ c, u.rootI = some c → c ∈ lj.idxs ++ rj.idxs) →
          ChildParent nodes u j →
          ChildParent nodesF (u.rename src f) (if j = src then f else j) := by
        intro u hmem0 hchild hcp
        cases hu : u with
        | leaf =>
            rw [ITree.rename]
            exact trivial
        | node c y cl cr =>
            rw [hu] at hcp
            obtain ⟨ndc, hndc, hpc⟩ := hcp
            have hcidx : c ∈ lj.idxs ++ rj.idxs := hchild c (by rw [hu]; rfl)
            have hcmemT : c ∈ t.idxs := hocc.idxs_subset (by
              rw [ITree.mem_idxs_node]
              rcases List.mem_append.mp hcidx with hcc | hcc
              · exact Or.inr (Or.inl hcc)
              · exact Or.inr (Or.inr hcc))
            have hcj : c ≠ j := by
              intro hcc
              rw [hcc] at hcidx
              rcases List.mem_append.mp hcidx with hcc2 | hcc2
              · exact hjl hcc2
              · exact hjr hcc2
            have hcroot : t.rootI ≠ some c := by
              rw [htT]
              simp only [ITree.rootI, Ne, Option.some_inj]
              intro hcc
              rw [htT] at hocc hndT
              have := occurs_children_tail hocc c hcidx
              simp only [ITree.idxs, List.nodup_cons] at hndT
              exact hndT.1 (hcc ▸ this)
            rw [ITree.rename]
            by_cases hc : c = src
            · rw [if_pos hc]
              have hcs : ndc = sNd := by
                rw [hc, hsrcN] at hndc
                injection hndc with hh
                exact hh.symm
              have hjs : j ≠ src := by
                intro hjj
                rw [hjj] at hcj
                rw [hc] at hcj
                exact hcj rfl
              refine ⟨cNd, hcF, ?_⟩
              rw [hcpar, ← hcs, hpc, if_neg hjs]
            · rw [if_neg hc]
              obtain ⟨ndj0, ndj2, hndj0, hndj2, hpar2⟩ := hAgp c hcmemT hc hcroot
              have hce : ndj0 = ndc := by
                rw [hndc] at hndj0
                injection hndj0 with hh
                exact hh.symm
              refine ⟨ndj2, hndj2, ?_⟩
              rw [hpar2, hce, hpc]
              by_cases hj : j = src
              · rw [if_pos (by rw [hj]), if_pos hj]
              · rw [if_neg (by simp [hj]), if_neg hj]
      rw [ITree.rename]
      refine ⟨?_, ?_, ?_, ?_⟩
      · refine hCP lj (fun c hc => ITree.rootI_mem hc) ?_ hcpl
        intro c hc
        exact List.mem_append.mpr (Or.inl (ITree.rootI_mem hc))
      · refine hCP rj (fun c hc => ITree.rootI_mem hc) ?_ hcpr
        intro c hc
        exact List.mem_append.mpr (Or.inr (ITree.rootI_mem hc))
      · exact parentAcc_move hndT hsrcN hcF hcpar hAgp lj hoccl hpal
      · exact parentAcc_move hndT hsrcN hcF hcpar hAgp rj hoccr hpar

/-! ## Sorted free queue and tree parent facts -/

theorem sortNat_perm (l : List Nat) : (sortNat l).Perm l :=
  List.mergeSort_perm l _

theorem sortNat_mem {l : List Nat} {j : Nat} : j ∈ sortNat l ↔ j ∈ l :=
  (sortNat_perm l).mem_iff

theorem sortNat_nodup {l : List Nat} (h : l.Nodup) : (sortNat l).Nodup :=
  (sortNat_perm l).nodup_iff.mpr h

theorem sortNat_length (l : List Nat) : (sortNat l).length = l.length :=
  (sortNat_perm l).length_eq

theorem sortNat_sorted (l : List Nat) :
    List.Pairwise (fun a b : Nat => a ≤ b) (sortNat l) := by
  have := @List.sorted_mergeSort Nat (fun a b : Nat => decide (a ≤ b))
    (fun a b c hab hbc => by simp at hab hbc ⊢; omega)
    (fun a b => by simp; omega) l
  refine this.imp ?_
  intro a b hab
  simpa using hab

theorem sortNat_head_min {l : List Nat} {fst : Nat} {rest : List Nat}
    (h : sortNat l = fst :: rest) : ∀ j ∈ l, fst ≤ j := by
  intro j hj
  have hj2 : j ∈ sortNat l := sortNat_mem.mpr hj
  rw [h] at hj2
  have hs := sortNat_sorted l
  rw [h, List.pairwise_cons] at hs
  rcases List.mem_cons.mp hj2 with rfl | hj3
  · exact le_refl j
  · exact hs.1 j hj3

theorem InvT_sortFreed {h : SkewHeap α} {t : ITree α} (hI : InvT h t) :
    InvT { h with freed := sortNat h.freed } t := by
  refine ⟨hI.shape, hI.nodup, hI.countEq, ?_, ?_, hI.liveIff, ?_, ?_, hI.parentAcc⟩
  · intro j hj
    exact hI.freedBound j (sortNat_mem.mp hj)
  · exact sortNat_nodup hI.freedNodup
  · intro j hjl
    rw [show ({ h with freed := sortNat h.freed } : SkewHeap α).freed = sortNat h.freed
      from rfl, sortNat_mem]
    exact hI.freedIff j hjl
  · show h.nodes.length = t.size + (sortNat h.freed).length
    rw [sortNat_length]
    exact hI.arith

theorem tree_parent_of_nonroot {nodes : List (Node α)} {t : ITree α}
    (hs : Shape nodes t.rootI t) (hnd : t.idxs.Nodup) (hpa : ParentAcc nodes t) :
    ∀ {j : Nat}, j ∈ t.idxs → t.rootI ≠ some j →
    ∃ (p : Nat) (pNd ndj : Node α), p ∈ t.idxs ∧ nodes[p]? = some pNd ∧
      nodes[j]? = some ndj ∧ ndj.parent = some p ∧
      ((pNd.left = some j ∧ pNd.right ≠ some j) ∨
        (pNd.left ≠ some j ∧ pNd.right = some j)) := by
  intro j hj hjr
  cases t with
  | leaf => simp [ITree.idxs] at hj
  | node rt y tl tr =>
      simp only [ITree.rootI, Ne, Option.some_inj] at hjr
      obtain ⟨hrtl, hrtr, htlN, htrN, hdisj⟩ := nodup_node_parts hnd
      have hs' : Shape nodes (some rt) (.node rt y tl tr) := by
        simpa [ITree.rootI] using hs
      obtain ⟨-, ndrt, hndrt, hitrt, hsl2, hsr2, hlrt, hrrt⟩ := hs'.node_inv
      rw [ITree.mem_idxs_node] at hj
      rcases hj with hc | hj | hj
      · exact absurd hc (fun hcc => hjr hcc.symm)
      · -- j inside the left subtree
        by_cases hjt : tl.rootI = some j
        · -- j is the left child of the root
          obtain ⟨ndj, hndj, hpj⟩ : ∃ nd : Node α, nodes[j]? = some nd ∧ nd.parent = some rt := by
            have := hpa.1
            rw [ChildParent, hjt] at this
            exact this
          refine ⟨rt, ndrt, ndj, by rw [ITree.mem_idxs_node]; exact Or.inl rfl,
            hndrt, hndj, hpj, Or.inl ⟨by rw [hlrt, hjt], ?_⟩⟩
          rw [hrrt]
          intro hcc
          have : j ∈ tr.idxs := ITree.rootI_mem hcc
          exact hdisj j (ITree.rootI_mem hjt) this
        · -- recurse into the left subtree
          have hstl2 : Shape nodes tl.rootI tl := by rw [← hlrt]; exact hsl2
          obtain ⟨p, pNd, ndj, hpmem, hpN, hjN, hjp, hps⟩ :=
            tree_parent_of_nonroot hstl2 htlN (hpa.2.2.1) hj hjt
          exact ⟨p, pNd, ndj, by rw [ITree.mem_idxs_node]; exact Or.inr (Or.inl hpmem),
            hpN, hjN, hjp, hps⟩
      · by_cases hjt : tr.rootI = some j
        · obtain ⟨ndj, hndj, hpj⟩ : ∃ nd : Node α, nodes[j]? = some nd ∧ nd.parent = some rt := by
            have := hpa.2.1
            rw [ChildParent, hjt] at this
            exact this
          refine ⟨rt, ndrt, ndj, by rw [ITree.mem_idxs_node]; exact Or.inl rfl,
            hndrt, hndj, hpj, Or.inr ⟨?_, by rw [hrrt, hjt]⟩⟩
          rw [hlrt]
          intro hcc
          have : j ∈ tl.idxs := ITree.rootI_mem hcc
          exact hdisj j this (ITree.rootI_mem hjt)
        · have hstr2 : Shape nodes tr.rootI tr := by rw [← hrrt]; exact hsr2
          obtain ⟨p, pNd, ndj, hpmem, hpN, hjN, hjp, hps⟩ :=
            tree_parent_of_nonroot hstr2 htrN (hpa.2.2.2) hj hjt
          exact ⟨p, pNd, ndj, by rw [ITree.mem_idxs_node]; exact Or.inr (Or.inr hpmem),
            hpN, hjN, hjp, hps⟩

theorem child_field_parent {nodes : List (Node α)} {t : ITree α}
    (hs : Shape nodes t.rootI t) (hpa : ParentAcc nodes t)
    {j src : Nat} (hj : j ∈ t.idxs) {ndj sNd : Node α}
    (hndj : nodes[j]? = some ndj) (hsN : nodes[src]? = some sNd)
    (hchild : ndj.left = some src ∨ ndj.right = some src) : sNd.parent = some j := by
  obtain ⟨x, lj, rj, ndj0, hocc, hndj0, hit0, hl0, hr0, -, -⟩ := shape_at_mem hs hj
  have hje : ndj0 = ndj := by
    rw [hndj] at hndj0
    injection hndj0 with hh
    exact hh.symm
  have hpocc := ParentAcc.occurs hocc hpa
  rcases hchild with hc | hc
  · have hl2 : lj.rootI = some src := by rw [← hl0, hje, hc]
    have := hpocc.1
    rw [ChildParent, hl2] at this
    obtain ⟨nd, hnd, hp⟩ := this
    rw [hsN] at hnd
    injection hnd with hh
    rw [hh]
    exact hp
  · have hr2 : rj.rootI = some src := by rw [← hr0, hje, hc]
    have := hpocc.2.1
    rw [ChildParent, hr2] at this
    obtain ⟨nd, hnd, hp⟩ := this
    rw [hsN] at hnd
    injection hnd with hh
    rw [hh]
    exact hp

theorem occ_root_not_in_children {t : ITree α} (hnd : t.idxs.Nodup) {i w : Nat} {x : α}
    {l r : ITree α} (ho : Occurs (.node i x l r) t) (hw : t.rootI = some w)
    (hmem : w ∈ l.idxs ++ r.idxs) : False := by
  cases t with
  | leaf => simp [ITree.rootI] at hw
  | node rt y tl tr =>
      have hw2 : rt = w := by simpa [ITree.rootI] using hw
      have h1 : w ∈ tl.idxs ++ tr.idxs := occurs_children_tail ho _ hmem
      have h2 : rt ∉ tl.idxs ++ tr.idxs := by
        simp only [ITree.idxs, List.nodup_cons] at hnd
        simpa using hnd.1
      rw [hw2] at h2
      exact h2 h1

theorem realloc_spec {h : SkewHeap α} {t : ITree α} (hI : InvT h t) (hrp : RootParentOk h)
    {src : Nat} (hsrc : src ∈ t.idxs) :
    (h.realloc_node src = some ({ h with freed := sortNat h.freed }, none) ∧
      ∀ j ∈ h.freed, src < j) ∨
    (∃ (nodesF : List (Node α)) (dst : Nat) (rest : List Nat),
      sortNat h.freed = dst :: rest ∧
      h.realloc_node src = some (SkewHeap.mk h.count h.root nodesF (rest ++ [src]), some dst) ∧
      dst < src ∧ dst ∉ t.idxs ∧ nodesF.length = h.nodes.length ∧
      InvT (SkewHeap.mk h.count (if h.root = some src then some dst else h.root) nodesF
        (rest ++ [src])) (t.rename src dst) ∧
      RootParentOk (SkewHeap.mk h.count (if h.root = some src then some dst else h.root)
        nodesF (rest ++ [src]))) := by
  have hsrclen : src < h.nodes.length := hI.shape.idx_lt src hsrc
  obtain ⟨xs, ls, rs, sNd, hoccS, hsN, hsit, hslA, hsrA, hsl, hsr⟩ := shape_at_mem hI.shape hsrc
  have hndOcc : (ITree.node src xs ls rs).idxs.Nodup := hI.nodup.sublist hoccS.idxs_sublist
  obtain ⟨hsls, hsrs, hlsN, hrsN, hlsrs⟩ := nodup_node_parts hndOcc
  cases hsorted : sortNat h.freed with
  | nil =>
      left
      refine ⟨?_, ?_⟩
      · rw [SkewHeap.realloc_node]
        simp only [hsorted]
      · intro j hj
        have h2 : j ∈ sortNat h.freed := sortNat_mem.mpr hj
        rw [hsorted] at h2
        simp at h2
  | cons fst rest =>
      have hfmem : fst ∈ h.freed := sortNat_mem.mp (by rw [hsorted]; exact List.mem_cons_self _ _)
      have hflen : fst < h.nodes.length := hI.freedBound fst hfmem
      have hfT : fst ∉ t.idxs := (hI.freedIff fst hflen).mp hfmem
      have hfs : fst ≠ src := fun hc => hfT (hc ▸ hsrc)
      by_cases hlt : src < fst
      · left
        refine ⟨?_, ?_⟩
        · rw [SkewHeap.realloc_node]
          simp only [hsorted, if_pos hlt]
        · intro j hj
          have hle := sortNat_head_min hsorted j hj
          omega
      · right
        have hfst_lt : fst < src := by
          have hle : fst ≤ src := le_of_not_lt hlt
          rcases Nat.lt_or_ge fst src with hc | hc
          · exact hc
          · exact absurd (le_antisymm hle hc) hfs
        obtain ⟨fNd, hfN⟩ : ∃ nd : Node α, h.nodes[fst]? = some nd :=
          ⟨_, List.getElem?_eq_getElem hflen⟩
        -- the copy phase writes the whole source node into the destination slot
        have heq5 : ({ h with freed := rest } : SkewHeap α).reallocCopy src fst
            = some (SkewHeap.mk h.count h.root (h.nodes.set fst sNd) rest) :=
          reallocCopy_spec hsN hfN (fun hc => hfs hc.symm)
        have hcFst : (h.nodes.set fst sNd)[fst]? = some sNd :=
          List.getElem?_set_self hflen
        have hcSrc : (h.nodes.set fst sNd)[src]? = some sNd := by
          rw [List.getElem?_set_ne hfs, hsN]
        have hset5 : ∀ j, j ≠ fst → (h.nodes.set fst sNd)[j]? = h.nodes[j]? :=
          fun j hj => List.getElem?_set_ne (fun hc => hj hc.symm)
        -- fields of src do not point at src
        have hRNCsrc : sNd.left ≠ some src ∧ sNd.right ≠ some src := by
          constructor
          · rw [hslA]
            intro hc
            exact hsls (ITree.rootI_mem hc)
          · rw [hsrA]
            intro hc
            exact hsrs (ITree.rootI_mem hc)
        have hshr : Shape h.nodes t.rootI t := by
          rw [hI.shape.root_spec]
          exact hI.shape
        -- a live node whose child field is src is the parent of src
        have hfield : ∀ j ∈ t.idxs, ∀ ndj : Node α, h.nodes[j]? = some ndj →
            (ndj.left = some src ∨ ndj.right = some src) → sNd.parent = some j := by
          intro j hj ndj hndj hch
          exact child_field_parent hshr hI.parentAcc hj hndj hsN hch
        -- identity transfer for tree nodes that do not link to src
        have hbaseT : ∀ j ∈ t.idxs, j ≠ src →
            (∀ ndj : Node α, h.nodes[j]? = some ndj →
              ndj.left ≠ some src ∧ ndj.right ≠ some src) →
            ∃ ndj ndj2 : Node α, h.nodes[j]? = some ndj ∧
              (h.nodes.set fst sNd)[j]? = some ndj2 ∧ ndj2.item = ndj.item ∧
              ndj2.parent = ndj.parent ∧
              ndj2.left = (if ndj.left = some src then some fst else ndj.left) ∧
              ndj2.right = (if ndj.right = some src then some fst else ndj.right) := by
          intro j hj hjs hno
          have hjf : j ≠ fst := fun hc => hfT (hc ▸ hj)
          obtain ⟨ndj, hndj⟩ : ∃ nd : Node α, h.nodes[j]? = some nd :=
            ⟨_, List.getElem?_eq_getElem (hI.shape.idx_lt j hj)⟩
          obtain ⟨hfl, hfr⟩ := hno ndj hndj
          exact ⟨ndj, ndj, hndj, by rw [hset5 j hjf, hndj], rfl, rfl,
            by rw [if_neg hfl], by rw [if_neg hfr]⟩
        have hbaseO : ∀ j, j ≠ fst → ∀ ndj : Node α, h.nodes[j]? = some ndj →
            ∃ ndj2 : Node α, (h.nodes.set fst sNd)[j]? = some ndj2 ∧
              ndj2.item = ndj.item :=
          fun j hj ndj hndj => ⟨ndj, by rw [hset5 j hj, hndj], rfl⟩
        -- the arena after the parent fix up phase
        have hmidP : ∃ nodes6 : List (Node α),
            SkewHeap.reallocFixParent
              (SkewHeap.mk h.count h.root (h.nodes.set fst sNd) rest) src fst
              = some (SkewHeap.mk h.count h.root nodes6 rest) ∧
            nodes6.length = h.nodes.length ∧
            nodes6[fst]? = some sNd ∧
            nodes6[src]? = some sNd ∧
            (∀ j ∈ t.idxs, j ≠ src → ∃ ndj ndj2 : Node α, h.nodes[j]? = some ndj ∧
              nodes6[j]? = some ndj2 ∧ ndj2.item = ndj.item ∧
              ndj2.parent = ndj.parent ∧
              ndj2.left = (if ndj.left = some src then some fst else ndj.left) ∧
              ndj2.right = (if ndj.right = some src then some fst else ndj.right)) ∧
            (∀ j, j ∉ t.idxs → j ≠ fst → ∀ ndj : Node α, h.nodes[j]? = some ndj →
              ∃ ndj2 : Node α, nodes6[j]? = some ndj2 ∧ ndj2.item = ndj.item) := by
          by_cases hroots : t.rootI = some src
          · -- src is the tree root: no live node links to it
            have hrooth : h.root = some src := by rw [← hI.shape.root_spec, hroots]
            have hs2 : Shape h.nodes (some src) t := hrooth ▸ hI.shape
            have hRNC := root_not_child hs2 hI.nodup
            cases hpar : sNd.parent with
            | none =>
                refine ⟨h.nodes.set fst sNd, reallocFixParent_none hcFst hpar,
                  by simp, hcFst, hcSrc, ?_, ?_⟩
                · intro j hj hjs
                  exact hbaseT j hj hjs (fun ndj hndj => hRNC j hj ndj hndj)
                · intro j hjT hjf ndj hndj
                  exact hbaseO j hjf ndj hndj
            | some p =>
                have hplen : p < h.nodes.length := hrp src hrooth sNd hsN p hpar
                by_cases hpf : p = fst
                · have hpar2 : sNd.parent = some fst := by rw [hpar, hpf]
                  refine ⟨h.nodes.set fst sNd,
                    reallocFixParent_skip hcFst hpar2 hcFst hRNCsrc.1 hRNCsrc.2,
                    by simp, hcFst, hcSrc, ?_, ?_⟩
                  · intro j hj hjs
                    exact hbaseT j hj hjs (fun ndj hndj => hRNC j hj ndj hndj)
                  · intro j hjT hjf ndj hndj
                    exact hbaseO j hjf ndj hndj
                · obtain ⟨pNd, hpN⟩ : ∃ nd : Node α, h.nodes[p]? = some nd :=
                    ⟨_, List.getElem?_eq_getElem hplen⟩
                  have hpN5 : (h.nodes.set fst sNd)[p]? = some pNd := by
                    rw [hset5 p hpf, hpN]
                  by_cases hpl : pNd.left = some src
                  · -- a stale parent link outside the tree is rewired
                    have hpT : p ∉ t.idxs := fun hmem => (hRNC p hmem pNd hpN).1 hpl
                    refine ⟨(h.nodes.set fst sNd).set p { pNd with left := some fst },
                      reallocFixParent_left hcFst hpar hpN5 hpl, by simp, ?_, ?_, ?_, ?_⟩
                    · rw [List.getElem?_set_ne (fun hc : p = fst => hpf hc), hcFst]
                    · rw [List.getElem?_set_ne (fun hc : p = src => hpT (hc ▸ hsrc)), hcSrc]
                    · intro j hj hjs
                      have hjp : j ≠ p := fun hc => hpT (hc ▸ hj)
                      obtain ⟨ndj, ndj2, hndj, hndj2, hit, hpt, hlf, hrf⟩ :=
                        hbaseT j hj hjs (fun ndj hndj => hRNC j hj ndj hndj)
                      exact ⟨ndj, ndj2, hndj,
                        by rw [List.getElem?_set_ne (fun hc => hjp hc.symm), hndj2],
                        hit, hpt, hlf, hrf⟩
                    · intro j hjT hjf ndj hndj
                      by_cases hjp : j = p
                      · refine ⟨{ pNd with left := some fst }, ?_, ?_⟩
                        · rw [hjp]
                          exact List.getElem?_set_self (by simpa using hplen)
                        · rw [hjp] at hndj
                          rw [hpN] at hndj
                          injection hndj with hh
                          rw [← hh]
                      · obtain ⟨ndj2, h1, h2⟩ := hbaseO j hjf ndj hndj
                        exact ⟨ndj2,
                          by rw [List.getElem?_set_ne (fun hc => hjp hc.symm), h1], h2⟩
                  · by_cases hpr : pNd.right = some src
                    · have hpT : p ∉ t.idxs := fun hmem => (hRNC p hmem pNd hpN).2 hpr
                      refine ⟨(h.nodes.set fst sNd).set p { pNd with right := some fst },
                        reallocFixParent_right hcFst hpar hpN5 hpl hpr,
                        by simp, ?_, ?_, ?_, ?_⟩
                      · rw [List.getElem?_set_ne (fun hc : p = fst => hpf hc), hcFst]
                      · rw [List.getElem?_set_ne (fun hc : p = src => hpT (hc ▸ hsrc)), hcSrc]
                      · intro j hj hjs
                        have hjp : j ≠ p := fun hc => hpT (hc ▸ hj)
                        obtain ⟨ndj, ndj2, hndj, hndj2, hit, hpt, hlf, hrf⟩ :=
                          hbaseT j hj hjs (fun ndj hndj => hRNC j hj ndj hndj)
                        exact ⟨ndj, ndj2, hndj,
                          by rw [List.getElem?_set_ne (fun hc => hjp hc.symm), hndj2],
                          hit, hpt, hlf, hrf⟩
                      · intro j hjT hjf ndj hndj
                        by_cases hjp : j = p
                        · refine ⟨{ pNd with right := some fst }, ?_, ?_⟩
                          · rw [hjp]
                            exact List.getElem?_set_self (by simpa using hplen)
                          · rw [hjp] at hndj
                            rw [hpN] at hndj
                            injection hndj with hh
                            rw [← hh]
                        · obtain ⟨ndj2, h1, h2⟩ := hbaseO j hjf ndj hndj
                          exact ⟨ndj2,
                            by rw [List.getElem?_set_ne (fun hc => hjp hc.symm), h1], h2⟩
                    · refine ⟨h.nodes.set fst sNd,
                        reallocFixParent_skip hcFst hpar hpN5 hpl hpr,
                        by simp, hcFst, hcSrc, ?_, ?_⟩
                      · intro j hj hjs
                        exact hbaseT j hj hjs (fun ndj hndj => hRNC j hj ndj hndj)
                      · intro j hjT hjf ndj hndj
                        exact hbaseO j hjf ndj hndj
          · -- src is not the root: its recorded parent is its actual tree parent
            obtain ⟨p0, pNd, ndj0, hp0T, hpN, hsN0, hparn0, hdisj⟩ :=
              tree_parent_of_nonroot hshr hI.nodup hI.parentAcc hsrc hroots
            have hnd0 : ndj0 = sNd := by
              rw [hsN] at hsN0
              injection hsN0 with hh
              exact hh.symm
            rw [hnd0] at hparn0
            have hp0f : p0 ≠ fst := fun hc => hfT (hc ▸ hp0T)
            have hp0s : p0 ≠ src := by
              intro hc
              rw [hc, hsN] at hpN
              injection hpN with hh
              rw [← hh] at hdisj
              rcases hdisj with ⟨hl, -⟩ | ⟨-, hr⟩
              · exact hRNCsrc.1 hl
              · exact hRNCsrc.2 hr
            have hpN5 : (h.nodes.set fst sNd)[p0]? = some pNd := by
              rw [hset5 p0 hp0f, hpN]
            have hp0len : p0 < h.nodes.length := hI.shape.idx_lt p0 hp0T
            have hother : ∀ j ∈ t.idxs, j ≠ p0 →
                ∀ ndj : Node α, h.nodes[j]? = some ndj →
                ndj.left ≠ some src ∧ ndj.right ≠ some src := by
              intro j hj hjp ndj hndj
              constructor
              · intro hc
                have hp2 := hfield j hj ndj hndj (Or.inl hc)
                rw [hparn0] at hp2
                injection hp2 with hh
                exact hjp hh.symm
              · intro hc
                have hp2 := hfield j hj ndj hndj (Or.inr hc)
                rw [hparn0] at hp2
                injection hp2 with hh
                exact hjp hh.symm
            rcases hdisj with ⟨hl, hr⟩ | ⟨hl, hr⟩
            · refine ⟨(h.nodes.set fst sNd).set p0 { pNd with left := some fst },
                reallocFixParent_left hcFst hparn0 hpN5 hl, by simp, ?_, ?_, ?_, ?_⟩
              · rw [List.getElem?_set_ne (fun hc : p0 = fst => hp0f hc), hcFst]
              · rw [List.getElem?_set_ne (fun hc : p0 = src => hp0s hc), hcSrc]
              · intro j hj hjs
                by_cases hjp : j = p0
                · refine ⟨pNd, { pNd with left := some fst }, (by rw [hjp]; exact hpN),
                    ?_, rfl, rfl, ?_, ?_⟩
                  · rw [hjp]
                    exact List.getElem?_set_self (by simpa using hp0len)
                  · rw [if_pos hl]
                  · rw [if_neg hr]
                · obtain ⟨ndj, ndj2, hndj, hndj2, hit, hpt, hlf, hrf⟩ :=
                    hbaseT j hj hjs (hother j hj hjp)
                  exact ⟨ndj, ndj2, hndj,
                    by rw [List.getElem?_set_ne (fun hc => hjp hc.symm), hndj2],
                    hit, hpt, hlf, hrf⟩
              · intro j hjT hjf ndj hndj
                have hjp : j ≠ p0 := fun hc => hjT (hc ▸ hp0T)
                obtain ⟨ndj2, h1, h2⟩ := hbaseO j hjf ndj hndj
                exact ⟨ndj2,
                  by rw [List.getElem?_set_ne (fun hc => hjp hc.symm), h1], h2⟩
            · refine ⟨(h.nodes.set fst sNd).set p0 { pNd with right := some fst },
                reallocFixParent_right hcFst hparn0 hpN5 hl hr, by simp, ?_, ?_, ?_, ?_⟩
              · rw [List.getElem?_set_ne (fun hc : p0 = fst => hp0f hc), hcFst]
              · rw [List.getElem?_set_ne (fun hc : p0 = src => hp0s hc), hcSrc]
              · intro j hj hjs
                by_cases hjp : j = p0
                · refine ⟨pNd, { pNd with right := some fst }, (by rw [hjp]; exact hpN),
                    ?_, rfl, rfl, ?_, ?_⟩
                  · rw [hjp]
                    exact List.getElem?_set_self (by simpa using hp0len)
                  · rw [if_neg hl]
                  · rw [if_pos hr]
                · obtain ⟨ndj, ndj2, hndj, hndj2, hit, hpt, hlf, hrf⟩ :=
                    hbaseT j hj hjs (hother j hj hjp)
                  exact ⟨ndj, ndj2, hndj,
                    by rw [List.getElem?_set_ne (fun hc => hjp hc.symm), hndj2],
                    hit, hpt, hlf, hrf⟩
              · intro j hjT hjf ndj hndj
                have hjp : j ≠ p0 := fun hc => hjT (hc ▸ hp0T)
                obtain ⟨ndj2, h1, h2⟩ := hbaseO j hjf ndj hndj
                exact ⟨ndj2,
                  by rw [List.getElem?_set_ne (fun hc => hjp hc.symm), h1], h2⟩
        obtain ⟨nodes6, heq6, hlen6, hfst6, hsrc6, htree6, hoff6⟩ := hmidP
        have hchmemL : ∀ j, ls.rootI = some j → j ∈ t.idxs := by
          intro j hjr
          refine hoccS.idxs_subset ?_
          simp only [ITree.idxs, List.mem_cons, List.mem_append]
          exact Or.inr (Or.inl (ITree.rootI_mem hjr))
        have hchmemR : ∀ j, rs.rootI = some j → j ∈ t.idxs := by
          intro j hjr
          refine hoccS.idxs_subset ?_
          simp only [ITree.idxs, List.mem_cons, List.mem_append]
          exact Or.inr (Or.inr (ITree.rootI_mem hjr))
        have hsrcL : ∀ j, ls.rootI = some j → j ≠ src :=
          fun j hjr hc => hsls (hc ▸ ITree.rootI_mem hjr)
        have hsrcR : ∀ j, rs.rootI = some j → j ≠ src :=
          fun j hjr hc => hsrs (hc ▸ ITree.rootI_mem hjr)
        -- the arena after both child parent link fix up phases
        have hmid78 : ∃ nodes7 nodes8 : List (Node α),
            SkewHeap.reallocFixLeft (SkewHeap.mk h.count h.root nodes6 rest) fst
              = some (SkewHeap.mk h.count h.root nodes7 rest) ∧
            SkewHeap.reallocFixRight (SkewHeap.mk h.count h.root nodes7 rest) fst
              = some (SkewHeap.mk h.count h.root nodes8 rest) ∧
            nodes8.length = h.nodes.length ∧
            nodes8[fst]? = some sNd ∧
            nodes8[src]? = some sNd ∧
            (∀ j ∈ t.idxs, j ≠ src → ∃ ndj ndj2 : Node α, h.nodes[j]? = some ndj ∧
              nodes8[j]? = some ndj2 ∧ ndj2.item = ndj.item ∧
              ndj2.left = (if ndj.left = some src then some fst else ndj.left) ∧
              ndj2.right = (if ndj.right = some src then some fst else ndj.right) ∧
              (ls.rootI = some j ∨ rs.rootI = some j → ndj2.parent = some fst) ∧
              (ls.rootI ≠ some j → rs.rootI ≠ some j → ndj2.parent = ndj.parent)) ∧
            (∀ j, j ∉ t.idxs → j ≠ fst → ∀ ndj : Node α, h.nodes[j]? = some ndj →
              ∃ ndj2 : Node α, nodes8[j]? = some ndj2 ∧ ndj2.item = ndj.item) := by
          cases hlv : ls.rootI with
          | none =>
              have heq7 : SkewHeap.reallocFixLeft
                  (SkewHeap.mk h.count h.root nodes6 rest) fst
                  = some (SkewHeap.mk h.count h.root nodes6 rest) :=
                reallocFixLeft_none hfst6 (by rw [hslA, hlv])
              cases hrv : rs.rootI with
              | none =>
                  have heq8 : SkewHeap.reallocFixRight
                      (SkewHeap.mk h.count h.root nodes6 rest) fst
                      = some (SkewHeap.mk h.count h.root nodes6 rest) :=
                    reallocFixRight_none hfst6 (by rw [hsrA, hrv])
                  refine ⟨nodes6, nodes6, heq7, heq8, hlen6,
                    hfst6, hsrc6, ?_, hoff6⟩
                  intro j hj hjs
                  obtain ⟨ndj, ndj2, hndj, hndj2, hit, hpt, hlf, hrf⟩ := htree6 j hj hjs
                  refine ⟨ndj, ndj2, hndj, hndj2, hit, hlf, hrf, ?_, fun _ _ => hpt⟩
                  intro hch
                  rcases hch with h1 | h1 <;> exact absurd h1 (by simp)
              | some rc =>
                  have hrcT : rc ∈ t.idxs := hchmemR rc hrv
                  have hrcs : rc ≠ src := hsrcR rc hrv
                  have hrcf : rc ≠ fst := fun hc => hfT (hc ▸ hrcT)
                  have hrclen : rc < h.nodes.length := hI.shape.idx_lt rc hrcT
                  obtain ⟨ndrc, ndrc2, hndrc, hndrc2, hitrc, hptrc, hlfrc, hrfrc⟩ :=
                    htree6 rc hrcT hrcs
                  have heq8 : SkewHeap.reallocFixRight
                      (SkewHeap.mk h.count h.root nodes6 rest) fst
                      = some (SkewHeap.mk h.count h.root
                        (nodes6.set rc { ndrc2 with parent := some fst }) rest) :=
                    reallocFixRight_some hfst6 (by rw [hsrA, hrv]) hndrc2
                  refine ⟨nodes6, nodes6.set rc { ndrc2 with parent := some fst },
                    heq7, heq8, by simp [hlen6], ?_, ?_, ?_, ?_⟩
                  · rw [List.getElem?_set_ne (fun hc : rc = fst => hrcf hc), hfst6]
                  · rw [List.getElem?_set_ne (fun hc : rc = src => hrcs hc), hsrc6]
                  · intro j hj hjs
                    by_cases hjrc : j = rc
                    · refine ⟨ndrc, { ndrc2 with parent := some fst },
                        (by rw [hjrc]; exact hndrc), ?_, hitrc, hlfrc, hrfrc,
                        fun _ => rfl, ?_⟩
                      · rw [hjrc]
                        exact List.getElem?_set_self (by simpa [hlen6] using hrclen)
                      · intro h1 h2
                        exact absurd (by rw [hjrc]) h2
                    · obtain ⟨ndj, ndj2, hndj, hndj2, hit, hpt, hlf, hrf⟩ := htree6 j hj hjs
                      refine ⟨ndj, ndj2, hndj,
                        by rw [List.getElem?_set_ne (fun hc => hjrc hc.symm), hndj2],
                        hit, hlf, hrf, ?_, fun _ _ => hpt⟩
                      intro hch
                      rcases hch with h1 | h1
                      · exact absurd h1 (by simp)
                      · injection h1 with hh
                        exact absurd hh.symm hjrc
                  · intro j hjT hjf ndj hndj
                    have hjrc : j ≠ rc := fun hc => hjT (hc ▸ hrcT)
                    obtain ⟨ndj2, h1, h2⟩ := hoff6 j hjT hjf ndj hndj
                    exact ⟨ndj2,
                      by rw [List.getElem?_set_ne (fun hc => hjrc hc.symm), h1], h2⟩
          | some lc =>
              have hlcT : lc ∈ t.idxs := hchmemL lc hlv
              have hlcs : lc ≠ src := hsrcL lc hlv
              have hlcf : lc ≠ fst := fun hc => hfT (hc ▸ hlcT)
              have hlclen : lc < h.nodes.length := hI.shape.idx_lt lc hlcT
              obtain ⟨ndlc, ndlc2, hndlc, hndlc2, hitlc, hptlc, hlflc, hrflc⟩ :=
                htree6 lc hlcT hlcs
              have heq7 : SkewHeap.reallocFixLeft
                  (SkewHeap.mk h.count h.root nodes6 rest) fst
                  = some (SkewHeap.mk h.count h.root
                    (nodes6.set lc { ndlc2 with parent := some fst }) rest) :=
                reallocFixLeft_some hfst6 (by rw [hslA, hlv]) hndlc2
              have hfst7 : (nodes6.set lc { ndlc2 with parent := some fst })[fst]?
                  = some sNd := by
                rw [List.getElem?_set_ne (fun hc : lc = fst => hlcf hc), hfst6]
              cases hrv : rs.rootI with
              | none =>
                  have heq8 : SkewHeap.reallocFixRight
                      (SkewHeap.mk h.count h.root
                        (nodes6.set lc { ndlc2 with parent := some fst }) rest) fst
                      = some (SkewHeap.mk h.count h.root
                        (nodes6.set lc { ndlc2 with parent := some fst }) rest) :=
                    reallocFixRight_none hfst7 (by rw [hsrA, hrv])
                  refine ⟨nodes6.set lc { ndlc2 with parent := some fst },
                    nodes6.set lc { ndlc2 with parent := some fst },
                    heq7, heq8, by simp [hlen6], hfst7, ?_, ?_, ?_⟩
                  · rw [List.getElem?_set_ne (fun hc : lc = src => hlcs hc), hsrc6]
                  · intro j hj hjs
                    by_cases hjlc : j = lc
                    · refine ⟨ndlc, { ndlc2 with parent := some fst },
                        (by rw [hjlc]; exact hndlc), ?_, hitlc, hlflc, hrflc,
                        fun _ => rfl, ?_⟩
                      · rw [hjlc]
                        exact List.getElem?_set_self (by simpa [hlen6] using hlclen)
                      · intro h1 h2
                        exact absurd (by rw [hjlc]) h1
                    · obtain ⟨ndj, ndj2, hndj, hndj2, hit, hpt, hlf, hrf⟩ := htree6 j hj hjs
                      refine ⟨ndj, ndj2, hndj,
                        by rw [List.getElem?_set_ne (fun hc => hjlc hc.symm), hndj2],
                        hit, hlf, hrf, ?_, fun _ _ => hpt⟩
                      intro hch
                      rcases hch with h1 | h1
                      · injection h1 with hh
                        exact absurd hh.symm hjlc
                      · exact absurd h1 (by simp)
                  · intro j hjT hjf ndj hndj
                    have hjlc : j ≠ lc := fun hc => hjT (hc ▸ hlcT)
                    obtain ⟨ndj2, h1, h2⟩ := hoff6 j hjT hjf ndj hndj
                    exact ⟨ndj2,
                      by rw [List.getElem?_set_ne (fun hc => hjlc hc.symm), h1], h2⟩
              | some rc =>
                  have hrcT : rc ∈ t.idxs := hchmemR rc hrv
                  have hrcs : rc ≠ src := hsrcR rc hrv
                  have hrcf : rc ≠ fst := fun hc => hfT (hc ▸ hrcT)
                  have hrclen : rc < h.nodes.length := hI.shape.idx_lt rc hrcT
                  have hlcrc : lc ≠ rc :=
                    fun hc => hlsrs lc (ITree.rootI_mem hlv) (hc ▸ ITree.rootI_mem hrv)
                  obtain ⟨ndrc, ndrc2, hndrc, hndrc2, hitrc, hptrc, hlfrc, hrfrc⟩ :=
                    htree6 rc hrcT hrcs
                  have hndrc7 : (nodes6.set lc { ndlc2 with parent := some fst })[rc]?
                      = some ndrc2 := by
                    rw [List.getElem?_set_ne (fun hc : lc = rc => hlcrc hc), hndrc2]
                  have heq8 : SkewHeap.reallocFixRight
                      (SkewHeap.mk h.count h.root
                        (nodes6.set lc { ndlc2 with parent := some fst }) rest) fst
                      = some (SkewHeap.mk h.count h.root
                        ((nodes6.set lc { ndlc2 with parent := some fst }).set rc
                          { ndrc2 with parent := some fst }) rest) :=
                    reallocFixRight_some hfst7 (by rw [hsrA, hrv]) hndrc7
                  refine ⟨nodes6.set lc { ndlc2 with parent := some fst },
                    (nodes6.set lc { ndlc2 with parent := some fst }).set rc
                      { ndrc2 with parent := some fst },
                    heq7, heq8, by simp [hlen6], ?_, ?_, ?_, ?_⟩
                  · rw [List.getElem?_set_ne (fun hc : rc = fst => hrcf hc), hfst7]
                  · rw [List.getElem?_set_ne (fun hc : rc = src => hrcs hc),
                      List.getElem?_set_ne (fun hc : lc = src => hlcs hc), hsrc6]
                  · intro j hj hjs
                    by_cases hjrc : j = rc
                    · refine ⟨ndrc, { ndrc2 with parent := some fst },
                        (by rw [hjrc]; exact hndrc), ?_, hitrc, hlfrc, hrfrc,
                        fun _ => rfl, ?_⟩
                      · rw [hjrc]
                        exact List.getElem?_set_self (by simpa [hlen6] using hrclen)
                      · intro h1 h2
                        exact absurd (by rw [hjrc]) h2
                    · by_cases hjlc : j = lc
                      · refine ⟨ndlc, { ndlc2 with parent := some fst },
                          (by rw [hjlc]; exact hndlc), ?_, hitlc, hlflc, hrflc,
                          fun _ => rfl, ?_⟩
                        · rw [hjlc, List.getElem?_set_ne (fun hc : rc = lc => hlcrc hc.symm)]
                          exact List.getElem?_set_self (by simpa [hlen6] using hlclen)
                        · intro h1 h2
                          exact absurd (by rw [hjlc]) h1
                      · obtain ⟨ndj, ndj2, hndj, hndj2, hit, hpt, hlf, hrf⟩ := htree6 j hj hjs
                        refine ⟨ndj, ndj2, hndj, ?_, hit, hlf, hrf, ?_, fun _ _ => hpt⟩
                        · rw [List.getElem?_set_ne (fun hc => hjrc hc.symm),
                            List.getElem?_set_ne (fun hc => hjlc hc.symm), hndj2]
                        · intro hch
                          rcases hch with h1 | h1
                          · injection h1 with hh
                            exact absurd hh.symm hjlc
                          · injection h1 with hh
                            exact absurd hh.symm hjrc
                  · intro j hjT hjf ndj hndj
                    have hjlc : j ≠ lc := fun hc => hjT (hc ▸ hlcT)
                    have hjrc : j ≠ rc := fun hc => hjT (hc ▸ hrcT)
                    obtain ⟨ndj2, h1, h2⟩ := hoff6 j hjT hjf ndj hndj
                    exact ⟨ndj2,
                      by rw [List.getElem?_set_ne (fun hc => hjrc hc.symm),
                        List.getElem?_set_ne (fun hc => hjlc hc.symm), h1], h2⟩
        obtain ⟨nodes7, nodes8, heq7, heq8, hlen8, hfst8, hsrc8, htree8, hoff8⟩ := hmid78
        have heq9 : SkewHeap.free_node (SkewHeap.mk h.count h.root nodes8 rest) src
            = some (SkewHeap.mk h.count h.root (nodes8.set src { sNd with item := none })
              (rest ++ [src])) :=
          free_node_spec hsrc8
        -- lookups into the final arena
        have hsrc8len : src < nodes8.length := by rw [hlen8]; exact hsrclen
        have hFsrc : (nodes8.set src { sNd with item := none })[src]?
            = some { sNd with item := none } := List.getElem?_set_self hsrc8len
        have hFfst : (nodes8.set src { sNd with item := none })[fst]? = some sNd := by
          rw [List.getElem?_set_ne (fun hc : src = fst => hfs hc.symm), hfst8]
        have hFtree : ∀ j ∈ t.idxs, j ≠ src → ∃ ndj ndj2 : Node α,
            h.nodes[j]? = some ndj ∧
            (nodes8.set src { sNd with item := none })[j]? = some ndj2 ∧
            ndj2.item = ndj.item ∧
            ndj2.left = (if ndj.left = some src then some fst else ndj.left) ∧
            ndj2.right = (if ndj.right = some src then some fst else ndj.right) ∧
            (ls.rootI = some j ∨ rs.rootI = some j → ndj2.parent = some fst) ∧
            (ls.rootI ≠ some j → rs.rootI ≠ some j → ndj2.parent = ndj.parent) := by
          intro j hj hjs
          obtain ⟨ndj, ndj2, hndj, hndj2, hit, hlf, hrf, hich, hnich⟩ := htree8 j hj hjs
          exact ⟨ndj, ndj2, hndj,
            by rw [List.getElem?_set_ne (fun hc : src = j => hjs hc.symm), hndj2],
            hit, hlf, hrf, hich, hnich⟩
        have hmemren : ∀ j, j ∈ (t.rename src fst).idxs ↔
            (j = fst ∨ (j ∈ t.idxs ∧ j ≠ src)) := by
          intro j
          rw [ITree.mem_idxs_rename hfT]
          constructor
          · rintro (⟨h1, -⟩ | ⟨h1, h2⟩)
            · exact Or.inl h1
            · exact Or.inr ⟨h1, h2⟩
          · rintro (h1 | ⟨h1, h2⟩)
            · exact Or.inl ⟨h1, hsrc⟩
            · exact Or.inr ⟨h1, h2⟩
        -- shape of the relocated tree
        have hAgS : ∀ j ∈ t.idxs, j ≠ src → ∃ ndj ndj2 : Node α,
            h.nodes[j]? = some ndj ∧
            (nodes8.set src { sNd with item := none })[j]? = some ndj2 ∧
            ndj2.item = ndj.item ∧
            ndj2.left = (if ndj.left = some src then some fst else ndj.left) ∧
            ndj2.right = (if ndj.right = some src then some fst else ndj.right) := by
          intro j hj hjs
          obtain ⟨ndj, ndj2, hndj, hndj2, hit, hlf, hrf, -, -⟩ := hFtree j hj hjs
          exact ⟨ndj, ndj2, hndj, hndj2, hit, hlf, hrf⟩
        have hshF : Shape (nodes8.set src { sNd with item := none })
            ((t.rename src fst).rootI) (t.rename src fst) :=
          shape_move hI.nodup hsN hFfst rfl rfl rfl hAgS t (Occurs.refl t) hshr
        have hrootF : (t.rename src fst).rootI
            = (if h.root = some src then some fst else h.root) := by
          rw [ITree.rootI_rename, hI.shape.root_spec]
          cases hr : h.root with
          | none => simp
          | some w =>
              by_cases hw : w = src
              · simp [hw]
              · simp [hw]
        -- parent accuracy of the relocated tree
        have hchildsrc : ∀ j ∈ t.idxs, t.rootI ≠ some j → ∀ ndj : Node α,
            h.nodes[j]? = some ndj → ndj.parent = some src →
            ls.rootI = some j ∨ rs.rootI = some j := by
          intro j hj hjr ndj hndj hp
          obtain ⟨p1, pNd1, ndj1, hp1T, hpN1, hndj1, hpar1, hdisj1⟩ :=
            tree_parent_of_nonroot hshr hI.nodup hI.parentAcc hj hjr
          have he : ndj1 = ndj := by
            rw [hndj] at hndj1
            injection hndj1 with hh
            exact hh.symm
          rw [he, hp] at hpar1
          injection hpar1 with hh2
          rw [← hh2] at hpN1
          rw [hsN] at hpN1
          injection hpN1 with hh3
          rw [← hh3] at hdisj1
          rcases hdisj1 with ⟨hl1, -⟩ | ⟨-, hr1⟩
          · left
            rw [← hslA]
            exact hl1
          · right
            rw [← hsrA]
            exact hr1
        have hCP : ∀ (u : ITree α) (p c : Nat), ChildParent h.nodes u p →
            u.rootI = some c → ∃ nd : Node α, h.nodes[c]? = some nd ∧
            nd.parent = some p := by
          intro u p c hcp hr
          unfold ChildParent at hcp
          rw [hr] at hcp
          exact hcp
        have hnotchild : ∀ j ∈ t.idxs, ∀ ndj : Node α, h.nodes[j]? = some ndj →
            ndj.parent ≠ some src → ls.rootI ≠ some j ∧ rs.rootI ≠ some j := by
          intro j hj ndj hndj hp
          obtain ⟨hcpl, hcpr, -, -⟩ := ParentAcc.occurs hoccS hI.parentAcc
          constructor
          · intro hc
            obtain ⟨nd2, hnd2, hpar2⟩ := hCP ls src j hcpl hc
            rw [hndj] at hnd2
            injection hnd2 with hh
            rw [← hh] at hpar2
            exact hp hpar2
          · intro hc
            obtain ⟨nd2, hnd2, hpar2⟩ := hCP rs src j hcpr hc
            rw [hndj] at hnd2
            injection hnd2 with hh
            rw [← hh] at hpar2
            exact hp hpar2
        have hAgpF : ∀ j ∈ t.idxs, j ≠ src → t.rootI ≠ some j →
            ∃ ndj ndj2 : Node α, h.nodes[j]? = some ndj ∧
              (nodes8.set src { sNd with item := none })[j]? = some ndj2 ∧
              ndj2.parent = (if ndj.parent = some src then some fst else ndj.parent) := by
          intro j hj hjs hjr
          obtain ⟨ndj, ndj2, hndj, hndj2, hit, hlf, hrf, hich, hnich⟩ := hFtree j hj hjs
          refine ⟨ndj, ndj2, hndj, hndj2, ?_⟩
          by_cases hp : ndj.parent = some src
          · rw [if_pos hp]
            exact hich (hchildsrc j hj hjr ndj hndj hp)
          · rw [if_neg hp]
            obtain ⟨h1, h2⟩ := hnotchild j hj ndj hndj hp
            exact hnich h1 h2
        have hpaF : ParentAcc (nodes8.set src { sNd with item := none })
            (t.rename src fst) :=
          parentAcc_move hI.nodup hsN hFfst rfl hAgpF t (Occurs.refl t) hI.parentAcc
        -- the freed queue of the result
        have hsn : (fst :: rest).Nodup := by
          rw [← hsorted]
          exact sortNat_nodup hI.freedNodup
        have hsrcrest : src ∉ rest := by
          intro hc
          have h1 : src ∈ h.freed := sortNat_mem.mp
            (by rw [hsorted]; exact List.mem_cons_of_mem _ hc)
          exact ((hI.freedIff src hsrclen).mp h1) hsrc
        have hfnF : (rest ++ [src]).Nodup := by
          rw [List.nodup_append]
          refine ⟨(List.nodup_cons.mp hsn).2, List.nodup_singleton _, ?_⟩
          intro a ha hb
          simp only [List.mem_singleton] at hb
          rw [hb] at ha
          exact hsrcrest ha
        have hfbF : ∀ j ∈ rest ++ [src],
            j < (nodes8.set src { sNd with item := none }).length := by
          intro j hj
          have hlenF : (nodes8.set src { sNd with item := none }).length
              = h.nodes.length := by simp [hlen8]
          rw [hlenF]
          rcases List.mem_append.mp hj with hj1 | hj1
          · exact hI.freedBound j (sortNat_mem.mp
              (by rw [hsorted]; exact List.mem_cons_of_mem _ hj1))
          · have hjsrc : j = src := by simpa using hj1
            rw [hjsrc]
            exact hsrclen
        have hliveF : ∀ (j : Nat) (nd : Node α),
            (nodes8.set src { sNd with item := none })[j]? = some nd →
            (nd.item.isSome = true ↔ j ∈ (t.rename src fst).idxs) := by
          intro j nd hnd
          rw [hmemren j]
          by_cases hjs : j = src
          · rw [hjs] at hnd ⊢
            rw [hFsrc] at hnd
            injection hnd with hh
            rw [← hh]
            constructor
            · intro hc
              simp at hc
            · rintro (hc | ⟨-, hc⟩)
              · exact absurd hc.symm hfs
              · exact absurd rfl hc
          · by_cases hjf : j = fst
            · rw [hjf] at hnd
              rw [hFfst] at hnd
              injection hnd with hh
              rw [← hh, hsit]
              constructor
              · intro hc2
                exact Or.inl hjf
              · intro hc2
                rfl
            · by_cases hjT : j ∈ t.idxs
              · obtain ⟨ndj, ndj2, hndj, hndj2, hit, -, -, -, -⟩ := hFtree j hjT hjs
                rw [hndj2] at hnd
                injection hnd with hh
                rw [← hh, hit, hI.liveIff j ndj hndj]
                constructor
                · intro hc2
                  exact Or.inr ⟨hc2, hjs⟩
                · rintro (hc2 | ⟨hc2, -⟩)
                  · exact absurd hc2 hjf
                  · exact hc2
              · have hjlen : j < h.nodes.length := by
                  have h1 := (List.getElem?_eq_some.mp hnd).1
                  simpa [hlen8] using h1
                obtain ⟨ndj, hndj⟩ : ∃ nd : Node α, h.nodes[j]? = some nd :=
                  ⟨_, List.getElem?_eq_getElem hjlen⟩
                obtain ⟨ndj2, hndj2, hit⟩ := hoff8 j hjT hjf ndj hndj
                rw [List.getElem?_set_ne (fun hc : src = j => hjs hc.symm), hndj2] at hnd
                injection hnd with hh
                rw [← hh, hit, hI.liveIff j ndj hndj]
                constructor
                · intro hc2
                  exact absurd hc2 hjT
                · rintro (hc2 | ⟨hc2, -⟩)
                  · exact absurd hc2 hjf
                  · exact absurd hc2 hjT
        have hfiF : ∀ j, j < (nodes8.set src { sNd with item := none }).length →
            (j ∈ rest ++ [src] ↔ j ∉ (t.rename src fst).idxs) := by
          intro j hjlen
          have hjlen2 : j < h.nodes.length := by simpa [hlen8] using hjlen
          rw [hmemren j, List.mem_append]
          constructor
          · rintro (hj1 | hj1) hcon
            · have hjfr : j ∈ h.freed := sortNat_mem.mp
                (by rw [hsorted]; exact List.mem_cons_of_mem _ hj1)
              have hjT : j ∉ t.idxs := (hI.freedIff j hjlen2).mp hjfr
              have hjfst : j ≠ fst := by
                intro hc
                rw [hc] at hj1
                exact (List.nodup_cons.mp hsn).1 hj1
              rcases hcon with hc | ⟨hc, -⟩
              · exact hjfst hc
              · exact hjT hc
            · have hjsrc : j = src := by simpa using hj1
              rcases hcon with hc | ⟨-, hc⟩
              · rw [hjsrc] at hc
                exact hfs hc.symm
              · exact hc hjsrc
          · intro hne
            by_cases hjs : j = src
            · exact Or.inr (by simp [hjs])
            · left
              have hjT : j ∉ t.idxs := fun hc => hne (Or.inr ⟨hc, hjs⟩)
              have hjfr : j ∈ h.freed := (hI.freedIff j hjlen2).mpr hjT
              have hjsort : j ∈ fst :: rest := by
                rw [← hsorted]
                exact sortNat_mem.mpr hjfr
              rcases List.mem_cons.mp hjsort with hc | hc
              · exact absurd (Or.inl hc) hne
              · exact hc
        have harF : (nodes8.set src { sNd with item := none }).length
            = (t.rename src fst).size + (rest ++ [src]).length := by
          have h2 : (sortNat h.freed).length = h.freed.length := sortNat_length _
          rw [hsorted] at h2
          simp only [List.length_cons] at h2
          rw [List.length_set, hlen8, ITree.size_rename, hI.arith, List.length_append]
          simp only [List.length_singleton]
          omega
        have hIF : InvT (SkewHeap.mk h.count
            (if h.root = some src then some fst else h.root)
            (nodes8.set src { sNd with item := none }) (rest ++ [src]))
            (t.rename src fst) := by
          refine ⟨?_, ITree.nodup_rename hI.nodup hfT, ?_, hfbF, hfnF, hliveF, hfiF,
            harF, hpaF⟩
          · rw [← hrootF]
            exact hshF
          · rw [ITree.size_rename]
            exact hI.countEq
        have hrpoF : RootParentOk (SkewHeap.mk h.count
            (if h.root = some src then some fst else h.root)
            (nodes8.set src { sNd with item := none }) (rest ++ [src])) := by
          intro w hw nd hnd p hp
          by_cases hr0 : h.root = some src
          · rw [if_pos hr0] at hw
            injection hw with hww
            rw [← hww] at hnd
            rw [hFfst] at hnd
            injection hnd with hh
            rw [← hh] at hp
            have h1 := hrp src hr0 sNd hsN p hp
            simpa [hlen8] using h1
          · rw [if_neg hr0] at hw
            have hws : w ≠ src := fun hc => hr0 (hc ▸ hw)
            have hwroot : t.rootI = some w := by
              rw [hI.shape.root_spec]
              exact hw
            have hwT : w ∈ t.idxs := ITree.rootI_mem hwroot
            have hnl : ls.rootI ≠ some w := fun hc =>
              occ_root_not_in_children hI.nodup hoccS hwroot
                (List.mem_append.mpr (Or.inl (ITree.rootI_mem hc)))
            have hnr : rs.rootI ≠ some w := fun hc =>
              occ_root_not_in_children hI.nodup hoccS hwroot
                (List.mem_append.mpr (Or.inr (ITree.rootI_mem hc)))
            obtain ⟨ndw, ndw2, hndw, hndw2, hit, hlf, hrf, hich, hnich⟩ :=
              hFtree w hwT hws
            rw [hndw2] at hnd
            injection hnd with hh
            rw [← hh, hnich hnl hnr] at hp
            have h1 := hrp w hw ndw hndw p hp
            simpa [hlen8] using h1
        refine ⟨nodes8.set src { sNd with item := none }, fst, rest, rfl, ?_,
          hfst_lt, hfT, by simp [hlen8], hIF, hrpoF⟩
        rw [SkewHeap.realloc_node]
        simp only [hsorted, if_neg hlt, Option.bind_eq_bind, heq5, Option.some_bind,
          heq6, heq7, heq8, heq9]

theorem nodup_in_window_length {l : List Nat} (hnd : l.Nodup) {i n : Nat}
    (hlow : ∀ j ∈ l, i < j) (hhigh : ∀ j ∈ l, j < n) : l.length ≤ n - i - 1 := by
  have hsub : l ⊆ List.map (fun k => k + (i + 1)) (List.range (n - i - 1)) := by
    intro x hx
    have h1 := hlow x hx
    have h2 := hhigh x hx
    exact List.mem_map.mpr ⟨x - (i + 1), List.mem_range.mpr (by omega), by omega⟩
  have h3 := (List.subperm_of_subset hnd hsub).length_le
  simpa using h3

theorem nodup_bounded_covers {l : List Nat} (hnd : l.Nodup) {k : Nat}
    (hb : ∀ j ∈ l, j < k) (hlen : k ≤ l.length) : ∀ j, j < k → j ∈ l := by
  intro j hj
  by_contra hjl
  have hsub : l ⊆ (List.range k).erase j := by
    intro x hx
    have hxk : x ∈ List.range k := List.mem_range.mpr (hb x hx)
    have hxj : x ≠ j := fun hc => hjl (hc ▸ hx)
    exact (List.mem_erase_of_ne hxj).mpr hxk
  have h1 := (List.subperm_of_subset hnd hsub).length_le
  have h2 : ((List.range k).erase j).length = k - 1 := by
    rw [List.length_erase_of_mem (List.mem_range.mpr hj), List.length_range]
  omega

theorem needs_defrag_congr {h1 h2 : SkewHeap α} (hn : h1.nodes.length = h2.nodes.length)
    (hf : h1.freed.length = h2.freed.length) : h1.needs_defrag = h2.needs_defrag := by
  rw [SkewHeap.needs_defrag, SkewHeap.needs_defrag, hn, hf]

theorem defragStep_spec {h : SkewHeap α} {t : ITree α} (hI : InvT h t)
    (hrp : RootParentOk h) {i : Nat} (hlen : i < h.nodes.length) :
    (i ∉ t.idxs ∧ h.defragStep i = some (h, false)) ∨
    (i ∈ t.idxs ∧
      h.defragStep i = some ({ h with freed := sortNat h.freed }, true) ∧
      ∀ j ∈ h.freed, i < j) ∨
    (i ∈ t.idxs ∧ ∃ (h2 : SkewHeap α) (dst : Nat),
      h.defragStep i = some (h2, false) ∧ dst < i ∧ dst ∉ t.idxs ∧
      InvT h2 (t.rename i dst) ∧ RootParentOk h2 ∧
      h2.count = h.count ∧ h2.nodes.length = h.nodes.length ∧
      h2.freed.length = h.freed.length) := by
  obtain ⟨ndi, hndi⟩ : ∃ nd : Node α, h.nodes[i]? = some nd :=
    ⟨_, List.getElem?_eq_getElem hlen⟩
  cases hit : ndi.item with
  | none =>
      left
      refine ⟨?_, ?_⟩
      · intro hc
        have h1 := (hI.liveIff i ndi hndi).mpr hc
        rw [hit] at h1
        simp at h1
      · rw [SkewHeap.defragStep]
        simp only [hndi, Option.bind_eq_bind, Option.some_bind, hit]
  | some x =>
      have hiT : i ∈ t.idxs := (hI.liveIff i ndi hndi).mp (by rw [hit]; rfl)
      rcases realloc_spec hI hrp hiT with ⟨heqR, hfree⟩ |
        ⟨nodesF, dst, rest2, hsorted2, heqR, hdlt, hdT, hlenF, hIF, hrpF⟩
      · right
        left
        refine ⟨hiT, ?_, hfree⟩
        rw [SkewHeap.defragStep]
        simp only [hndi, Option.bind_eq_bind, Option.some_bind, hit, heqR]
      · right
        right
        refine ⟨hiT, SkewHeap.mk h.count
          (if h.root = some i then some dst else h.root) nodesF (rest2 ++ [i]),
          dst, ?_, hdlt, hdT, hIF, hrpF, rfl, hlenF, ?_⟩
        · rw [SkewHeap.defragStep]
          simp only [hndi, Option.bind_eq_bind, Option.some_bind, hit, heqR]
          by_cases hri : h.root = some i <;> simp [hri]
        · have h1 : (sortNat h.freed).length = h.freed.length := sortNat_length _
          rw [hsorted2] at h1
          simp only [List.length_cons] at h1
          simp only [List.length_append, List.length_singleton]
          omega

theorem defragLoop_spec : ∀ (i : Nat) (h : SkewHeap α) (t : ITree α),
    InvT h t → RootParentOk h →
    (∀ j, i < j → j < h.nodes.length → j ∉ t.idxs) →
    i < h.nodes.length →
    ∃ (h1 : SkewHeap α) (t1 : ITree α) (iEnd : Nat),
      SkewHeap.defragLoop i h = some (h1, iEnd) ∧ InvT h1 t1 ∧
      t1.erase = t.erase ∧ h1.count = h.count ∧
      h1.nodes.length = h.nodes.length ∧ h1.freed.length = h.freed.length ∧
      iEnd ≤ i ∧
      (h.needs_defrag = true → ∀ j ∈ t1.idxs, j < t1.size) ∧
      (h.needs_defrag = false → h1 = h ∧ iEnd = i) := by
  intro i
  induction i with
  | zero =>
      intro h t hI hrp hhigh hlen
      by_cases hnd : h.needs_defrag = false
      · refine ⟨h, t, 0, ?_, hI, rfl, rfl, rfl, rfl, le_refl 0,
          fun hc => by simp [hnd] at hc, fun _ => ⟨rfl, rfl⟩⟩
        rw [SkewHeap.defragLoop, if_pos hnd]
      · have hndT : h.needs_defrag = true := by
          revert hnd
          cases h.needs_defrag <;> simp
        rcases defragStep_spec hI hrp hlen with ⟨hiT, hstep⟩ | ⟨hiT, hstep, hfree⟩ |
          ⟨hiT, h2, dst, hstep, hdlt, hdT, hIF, hrpF, hc2, hl2, hf2⟩
        · refine ⟨h, t, 0, ?_, hI, rfl, rfl, rfl, rfl, le_refl 0, ?_,
            fun hc => by rw [hc] at hndT; cases hndT⟩
          · rw [SkewHeap.defragLoop, if_neg hnd]
            simp only [hstep, Option.bind_eq_bind, Option.some_bind]
            rfl
          · intro hc j hj
            exfalso
            rcases Nat.eq_zero_or_pos j with hj0 | hjpos
            · rw [hj0] at hj
              exact hiT hj
            · exact hhigh j hjpos (hI.shape.idx_lt j hj) hj
        · refine ⟨{ h with freed := sortNat h.freed }, t, 0, ?_, InvT_sortFreed hI,
            rfl, rfl, rfl, by simp [sortNat_length], le_refl 0, ?_,
            fun hc => by rw [hc] at hndT; cases hndT⟩
          · rw [SkewHeap.defragLoop, if_neg hnd]
            simp only [hstep, Option.bind_eq_bind, Option.some_bind]
            rfl
          · intro hc j hj
            have hj0 : j = 0 := by
              by_contra hcon
              exact hhigh j (by omega) (hI.shape.idx_lt j hj) hj
            have hpos : 0 < t.idxs.length := List.length_pos.mpr
              (fun hc2 => by rw [hc2] at hiT; cases hiT)
            rw [ITree.idxs_length] at hpos
            omega
        · exact absurd hdlt (by omega)
  | succ k ih =>
      intro h t hI hrp hhigh hlen
      by_cases hnd : h.needs_defrag = false
      · refine ⟨h, t, k + 1, ?_, hI, rfl, rfl, rfl, rfl, le_refl _,
          fun hc => by simp [hnd] at hc, fun _ => ⟨rfl, rfl⟩⟩
        rw [SkewHeap.defragLoop, if_pos hnd]
      · have hndT : h.needs_defrag = true := by
          revert hnd
          cases h.needs_defrag <;> simp
        rcases defragStep_spec hI hrp hlen with ⟨hiT, hstep⟩ | ⟨hiT, hstep, hfree⟩ |
          ⟨hiT, h2, dst, hstep, hdlt, hdT, hIF, hrpF, hc2, hl2, hf2⟩
        · have hhigh2 : ∀ j, k < j → j < h.nodes.length → j ∉ t.idxs := by
            intro j hjk hjlen
            rcases Nat.lt_or_ge (k + 1) j with hgt | hle
            · exact hhigh j hgt hjlen
            · have hji : j = k + 1 := by omega
              rw [hji]
              exact hiT
          obtain ⟨h1, t1, iEnd, heqL, hI1, her, hc1, hl1, hf1, hie, hexit, hskip⟩ :=
            ih h t hI hrp hhigh2 (by omega)
          refine ⟨h1, t1, iEnd, ?_, hI1, her, hc1, hl1, hf1, by omega, hexit,
            fun hc => by rw [hc] at hndT; cases hndT⟩
          rw [SkewHeap.defragLoop, if_neg hnd]
          simp only [hstep, Option.bind_eq_bind, Option.some_bind]
          exact heqL
        · refine ⟨{ h with freed := sortNat h.freed }, t, k + 1, ?_, InvT_sortFreed hI,
            rfl, rfl, rfl, by simp [sortNat_length], le_refl _, ?_,
            fun hc => by rw [hc] at hndT; cases hndT⟩
          · rw [SkewHeap.defragLoop, if_neg hnd]
            simp only [hstep, Option.bind_eq_bind, Option.some_bind]
            rfl
          · intro hc j hj
            have hjb : j ≤ k + 1 := by
              by_contra hcon
              exact hhigh j (by omega) (hI.shape.idx_lt j hj) hj
            have hfb : h.freed.length ≤ h.nodes.length - (k + 1) - 1 :=
              nodup_in_window_length hI.freedNodup hfree hI.freedBound
            have har := hI.arith
            omega
        · have hhigh2 : ∀ j, k < j → j < h2.nodes.length →
              j ∉ (t.rename (k + 1) dst).idxs := by
            intro j hjk hjlen hjmem
            rcases (ITree.mem_idxs_rename hdT).mp hjmem with ⟨hj1, -⟩ | ⟨hj1, hj2⟩
            · omega
            · have hgt : k + 1 < j := by omega
              exact hhigh j hgt (by rw [← hl2]; exact hjlen) hj1
          obtain ⟨h1, t1, iEnd, heqL, hI1, her, hc1, hl1, hf1, hie, hexit, hskip⟩ :=
            ih h2 (t.rename (k + 1) dst) hIF hrpF hhigh2 (by rw [hl2]; omega)
          refine ⟨h1, t1, iEnd, ?_, hI1, by rw [her, ITree.erase_rename],
            by rw [hc1, hc2], by rw [hl1, hl2], by rw [hf1, hf2], by omega, ?_,
            fun hc => by rw [hc] at hndT; cases hndT⟩
          · rw [SkewHeap.defragLoop, if_neg hnd]
            simp only [hstep, Option.bind_eq_bind, Option.some_bind]
            exact heqL
          · intro hc
            refine hexit ?_
            rw [needs_defrag_congr hl2 hf2]
            exact hc

theorem defrag_ok {h : SkewHeap α} {t : ITree α} (hI : InvT h t) (hrp : RootParentOk h)
    (hne : 1 ≤ h.nodes.length) :
    ∃ (h2 : SkewHeap α) (t2 : ITree α), h.defrag = some h2 ∧ InvT h2 t2 ∧
      t2.erase = t.erase ∧ h2.count = h.count := by
  have hsub : checkSub h.nodes.length 1 = some (h.nodes.length - 1) := by
    rw [checkSub, if_pos hne]
  have hhigh : ∀ j, h.nodes.length - 1 < j → j < h.nodes.length → j ∉ t.idxs := by
    intro j h1 h2
    omega
  obtain ⟨h1, t1, iEnd, heqL, hI1, her, hc1, hl1, hf1, hie, hexit, hskip⟩ :=
    defragLoop_spec (h.nodes.length - 1) h t hI hrp hhigh (by omega)
  by_cases htr : iEnd < h1.nodes.length - 1
  · have hndT : h.needs_defrag = true := by
      by_contra hc
      have hcf : h.needs_defrag = false := by
        revert hc
        cases h.needs_defrag <;> simp
      obtain ⟨hh1, hiE⟩ := hskip hcf
      rw [hh1, hiE] at htr
      omega
    have hcompact := hexit hndT
    have har := hI1.arith
    have hfle : h1.freed.length ≤ h1.nodes.length := by omega
    have hkeep : checkSub h1.nodes.length h1.freed.length
        = some (h1.nodes.length - h1.freed.length) := by
      rw [checkSub, if_pos hfle]
    have hksize : h1.nodes.length - h1.freed.length = t1.size := by omega
    have hlook : ∀ j, j < h1.nodes.length - h1.freed.length →
        (h1.nodes.take (h1.nodes.length - h1.freed.length))[j]? = h1.nodes[j]? :=
      fun j hj => List.getElem?_take_of_lt hj
    have htlen : (h1.nodes.take (h1.nodes.length - h1.freed.length)).length
        = t1.size := by
      rw [List.length_take]
      omega
    have hcsize : ∀ j ∈ t1.idxs, j < h1.nodes.length - h1.freed.length := by
      intro j hj
      rw [hksize]
      exact hcompact j hj
    have hcovers : ∀ j, j < h1.nodes.length - h1.freed.length → j ∈ t1.idxs := by
      intro j hj
      refine nodup_bounded_covers hI1.nodup hcsize ?_ j hj
      rw [ITree.idxs_length]
      omega
    refine ⟨SkewHeap.mk h1.count h1.root
      (h1.nodes.take (h1.nodes.length - h1.freed.length)) [], t1, ?_, ?_, her, hc1⟩
    · rw [SkewHeap.defrag]
      simp only [hsub, Option.bind_eq_bind, Option.some_bind, heqL, if_pos htr,
        hkeep]
    · refine ⟨?_, hI1.nodup, hI1.countEq, ?_, List.nodup_nil, ?_, ?_, ?_, ?_⟩
      · refine hI1.shape.congr_arena ?_
        intro j hj
        rw [hlook j (hcsize j hj)]
      · intro j hj
        cases hj
      · intro j nd hnd
        have hjlen : j < t1.size := by
          have h2 := (List.getElem?_eq_some.mp hnd).1
          rw [htlen] at h2
          exact h2
        rw [hlook j (by omega)] at hnd
        exact hI1.liveIff j nd hnd
      · intro j hjlen
        rw [htlen] at hjlen
        constructor
        · intro hc
          cases hc
        · intro hc
          exact absurd (hcovers j (by omega)) hc
      · rw [htlen, List.length_nil]
        omega
      · refine hI1.parentAcc.congr_parent hI1.nodup ?_
        intro j hj hjr
        rw [hlook j (hcsize j hj)]
  · refine ⟨h1, t1, ?_, hI1, her, hc1⟩
    rw [SkewHeap.defrag]
    simp only [hsub, Option.bind_eq_bind, Option.some_bind, heqL, if_neg htr]

theorem take_eq_of_takePre [LinearOrder α] {h h3 : SkewHeap α} {rt : Nat} {it : Option α}
    (hr : h.root = some rt) (hpre : h.takePre = some (h3, it)) :
    h.take = (if h3.needs_defrag then h3.defrag else some h3).bind
      (fun h4 => some (h4, it)) := by
  rw [SkewHeap.takePre, hr] at hpre
  rw [SkewHeap.take, hr]
  dsimp only at hpre ⊢
  cases hnd : h.nodes[rt]? with
  | none =>
      rw [hnd] at hpre
      simp at hpre
  | some rootNd =>
      rw [hnd] at hpre
      simp only [Option.bind_eq_bind, Option.some_bind] at hpre ⊢
      cases hcs : checkSub h.count 1 with
      | none =>
          rw [hcs] at hpre
          simp at hpre
      | some nc =>
          rw [hcs] at hpre
          simp only [Option.some_bind] at hpre ⊢
          cases hm : SkewHeap.merge (mergeFuel (SkewHeap.mk nc (some rt) h.nodes h.freed))
              h.nodes rootNd.left rootNd.right with
          | none =>
              rw [hm] at hpre
              simp at hpre
          | some pr =>
              obtain ⟨nodes2, newRoot⟩ := pr
              rw [hm] at hpre
              simp only [Option.some_bind] at hpre ⊢
              cases hf : SkewHeap.free_node (SkewHeap.mk nc newRoot nodes2 h.freed) rt with
              | none =>
                  rw [hf] at hpre
                  simp at hpre
              | some hfr =>
                  rw [hf] at hpre
                  simp only [Option.some_bind] at hpre ⊢
                  injection hpre with hp1
                  injection hp1 with hp2 hp3
                  rw [hp2, hp3]
                  by_cases hdf : h3.needs_defrag = true <;> simp [hdf]

theorem take_ok [LinearOrder α] {h : SkewHeap α} {rt : Nat} {x : α} {l r : ITree α}
    (hI : InvT h (.node rt x l r)) :
    ∃ (h4 : SkewHeap α) (t4 : ITree α),
      h.take = some (h4, some x) ∧ InvT h4 t4 ∧
      t4.erase = (ITree.fmerge l r).erase ∧ h4.count = h.count - 1 := by
  obtain ⟨h3, ndRt, hpre, hI3, hc3, hl3, hfr3, hroot3, hndRt, hlA, hrA, hnd3rt, hnewpar⟩ :=
    takePre_ok hI
  have hr : h.root = some rt := (hI.shape.root_spec).symm
  have heqT := take_eq_of_takePre hr hpre
  by_cases hdf : h3.needs_defrag
  · have hrp3 : RootParentOk h3 := by
      intro w hw nd hnd p hp
      obtain ⟨ndW, hndW, hparW⟩ := hnewpar w (by rw [← hroot3]; exact hw)
      rw [hndW] at hnd
      injection hnd with hh
      rw [← hh, hparW] at hp
      injection hp with hh2
      rw [← hh2, hl3]
      exact (List.getElem?_eq_some.mp hndRt).1
    have hne3 : 1 ≤ h3.nodes.length := by
      rw [hl3]
      have h1 := (List.getElem?_eq_some.mp hndRt).1
      omega
    obtain ⟨h4, t4, heqD, hI4, her4, hc4⟩ := defrag_ok hI3 hrp3 hne3
    refine ⟨h4, t4, ?_, hI4, by rw [her4], by rw [hc4, hc3]⟩
    rw [heqT, if_pos hdf, heqD]
    rfl
  · refine ⟨h3, ITree.fmerge l r, ?_, hI3, rfl, hc3⟩
    rw [heqT, if_neg hdf]
    rfl

theorem drain_sim [LinearOrder α] : ∀ (n : Nat) (h : SkewHeap α) (t : ITree α),
    InvT h t → n = h.count →
    SkewHeap.drain n h = some (STree.drainAux n t.erase) := by
  intro n
  induction n with
  | zero =>
      intro h t hI hn
      rw [SkewHeap.drain, if_pos hn.symm, STree.drainAux]
  | succ k ih =>
      intro h t hI hn
      have hcn : h.count ≠ 0 := by omega
      cases t with
      | leaf =>
          have h1 : h.count = 0 := by
            rw [hI.countEq]
            rfl
          exact absurd h1 hcn
      | node rt x l r =>
          obtain ⟨h4, t4, heqT, hI4, her4, hc4⟩ := take_ok hI
          have hrec := ih h4 t4 hI4 (by omega)
          rw [SkewHeap.drain, if_neg hcn]
          simp only [heqT, Option.bind_eq_bind, Option.some_bind, hrec,
            Option.some_bind]
          rw [ITree.erase]
          rw [STree.drainAux]
          rw [her4, ITree.erase_fmerge]

theorem putList_ok [LinearOrder α] : ∀ (xs : List α) (h : SkewHeap α) (t : ITree α),
    InvT h t → CleanFreed h →
    ∃ (h2 : SkewHeap α) (t2 : ITree α), h.putList xs = some h2 ∧ InvT h2 t2 ∧
      CleanFreed h2 ∧
      (t.erase.heapB = true → t2.erase.heapB = true) ∧
      t2.erase.items.Perm (t.erase.items ++ xs) ∧
      h2.count = h.count + xs.length := by
  intro xs
  induction xs with
  | nil =>
      intro h t hI hcl
      exact ⟨h, t, rfl, hI, hcl, fun hh => hh, by simp, by simp⟩
  | cons x xs ih =>
      intro h t hI hcl
      obtain ⟨h1, idx, heqP, hI1, hcl1, hc1, -⟩ := put_ok hI hcl x
      obtain ⟨h2, t2, heqL, hI2, hcl2, hhb, hperm, hc2⟩ :=
        ih h1 (ITree.fmerge t (.node idx x .leaf .leaf)) hI1 hcl1
      refine ⟨h2, t2, ?_, hI2, hcl2, ?_, ?_, by rw [hc2, hc1]; simp; omega⟩
      · rw [SkewHeap.putList]
        simp only [heqP, Option.bind_eq_bind, Option.some_bind, heqL]
      · intro hh
        refine hhb ?_
        rw [ITree.erase_fmerge]
        exact STree.heapB_fmerge hh (by rw [ITree.erase]; rfl)
      · refine hperm.trans ?_
        have h1 : (ITree.fmerge t (.node idx x .leaf .leaf)).erase.items.Perm
            (t.erase.items ++ [x]) := by
          rw [ITree.erase_fmerge]
          refine (STree.items_fmerge_perm _ _).trans ?_
          rw [ITree.erase]
          rfl
        refine (h1.append_right xs).trans ?_
        rw [List.append_assoc]
        rfl

/-! ## Concrete states used as witnesses and counterexamples -/

theorem InvT_new : InvT (SkewHeap.new : SkewHeap α) .leaf := by
  refine ⟨Shape.leaf, List.nodup_nil, rfl, ?_, List.nodup_nil, ?_, ?_, rfl, trivial⟩
  · intro j hj
    exact absurd hj (List.not_mem_nil j)
  · intro j nd hnd
    simp [SkewHeap.new] at hnd
  · intro j hj
    simp [SkewHeap.new] at hj

theorem CleanFreed_new : CleanFreed (SkewHeap.new : SkewHeap α) :=
  fun j hj => absurd hj (List.not_mem_nil j)

theorem InvT_one : InvT
    (⟨1, some 0, [⟨some (5 : Nat), none, none, none⟩], []⟩ : SkewHeap Nat)
    (.node 0 5 .leaf .leaf) := by
  refine ⟨Shape.node rfl rfl Shape.leaf Shape.leaf, by decide, rfl, ?_,
    List.nodup_nil, ?_, ?_, rfl, ⟨trivial, trivial, trivial, trivial⟩⟩
  · intro j hj
    exact absurd hj (List.not_mem_nil j)
  · intro j nd hnd
    match j with
    | 0 =>
        injection hnd with hh
        rw [← hh]
        simp [ITree.idxs]
    | j + 1 => simp at hnd
  · intro j hj
    have hj0 : j = 0 := by
      simp at hj
      omega
    rw [hj0]
    simp [ITree.idxs]

theorem RootParentOk_one : RootParentOk
    (⟨1, some 0, [⟨some (5 : Nat), none, none, none⟩], []⟩ : SkewHeap Nat) := by
  intro w hw nd hnd p hp
  injection hw with hw2
  rw [← hw2] at hnd
  injection hnd with hn2
  rw [← hn2] at hp
  simp at hp

theorem InvT_big : InvT
    (⟨1, some 100, List.replicate 100 (⟨none, none, none, none⟩ : Node Nat)
      ++ [⟨some 5, none, none, none⟩], List.range 100⟩ : SkewHeap Nat)
    (.node 100 5 .leaf .leaf) := by
  have hlook : (List.replicate 100 (⟨none, none, none, none⟩ : Node Nat)
      ++ [⟨some 5, none, none, none⟩])[100]? = some ⟨some 5, none, none, none⟩ := by
    decide
  refine ⟨Shape.node hlook rfl Shape.leaf Shape.leaf, by decide, by decide, by decide,
    by decide, ?_, ?_, by simp [ITree.size], ⟨trivial, trivial, trivial, trivial⟩⟩
  · intro j nd hnd
    have hjlen : j < 101 := by
      have h1 := (List.getElem?_eq_some.mp hnd).1
      simpa using h1
    by_cases hj : j = 100
    · rw [hj, hlook] at hnd
      injection hnd with hh
      rw [← hh, hj]
      simp [ITree.idxs]
    · have hj100 : j < 100 := by omega
      rw [List.getElem?_append_left (by simpa using hj100),
        List.getElem?_replicate_of_lt hj100] at hnd
      injection hnd with hh
      rw [← hh]
      simp [ITree.idxs]
      omega
  · intro j hj
    simp only [List.mem_range, ITree.mem_idxs_single]
    constructor
    · intro h1 h2
      omega
    · intro h1
      have hjlen : j < 101 := by simpa using hj
      omega

theorem CleanFreed_big : CleanFreed
    (⟨1, some 100, List.replicate 100 (⟨none, none, none, none⟩ : Node Nat)
      ++ [⟨some 5, none, none, none⟩], List.range 100⟩ : SkewHeap Nat) := by
  intro j hj nd hnd
  have hj100 : j < 100 := by simpa using hj
  rw [List.getElem?_append_left (by simpa using hj100),
    List.getElem?_replicate_of_lt hj100] at hnd
  injection hnd with hh
  rw [← hh]
  exact ⟨rfl, rfl, rfl⟩

theorem FHeap_drain_eq [LinearOrder α] :
    ∀ (n : Nat) (t : STree α) (c : Nat), FHeap.drain n ⟨t, c⟩ = STree.drainAux n t := by
  intro n
  induction n with
  | zero =>
      intro t c
      cases t <;> rfl
  | succ k ih =>
      intro t c
      cases t with
      | leaf => rfl
      | node x l r =>
          rw [FHeap.drain, STree.drainAux]
          dsimp only
          rw [ih]

/-! ## The claims -/

/-- C1: for every sequence of put calls from the new heap followed by repeated
take calls until the heap reports empty, the sequence of items returned by take
is non decreasing under the item ordering (and is a permutation of the inserted
items). -/
theorem C1_puts_then_takes_sorted [LinearOrder α] (xs : List α) :
    ∃ (h2 : SkewHeap α) (out : List α),
      SkewHeap.new.putList xs = some h2 ∧
      SkewHeap.drain h2.count h2 = some out ∧
      List.Sorted (· ≤ ·) out ∧ out.Perm xs := by
  obtain ⟨h2, t2, heqP, hI2, hcl2, hhb, hperm, hc2⟩ :=
    putList_ok xs SkewHeap.new .leaf InvT_new CleanFreed_new
  have hhb2 : t2.erase.heapB = true := hhb rfl
  have hsz : t2.erase.size ≤ h2.count := by
    rw [ITree.size_erase, ← hI2.countEq]
  refine ⟨h2, STree.drainAux h2.count t2.erase, heqP,
    drain_sim h2.count h2 t2 hI2 rfl, ?_, ?_⟩
  · exact STree.drainAux_sorted _ _ hhb2 hsz
  · refine (STree.drainAux_perm _ _ hhb2 hsz).trans ?_
    simpa [ITree.erase, STree.items] using hperm

/-- C2: the claim that allocation reuse clears the left, right and parent
fields of the reused slot fails: after put 10, put 3, take from the new heap,
allocating 5 reuses handle 1, populates its item, but keeps the stale left
link. -/
theorem C2_alloc_reuse_keeps_stale_links :
    ∃ (h1 : SkewHeap Nat) (nd : Node Nat),
      ((do
        let (ha, _) ← (SkewHeap.new : SkewHeap Nat).put 10
        let (hb, _) ← ha.put 3
        let (hc, _) ← hb.take
        hc.alloc_node 5) : Option (SkewHeap Nat × Option Nat)) = some (h1, some 1) ∧
      h1.nodes[1]? = some nd ∧ nd.item = some 5 ∧
      ¬ (nd.left = none ∧ nd.right = none ∧ nd.parent = none) := by
  refine ⟨⟨1, some 0,
    [⟨some 10, none, none, some 1⟩, ⟨some 5, some 0, none, none⟩], []⟩,
    ⟨some 5, some 0, none, none⟩, by decide, rfl, rfl, ?_⟩
  intro hc
  exact absurd hc.1 (by decide)

/-- C3: merging two live roots returns the node with the smaller item, the
first argument winning ties, and rewires the winner so that its new left child
is the merge of the loser with the winner old right child and its new right
child is the winner old left child. -/
theorem C3_merge_winner_children [LinearOrder α] {nodes : List (Node α)}
    {a b : Nat} {xa xb : α} {la ra lb rb : ITree α}
    (hsa : Shape nodes (some a) (.node a xa la ra))
    (hsb : Shape nodes (some b) (.node b xb lb rb))
    (hnd : ((ITree.node a xa la ra).idxs ++ (ITree.node b xb lb rb).idxs).Nodup)
    (hpa : ParentAcc nodes (.node a xa la ra))
    (hpb : ParentAcc nodes (.node b xb lb rb))
    {fuel : Nat}
    (hfuel : 2 * ((ITree.node a xa la ra).size + (ITree.node b xb lb rb).size) + 2
      ≤ fuel) :
    ∃ (nodes2 : List (Node α)) (w : Nat) (ndW : Node α),
      SkewHeap.merge fuel nodes (some a) (some b) = some (nodes2, some w) ∧
      nodes2[w]? = some ndW ∧
      ((xb < xa ∧ w = b ∧
          ndW.left = (ITree.fmerge (.node a xa la ra) rb).rootI ∧
          ndW.right = lb.rootI) ∨
        (¬ xb < xa ∧ w = a ∧
          ndW.left = (ITree.fmerge (.node b xb lb rb) ra).rootI ∧
          ndW.right = la.rootI)) := by
  have hsa2 : Shape nodes (ITree.node a xa la ra).rootI (.node a xa la ra) := hsa
  have hsb2 : Shape nodes (ITree.node b xb lb rb).rootI (.node b xb lb rb) := hsb
  obtain ⟨nodes2, heq, hlen, hshape, hpacc, hframe, hitems⟩ :=
    merge_sim fuel nodes (.node a xa la ra) (.node b xb lb rb) hsa2 hsb2 hnd hpa hpb hfuel
  by_cases hlt : xb < xa
  · have hform : ITree.fmerge (.node a xa la ra) (.node b xb lb rb)
        = .node b xb (ITree.fmerge (.node a xa la ra) rb) lb := by
      rw [ITree.fmerge, if_pos hlt]
    rw [hform] at heq hshape
    simp only [ITree.rootI] at heq hshape
    obtain ⟨-, ndW, hndW, -, -, -, hlA, hrA⟩ := hshape.node_inv
    exact ⟨nodes2, b, ndW, heq, hndW, Or.inl ⟨hlt, rfl, hlA, hrA⟩⟩
  · have hform : ITree.fmerge (.node a xa la ra) (.node b xb lb rb)
        = .node a xa (ITree.fmerge (.node b xb lb rb) ra) la := by
      rw [ITree.fmerge, if_neg hlt]
    rw [hform] at heq hshape
    simp only [ITree.rootI] at heq hshape
    obtain ⟨-, ndW, hndW, -, -, -, hlA, hrA⟩ := hshape.node_inv
    exact ⟨nodes2, a, ndW, heq, hndW, Or.inr ⟨hlt, rfl, hlA, hrA⟩⟩

/-- C3 witness: two singleton trees at handles 0 and 1, items 10 and 3; the
winner is handle 1. -/
theorem C3_merge_winner_children_witness :
    ∃ (nodes2 : List (Node Nat)) (w : Nat) (ndW : Node Nat),
      SkewHeap.merge 6
        [⟨some 10, none, none, none⟩, ⟨some 3, none, none, none⟩]
        (some 0) (some 1)
        = some (nodes2, some w) ∧
      nodes2[w]? = some ndW ∧
      (((3 : Nat) < 10 ∧ w = 1 ∧
          ndW.left = (ITree.fmerge (.node 0 (10 : Nat) .leaf .leaf)
            ITree.leaf).rootI ∧ ndW.right = (ITree.leaf : ITree Nat).rootI) ∨
        (¬ (3 : Nat) < 10 ∧ w = 0 ∧
          ndW.left = (ITree.fmerge (.node 1 (3 : Nat) .leaf .leaf)
            ITree.leaf).rootI ∧ ndW.right = (ITree.leaf : ITree Nat).rootI)) :=
  C3_merge_winner_children
    (Shape.node (show [(⟨some 10, none, none, none⟩ : Node Nat),
        ⟨some 3, none, none, none⟩][0]? = some ⟨some 10, none, none, none⟩ from rfl)
      rfl Shape.leaf Shape.leaf)
    (Shape.node (show [(⟨some 10, none, none, none⟩ : Node Nat),
        ⟨some 3, none, none, none⟩][1]? = some ⟨some 3, none, none, none⟩ from rfl)
      rfl Shape.leaf Shape.leaf)
    (by decide) ⟨trivial, trivial, trivial, trivial⟩
    ⟨trivial, trivial, trivial, trivial⟩ (by decide)

/-- C4: the root and count invariant does not hold in every reachable state:
after put 10, put 3, take, put 5, take, take from the new heap the count is
zero while the root is still a handle. -/
theorem C4_reachable_state_breaks_invariant :
    ∃ h : SkewHeap Nat,
      ((do
        let (ha, _) ← (SkewHeap.new : SkewHeap Nat).put 10
        let (hb, _) ← ha.put 3
        let (hc, _) ← hb.take
        let (hd, _) ← hc.put 5
        let (he, _) ← hd.take
        let (hf, _) ← he.take
        some hf) : Option (SkewHeap Nat)) = some h ∧
      h.count = 0 ∧ h.root ≠ none := by
  refine ⟨⟨0, some 0, [⟨none, some 0, none, some 0⟩, ⟨none, some 0, some 0, none⟩],
    [1, 0]⟩, by decide, rfl, ?_⟩
  intro hc
  cases hc

/-- C5: take on a reachable empty heap is not always a clean empty result:
after put 10, put 3, take, put 5, take, take from the new heap the heap
reports size zero, yet a further take faults on the count decrement, modelled
by the checked subtraction returning none. -/
theorem C5_take_on_reachable_empty_faults :
    ∃ h : SkewHeap Nat,
      ((do
        let (ha, _) ← (SkewHeap.new : SkewHeap Nat).put 10
        let (hb, _) ← ha.put 3
        let (hc, _) ← hb.take
        let (hd, _) ← hc.put 5
        let (he, _) ← hd.take
        let (hf, _) ← he.take
        some hf) : Option (SkewHeap Nat)) = some h ∧
      h.size = 0 ∧ h.take = none := by
  exact ⟨⟨0, some 0, [⟨none, some 0, none, some 0⟩, ⟨none, some 0, some 0, none⟩],
    [1, 0]⟩, by decide, rfl, rfl⟩

/-- C6 counterexample: the empty heap satisfies the full heap invariant, yet
running the compaction pass on it faults at the initial index computation
nodes.len() - 1. -/
theorem C6_counterexample :
    InvH (SkewHeap.new : SkewHeap Nat) ∧ CleanFreed (SkewHeap.new : SkewHeap Nat) ∧
    (SkewHeap.new : SkewHeap Nat).defrag = none :=
  ⟨⟨.leaf, InvT_new, rfl⟩, CleanFreed_new, rfl⟩

/-- C6, amended with a non empty arena: on a heap satisfying the invariants
whose arena holds at least one slot, the compaction pass succeeds and preserves
the item tree, the count and the whole observable drain. -/
theorem C6_defrag_preserves_behavior [LinearOrder α] {h : SkewHeap α} {t : ITree α}
    (hI : InvT h t) (hrp : RootParentOk h) (hne : 1 ≤ h.nodes.length) :
    ∃ (h2 : SkewHeap α) (t2 : ITree α), h.defrag = some h2 ∧ InvT h2 t2 ∧
      t2.erase = t.erase ∧ h2.count = h.count ∧
      SkewHeap.drain h2.count h2 = SkewHeap.drain h.count h := by
  obtain ⟨h2, t2, heq, hI2, her, hc⟩ := defrag_ok hI hrp hne
  refine ⟨h2, t2, heq, hI2, her, hc, ?_⟩
  rw [drain_sim h2.count h2 t2 hI2 rfl, drain_sim h.count h t hI rfl, her, hc]

/-- C6 witness: the amended theorem applied to a one slot heap holding one
item. -/
theorem C6_defrag_preserves_behavior_witness :
    ∃ (h2 : SkewHeap Nat) (t2 : ITree Nat),
      (⟨1, some 0, [⟨some (5 : Nat), none, none, none⟩], []⟩ : SkewHeap Nat).defrag
        = some h2 ∧
      InvT h2 t2 ∧ t2.erase = (ITree.node 0 (5 : Nat) .leaf .leaf).erase ∧
      h2.count = (⟨1, some 0, [⟨some (5 : Nat), none, none, none⟩], []⟩
        : SkewHeap Nat).count ∧
      SkewHeap.drain h2.count h2 = SkewHeap.drain
        (⟨1, some 0, [⟨some (5 : Nat), none, none, none⟩], []⟩ : SkewHeap Nat).count
        (⟨1, some 0, [⟨some (5 : Nat), none, none, none⟩], []⟩ : SkewHeap Nat) :=
  C6_defrag_preserves_behavior InvT_one RootParentOk_one (by decide)

/-- C7: after a take on a non empty heap the compaction pass runs exactly when
needs_defrag holds on the post free state, and that trigger is equivalent to
the arena length being at least 100 with the free slot count exceeding
90 * nodes.len() / 100 in truncating integer arithmetic. -/
theorem C7_defrag_trigger_iff [LinearOrder α] {h : SkewHeap α} {rt : Nat} {x : α}
    {l r : ITree α} (hI : InvT h (.node rt x l r)) :
    ∃ h3 : SkewHeap α,
      h.takePre = some (h3, some x) ∧
      h.take = (if h3.needs_defrag then h3.defrag else some h3).bind
        (fun h4 => some (h4, some x)) ∧
      (h3.needs_defrag = true ↔
        100 ≤ h3.nodes.length ∧ 90 * h3.nodes.length / 100 < h3.freed.length) := by
  obtain ⟨h3, ndRt, hpre, -, -, -, -, -, -, -, -, -, -⟩ := takePre_ok hI
  have hr : h.root = some rt := (hI.shape.root_spec).symm
  refine ⟨h3, hpre, take_eq_of_takePre hr hpre, ?_⟩
  rw [SkewHeap.needs_defrag]
  simp [Bool.and_eq_true, decide_eq_true_iff]

/-- C7 witness: the trigger characterization on a one slot heap. -/
theorem C7_defrag_trigger_iff_witness :
    ∃ h3 : SkewHeap Nat,
      (⟨1, some 0, [⟨some (5 : Nat), none, none, none⟩], []⟩ : SkewHeap Nat).takePre
        = some (h3, some 5) ∧
      (⟨1, some 0, [⟨some (5 : Nat), none, none, none⟩], []⟩ : SkewHeap Nat).take
        = (if h3.needs_defrag then h3.defrag else some h3).bind
          (fun h4 => some (h4, some 5)) ∧
      (h3.needs_defrag = true ↔
        100 ≤ h3.nodes.length ∧ 90 * h3.nodes.length / 100 < h3.freed.length) :=
  C7_defrag_trigger_iff InvT_one

/-- C8, modelled from the spec: adopt merges the two roots, adds the counts,
resets the second heap to the empty state, and draining the first heap
afterwards yields the sorted merge of the items previously held by both. -/
theorem C8_adopt_merges_and_resets [LinearOrder α] {a b : FHeap α}
    (ha : a.tree.heapB = true) (hb : b.tree.heapB = true)
    (hca : a.count = a.tree.size) (hcb : b.count = b.tree.size) :
    (FHeap.adopt a b).1.tree = a.tree.fmerge b.tree ∧
    (FHeap.adopt a b).1.count = a.count + b.count ∧
    (FHeap.adopt a b).2.tree = STree.leaf ∧
    (FHeap.adopt a b).2.count = 0 ∧
    List.Sorted (· ≤ ·)
      (FHeap.drain (FHeap.adopt a b).1.count (FHeap.adopt a b).1) ∧
    (FHeap.drain (FHeap.adopt a b).1.count (FHeap.adopt a b).1).Perm
      (a.tree.items ++ b.tree.items) := by
  have hsz : (a.tree.fmerge b.tree).size ≤ a.count + b.count := by
    rw [STree.size_fmerge, hca, hcb]
  have hhb := STree.heapB_fmerge ha hb
  have hdr : FHeap.drain (FHeap.adopt a b).1.count (FHeap.adopt a b).1
      = STree.drainAux (a.count + b.count) (a.tree.fmerge b.tree) :=
    FHeap_drain_eq (a.count + b.count) (a.tree.fmerge b.tree) (a.count + b.count)
  refine ⟨rfl, rfl, rfl, rfl, ?_, ?_⟩
  · rw [hdr]
    exact STree.drainAux_sorted _ _ hhb hsz
  · rw [hdr]
    exact (STree.drainAux_perm _ _ hhb hsz).trans (STree.items_fmerge_perm _ _)

set_option maxRecDepth 10000 in
/-- C8 witness: two singleton heaps with items 1 and 2. -/
theorem C8_adopt_merges_and_resets_witness :
    (FHeap.adopt (⟨.node (1 : Nat) .leaf .leaf, 1⟩ : FHeap Nat)
        ⟨.node 2 .leaf .leaf, 1⟩).1.tree
      = (STree.node (1 : Nat) .leaf .leaf).fmerge (.node 2 .leaf .leaf) ∧
    (FHeap.adopt (⟨.node (1 : Nat) .leaf .leaf, 1⟩ : FHeap Nat)
        ⟨.node 2 .leaf .leaf, 1⟩).1.count = 1 + 1 ∧
    (FHeap.adopt (⟨.node (1 : Nat) .leaf .leaf, 1⟩ : FHeap Nat)
        ⟨.node 2 .leaf .leaf, 1⟩).2.tree = STree.leaf ∧
    (FHeap.adopt (⟨.node (1 : Nat) .leaf .leaf, 1⟩ : FHeap Nat)
        ⟨.node 2 .leaf .leaf, 1⟩).2.count = 0 ∧
    List.Sorted (· ≤ ·) (FHeap.drain
      (FHeap.adopt (⟨.node (1 : Nat) .leaf .leaf, 1⟩ : FHeap Nat)
        ⟨.node 2 .leaf .leaf, 1⟩).1.count
      (FHeap.adopt (⟨.node (1 : Nat) .leaf .leaf, 1⟩ : FHeap Nat)
        ⟨.node 2 .leaf .leaf, 1⟩).1) ∧
    (FHeap.drain
      (FHeap.adopt (⟨.node (1 : Nat) .leaf .leaf, 1⟩ : FHeap Nat)
        ⟨.node 2 .leaf .leaf, 1⟩).1.count
      (FHeap.adopt (⟨.node (1 : Nat) .leaf .leaf, 1⟩ : FHeap Nat)
        ⟨.node 2 .leaf .leaf, 1⟩).1).Perm
      ((STree.node (1 : Nat) .leaf .leaf).items
        ++ (STree.node (2 : Nat) .leaf .leaf).items) :=
  C8_adopt_merges_and_resets rfl rfl rfl rfl

set_option maxRecDepth 10000 in
/-- C9 counterexample: on an invariant satisfying heap that crosses the
compaction threshold, take triggers defrag and the freed old root slot is
truncated away entirely, so its left and right links are not left in place. -/
theorem C9_counterexample :
    InvT (⟨1, some 100, List.replicate 100 (⟨none, none, none, none⟩ : Node Nat)
      ++ [⟨some 5, none, none, none⟩], List.range 100⟩ : SkewHeap Nat)
      (.node 100 5 .leaf .leaf) ∧
    CleanFreed (⟨1, some 100,
      List.replicate 100 (⟨none, none, none, none⟩ : Node Nat)
      ++ [⟨some 5, none, none, none⟩], List.range 100⟩ : SkewHeap Nat) ∧
    ∃ h4 : SkewHeap Nat,
      (⟨1, some 100, List.replicate 100 (⟨none, none, none, none⟩ : Node Nat)
        ++ [⟨some 5, none, none, none⟩], List.range 100⟩ : SkewHeap Nat).take
        = some (h4, some 5) ∧
      h4.nodes[100]? = none := by
  refine ⟨InvT_big, CleanFreed_big, ⟨0, none, [], []⟩, ?_, rfl⟩
  decide

/-- C9, amended with the compaction trigger not firing: take frees the old
root clearing only its item, the freed slot keeps its left and right links,
which are the roots of the two live subtrees, and the new root parent still
references the freed slot. -/
theorem C9_free_keeps_links [LinearOrder α] {h : SkewHeap α} {rt : Nat} {x : α}
    {l r : ITree α} (hI : InvT h (.node rt x l r))
    (hnd : ¬ (100 ≤ h.nodes.length
      ∧ 90 * h.nodes.length / 100 < h.freed.length + 1)) :
    ∃ (h3 : SkewHeap α) (ndRt : Node α),
      h.take = some (h3, some x) ∧
      h.nodes[rt]? = some ndRt ∧
      h3.nodes[rt]? = some { ndRt with item := none } ∧
      ndRt.left = l.rootI ∧ ndRt.right = r.rootI ∧
      (∀ c, ndRt.left = some c → c ∈ (ITree.fmerge l r).idxs) ∧
      (∀ c, ndRt.right = some c → c ∈ (ITree.fmerge l r).idxs) ∧
      (∀ w, h3.root = some w → ∃ ndW : Node α,
        h3.nodes[w]? = some ndW ∧ ndW.parent = some rt) := by
  obtain ⟨h3, ndRt, hpre, hI3, hc3, hl3, hfr3, hroot3, hndRt, hlA, hrA, hnd3rt, hnewpar⟩ :=
    takePre_ok hI
  have hr : h.root = some rt := (hI.shape.root_spec).symm
  have hndf : h3.needs_defrag = false := by
    rw [SkewHeap.needs_defrag]
    simp only [Bool.and_eq_true, decide_eq_true_iff, Bool.and_eq_false_iff,
      decide_eq_false_iff_not]
    rw [hl3, hfr3]
    simp only [List.length_append, List.length_singleton]
    by_cases hc : 100 ≤ h.nodes.length
    · right
      intro hcon
      exact hnd ⟨hc, hcon⟩
    · left
      exact hc
  have heqT := take_eq_of_takePre hr hpre
  rw [hndf] at heqT
  simp only [Bool.false_eq_true, if_false, Option.some_bind] at heqT
  refine ⟨h3, ndRt, heqT, hndRt, hnd3rt, hlA, hrA, ?_, ?_, ?_⟩
  · intro c hcl
    rw [hlA] at hcl
    exact ITree.mem_idxs_fmerge.mpr (Or.inl (ITree.rootI_mem hcl))
  · intro c hcr
    rw [hrA] at hcr
    exact ITree.mem_idxs_fmerge.mpr (Or.inr (ITree.rootI_mem hcr))
  · intro w hw
    exact hnewpar w (by rw [← hroot3]; exact hw)

/-- C9 witness: the amended theorem applied to a one slot heap. -/
theorem C9_free_keeps_links_witness :
    ∃ (h3 : SkewHeap Nat) (ndRt : Node Nat),
      (⟨1, some 0, [⟨some (5 : Nat), none, none, none⟩], []⟩ : SkewHeap Nat).take
        = some (h3, some 5) ∧
      (⟨1, some 0, [⟨some (5 : Nat), none, none, none⟩], []⟩
        : SkewHeap Nat).nodes[0]? = some ndRt ∧
      h3.nodes[0]? = some { ndRt with item := none } ∧
      ndRt.left = (ITree.leaf : ITree Nat).rootI ∧
      ndRt.right = (ITree.leaf : ITree Nat).rootI ∧
      (∀ c, ndRt.left = some c →
        c ∈ (ITree.fmerge (ITree.leaf : ITree Nat) ITree.leaf).idxs) ∧
      (∀ c, ndRt.right = some c →
        c ∈ (ITree.fmerge (ITree.leaf : ITree Nat) ITree.leaf).idxs) ∧
      (∀ w, h3.root = some w → ∃ ndW : Node Nat,
        h3.nodes[w]? = some ndW ∧ ndW.parent = some 0) :=
  C9_free_keeps_links InvT_one (by decide)

/-- C10: under the structural invariant together with the clean free list part
of the stated invariants, put, peek and take never fault: every arena access is
in bounds and the count decrement in take does not underflow, so all three
return a value. -/
theorem C10_no_faults [LinearOrder α] {h : SkewHeap α} {t : ITree α}
    (hI : InvT h t) (hclean : CleanFreed h) (x : α) :
    (h.put x).isSome = true ∧ h.peek.isSome = true ∧ h.take.isSome = true := by
  refine ⟨?_, ?_, ?_⟩
  · obtain ⟨h2, idx, heqP, -, -, -, -⟩ := put_ok hI hclean x
    rw [heqP]
    rfl
  · rw [SkewHeap.peek]
    cases hr : h.root with
    | none => rfl
    | some rt =>
        have hrt : rt ∈ t.idxs := ITree.rootI_mem (by rw [hI.shape.root_spec]; exact hr)
        obtain ⟨nd, hnd⟩ : ∃ nd : Node α, h.nodes[rt]? = some nd :=
          ⟨_, List.getElem?_eq_getElem (hI.shape.idx_lt rt hrt)⟩
        dsimp only
        rw [hnd]
        rfl
  · cases t with
    | leaf =>
        have hr : h.root = none := by
          rw [← hI.shape.root_spec]
          rfl
        rw [SkewHeap.take, hr]
        rfl
    | node rt x2 l r =>
        obtain ⟨h4, t4, heqT, -, -, -⟩ := take_ok hI
        rw [heqT]
        rfl

/-- C10 witness: the empty heap with item 0. -/
theorem C10_no_faults_witness :
    ((SkewHeap.new : SkewHeap Nat).put 0).isSome = true ∧
    (SkewHeap.new : SkewHeap Nat).peek.isSome = true ∧
    (SkewHeap.new : SkewHeap Nat).take.isSome = true :=
  C10_no_faults InvT_new CleanFreed_new 0

end Skew
